import Mathlib

/-!
# SyncPrimitives: a shallow embedding of `locking.c`

The primitives of `src/locking.c` are inline x86 assembly; each instruction is
embedded by what it does to its operands.

* Cells accessed as `unsigned int` are `Nat` below `2 ^ 32`, `uintptr_t` cells are
  `Nat` below `2 ^ 64`, cells accessed as `int` are `Int` reduced by `wrap_int`.
* `NULL` is the address `0`.
* A loop is a function with fuel: one unit of fuel is one evaluation of the loop
  body, `none` means the loop has not finished within the fuel.
* An uninitialised local that the assembly writes only in part keeps the bytes it
  does not write; those bytes are a parameter (`ret0`, or a stream `stale` of them,
  one per call).
-/

namespace SyncPrimitives

/-! ## Machine words -/

/-- Reduction of a natural number to an `unsigned int` (32 bits). -/
def wrap32 (x : Nat) : Nat := x % 2 ^ 32

/-- Reduction of a natural number to a `uintptr_t` (64 bits). -/
def wrap64 (x : Nat) : Nat := x % 2 ^ 64

/-- Reduction of an integer to a two's-complement `int` (32 bits). -/
def wrap_int (x : Int) : Int := (x + 2 ^ 31) % 2 ^ 32 - 2 ^ 31

/-- Conversion of a `uintptr_t` to `int`, as in `succ = compare_and_swap_ptr(...)`:
the low 32 bits, read as two's complement. -/
def ptr_to_int (x : Nat) : Int := wrap_int (Int.ofNat x)

/-! ## Exercise 3 and 6: compare and swap -/

/-- The instruction `setz m8`: it stores the zero flag (1 or 0) in ONE byte, the
low byte of its operand on x86 (little endian); every other byte of the operand
keeps the content `old` had. -/
def setz (old : Nat) (zf : Bool) : Nat := old / 256 * 256 + (if zf then 1 else 0)

/-- What a compare-and-swap call yields: the value it returns and the content of
the cell `*ptr` after it. -/
structure cas_result where
  ret : Nat
  cell : Nat
deriving DecidableEq, Repr

/-- Source `compare_and_swap` (locking.c 94-105).

    int ret;                          -- not initialised: holds `ret0`
    mov  expected, %eax
    lock cmpxchg new, *ptr            -- if eax = *ptr then *ptr := new, ZF := 1
                                      -- else eax := *ptr, ZF := 0
    setz ret                          -- low byte of ret := ZF
    return ret;

`ret0` is what the four bytes of the local `ret` held on entry, `cell` the content
of `*ptr`. The old content of `*ptr` lands in `eax`, which is never copied
to `ret`. -/
def compare_and_swap (ret0 cell expected new : Nat) : cas_result :=
  let eax := wrap32 expected
  let zf := decide (eax = wrap32 cell)
  { ret := wrap32 (setz (wrap32 ret0) zf)
    cell := if zf then wrap32 new else cell }

/-- Source `compare_and_swap_ptr` (locking.c 275-286): the same three
instructions on 64-bit operands (`mov ..., %rax; lock cmpxchgq; setz`), with
`uintptr_t ret` not initialised. -/
def compare_and_swap_ptr (ret0 cell expected new : Nat) : cas_result :=
  let rax := wrap64 expected
  let zf := decide (rax = wrap64 cell)
  { ret := wrap64 (setz (wrap64 ret0) zf)
    cell := if zf then wrap64 new else cell }

/-! ## Exercise 2 and 4: atomic arithmetic -/

/-- Source `atomic_add` (locking.c 72-78): `lock add inc_val, *value`. The result
is the new content of `*value`. -/
def atomic_add (value inc_val : Int) : Int := wrap_int (value + inc_val)

/-- Source `atomic_sub` (locking.c 58-65): `lock sub dec_val, *value`. -/
def atomic_sub (value dec_val : Int) : Int := wrap_int (value - dec_val)

/-- Source `atomic_add_ret_prev` (locking.c 135-143): `lock xadd inc_val, *value`
leaves the old content of `*value` in the register of `inc_val`, which is
returned, and the sum in `*value`. First component: the value returned; second:
the new content of `*value`. -/
def atomic_add_ret_prev (value inc_val : Int) : Int × Int :=
  (value, wrap_int (value + inc_val))

/-! ## Exercise 3: spin lock -/

/-- Source `struct spinlock` (locking.h 10-12). The field is only ever written by
`spinlock_init` and through the `unsigned int *` handed to `compare_and_swap`. -/
structure spinlock where
  value : Nat
deriving DecidableEq, Repr

/-- Source `spinlock_init` (locking.c 107-109). -/
def spinlock_init (_lock : spinlock) : spinlock := { value := 1 }

/-- Source `spinlock_lock` (locking.c 117-121), run with no other thread touching
the lock. `stale` gives, call by call, what the local `ret` of
`compare_and_swap` held on entry. -/
def spinlock_lock : Nat → (Nat → Nat) → spinlock → Option spinlock
  | 0, _, _ => none
  | fuel + 1, stale, lock =>
    let r := compare_and_swap (stale 0) lock.value 1 0
    if r.ret = 0 then spinlock_lock fuel (fun i => stale (i + 1)) { value := r.cell }
    else some { value := r.cell }

/-- Source `spinlock_unlock` (locking.c 124-126). -/
def spinlock_unlock (ret0 : Nat) (lock : spinlock) : spinlock :=
  { value := (compare_and_swap ret0 lock.value 0 1).cell }

/-- Where a thread that repeats `spinlock_lock; critical section; spinlock_unlock`
stands: inside `spinlock_lock` (before one of its `compare_and_swap` calls), or
between its return from `spinlock_lock` and its call of `spinlock_unlock`. -/
inductive spin_pc where
  | locking
  | critical
deriving DecidableEq, Repr

/-- One lock shared by the threads `0, 1, 2, ...`. -/
structure spin_sys where
  lock : spinlock
  pc : Nat → spin_pc

/-- The lock after `spinlock_init`, every thread about to call `spinlock_lock`. -/
def spin_start : spin_sys :=
  { lock := spinlock_init { value := 0 }, pc := fun _ => spin_pc.locking }

/-- One atomic step of thread `t`: a thread inside `spinlock_lock` performs one
`compare_and_swap(&lock->value, 1, 0)` and tests `== 0`; a thread in its critical
section performs `spinlock_unlock`. `ret0` is the stale content of the local `ret`
of that `compare_and_swap` call. -/
def spin_step (s : spin_sys) (t ret0 : Nat) : spin_sys :=
  match s.pc t with
  | spin_pc.locking =>
    let r := compare_and_swap ret0 s.lock.value 1 0
    { lock := { value := r.cell }
      pc := Function.update s.pc t (if r.ret = 0 then spin_pc.locking else spin_pc.critical) }
  | spin_pc.critical =>
    { lock := spinlock_unlock ret0 s.lock
      pc := Function.update s.pc t spin_pc.locking }

/-- The state after a schedule: a list of (thread, stale content of `ret`). -/
def spin_run (s : spin_sys) : List (Nat × Nat) → spin_sys
  | [] => s
  | (t, ret0) :: rest => spin_run (spin_step s t ret0) rest

/-! ## Exercise 4: barrier -/

/-- Source `struct barrier` (locking.h 22-26). -/
structure barrier where
  total_runners : Int
  cur_runners : Int
  sense : Int
deriving DecidableEq, Repr

/-- Source `barrier_init` (locking.c 145-149). -/
def barrier_init (_bar : barrier) (count : Int) : barrier :=
  { total_runners := count, cur_runners := 0, sense := 1 }

/-- The statement of `barrier_wait` a thread executes next. -/
inductive barrier_pc where
  /-- about to execute `int sense = 1 - bar->sense;` (line 176) -/
  | entry
  /-- about to execute the fetch-and-add and the test of line 177-178 -/
  | arrive
  /-- about to execute `bar->cur_runners = 0;` (line 179) -/
  | reset
  /-- about to execute `bar->sense = sense;` (line 180) -/
  | publish
  /-- about to evaluate `sense != bar->sense` (line 182) -/
  | spin
deriving DecidableEq, Repr

/-- A thread that calls `barrier_wait` again and again: its position, its local
`sense`, and two counters that only record history: how many calls have returned
and how many fetch-and-adds it has performed. -/
structure barrier_thread where
  pc : barrier_pc
  sense : Int
  returned : Nat
  arrived : Nat
deriving DecidableEq, Repr

/-- A thread about to make its first call of `barrier_wait`. -/
def barrier_thread_start : barrier_thread :=
  { pc := barrier_pc.entry, sense := 0, returned := 0, arrived := 0 }

/-- Source `barrier_wait` (locking.c 175-186), one atomic step of one thread. -/
def barrier_wait_step (bar : barrier) (th : barrier_thread) : barrier × barrier_thread :=
  match th.pc with
  | barrier_pc.entry =>
    (bar, { th with pc := barrier_pc.arrive, sense := wrap_int (1 - bar.sense) })
  | barrier_pc.arrive =>
    let r := atomic_add_ret_prev bar.cur_runners 1
    let cur_runners := wrap_int (r.1 + 1)
    ({ bar with cur_runners := r.2 },
     { th with
        arrived := th.arrived + 1
        pc := if cur_runners = bar.total_runners then barrier_pc.reset else barrier_pc.spin })
  | barrier_pc.reset =>
    ({ bar with cur_runners := 0 }, { th with pc := barrier_pc.publish })
  | barrier_pc.publish =>
    ({ bar with sense := th.sense },
     { th with pc := barrier_pc.entry, returned := th.returned + 1 })
  | barrier_pc.spin =>
    if th.sense ≠ bar.sense then (bar, th)
    else (bar, { th with pc := barrier_pc.entry, returned := th.returned + 1 })

/-- One call of `barrier_wait` by a thread that meets no interference, up to the
point where it either returns or enters the spin loop: the statements of lines
176-178 and, for the last arrival, 179-180. -/
def barrier_arrival (bar : barrier) : barrier × barrier_thread :=
  let a := barrier_wait_step bar barrier_thread_start
  let b := barrier_wait_step a.1 a.2
  if b.2.pc = barrier_pc.reset then
    let c := barrier_wait_step b.1 b.2
    barrier_wait_step c.1 c.2
  else b

/-- The barrier after `n` calls of `barrier_wait`, each arriving after the
previous one has returned or has entered its spin loop. -/
def barrier_arrivals : Nat → barrier → barrier
  | 0, bar => bar
  | n + 1, bar => barrier_arrivals n (barrier_arrival bar).1

/-- One barrier shared by threads; only the threads below `total_runners` ever
run. -/
structure barrier_sys where
  bar : barrier
  threads : Nat → barrier_thread

/-- The barrier after `barrier_init(bar, count)`, no thread having started. -/
def barrier_start (count : Int) : barrier_sys :=
  { bar := barrier_init { total_runners := 0, cur_runners := 0, sense := 0 } count
    threads := fun _ => barrier_thread_start }

/-- Thread `t` performs its next atomic step. -/
def barrier_sys_step (s : barrier_sys) (t : Nat) : barrier_sys :=
  let r := barrier_wait_step s.bar (s.threads t)
  { bar := r.1, threads := Function.update s.threads t r.2 }

/-- The state after a schedule (the list of the threads that step, in order). -/
def barrier_run (s : barrier_sys) : List Nat → barrier_sys
  | [] => s
  | t :: rest => barrier_run (barrier_sys_step s t) rest

/-! ## Exercise 5: reader-writer lock -/

/-- Source `struct read_write_lock` (locking.h 33-40). `rw_lock` (0 idle,
1 reading, 2 writing) is only written by `rw_lock_init` and through the
`unsigned int *` handed to `compare_and_swap`. -/
structure read_write_lock where
  readers : Int
  disallow_sub_readers : Int
  rw_lock : Nat
deriving DecidableEq, Repr

/-- Source `rw_lock_init` (locking.c 193-197). -/
def rw_lock_init (_lock : read_write_lock) : read_write_lock :=
  { readers := 0, disallow_sub_readers := 0, rw_lock := 0 }

/-- Source `rw_read_lock` (locking.c 210-217), run with no other thread touching
the lock. The loop condition is a short-circuit `||` of three tests; each
`compare_and_swap` that is reached takes the next entry of `stale`. -/
def rw_read_lock : Nat → (Nat → Nat) → read_write_lock → Option read_write_lock
  | 0, _, _ => none
  | fuel + 1, stale, lock =>
    if lock.disallow_sub_readers = 1 then rw_read_lock fuel stale lock
    else
      let r1 := compare_and_swap (stale 0) lock.rw_lock 0 1
      let lock1 := { lock with rw_lock := r1.cell }
      if r1.ret = 0 then rw_read_lock fuel (fun i => stale (i + 1)) lock1
      else
        let r2 := compare_and_swap (stale 1) lock1.rw_lock 1 1
        let lock2 := { lock1 with rw_lock := r2.cell }
        if r2.ret = 0 then rw_read_lock fuel (fun i => stale (i + 2)) lock2
        else some { lock2 with readers := atomic_add lock2.readers 1 }

/-- Source `rw_read_unlock` (locking.c 219-224). -/
def rw_read_unlock (ret0 : Nat) (lock : read_write_lock) : read_write_lock :=
  let r := atomic_add_ret_prev lock.readers (-1)
  let cur_readers := wrap_int (r.1 - 1)
  let lock1 := { lock with readers := r.2 }
  if cur_readers = 0 then
    { lock1 with rw_lock := (compare_and_swap ret0 lock1.rw_lock 1 0).cell }
  else lock1

/-- Source `rw_write_lock` (locking.c 234-241), run with no other thread touching
the lock. -/
def rw_write_lock : Nat → (Nat → Nat) → read_write_lock → Option read_write_lock
  | 0, _, _ => none
  | fuel + 1, stale, lock =>
    let r := compare_and_swap (stale 0) lock.rw_lock 0 2
    let lock1 := { lock with rw_lock := r.cell }
    if r.ret = 0 then
      let lock2 :=
        if lock1.readers > 0 then { lock1 with disallow_sub_readers := 1 } else lock1
      rw_write_lock fuel (fun i => stale (i + 1)) lock2
    else some lock1

/-- Source `rw_write_unlock` (locking.c 243-246). -/
def rw_write_unlock (ret0 : Nat) (lock : read_write_lock) : read_write_lock :=
  { lock with
    rw_lock := (compare_and_swap ret0 lock.rw_lock 2 0).cell
    disallow_sub_readers := 0 }

/-- The statement a thread that uses the reader-writer lock executes next. -/
inductive rw_pc where
  /-- in none of the four functions and holding nothing -/
  | idle
  /-- in `rw_read_lock`: about to test `lock->disallow_sub_readers == 1` -/
  | rl_test
  /-- in `rw_read_lock`: about to call `compare_and_swap(&lock->rw_lock, 0, 1)` -/
  | rl_claim
  /-- in `rw_read_lock`: about to call `compare_and_swap(&lock->rw_lock, 1, 1)` -/
  | rl_probe
  /-- in `rw_read_lock`: loop left, about to call `atomic_add(&lock->readers, 1)` -/
  | rl_add
  /-- between the return from `rw_read_lock` and the call of `rw_read_unlock` -/
  | reading
  /-- in `rw_read_unlock`: saw `cur_readers == 0`, about to call `compare_and_swap` -/
  | ru_release
  /-- in `rw_write_lock`: about to call `compare_and_swap(&lock->rw_lock, 0, 2)` -/
  | wl_claim
  /-- in `rw_write_lock`: the call failed, about to test `lock->readers > 0` -/
  | wl_readers
  /-- in `rw_write_lock`: about to execute `lock->disallow_sub_readers = 1` -/
  | wl_disallow
  /-- between the return from `rw_write_lock` and the call of `rw_write_unlock` -/
  | writing
  /-- in `rw_write_unlock`: about to execute `lock->disallow_sub_readers = 0` -/
  | wu_clear
deriving DecidableEq, Repr

/-- One reader-writer lock shared by the threads `0, 1, 2, ...`. -/
structure rw_sys where
  lock : read_write_lock
  pc : Nat → rw_pc

/-- The lock after `rw_lock_init`, every thread idle. -/
def rw_start : rw_sys :=
  { lock := rw_lock_init { readers := 0, disallow_sub_readers := 0, rw_lock := 0 }
    pc := fun _ => rw_pc.idle }

/-- One atomic step of one thread at position `pc`: the new lock and the new
position. An idle thread calls `rw_write_lock` when `write` is set and
`rw_read_lock` otherwise; calls are paired by construction, since only a thread
that holds the lock for reading (writing) calls `rw_read_unlock`
(`rw_write_unlock`). `ret0` is the stale content of the local `ret` of the
`compare_and_swap` call of this step, if it has one. -/
def rw_thread_step (lock : read_write_lock) (pc : rw_pc) (write : Bool) (ret0 : Nat) :
    read_write_lock × rw_pc :=
  match pc with
  | rw_pc.idle => (lock, if write then rw_pc.wl_claim else rw_pc.rl_test)
  | rw_pc.rl_test =>
    (lock, if lock.disallow_sub_readers = 1 then rw_pc.rl_test else rw_pc.rl_claim)
  | rw_pc.rl_claim =>
    let r := compare_and_swap ret0 lock.rw_lock 0 1
    ({ lock with rw_lock := r.cell }, if r.ret = 0 then rw_pc.rl_test else rw_pc.rl_probe)
  | rw_pc.rl_probe =>
    let r := compare_and_swap ret0 lock.rw_lock 1 1
    ({ lock with rw_lock := r.cell }, if r.ret = 0 then rw_pc.rl_test else rw_pc.rl_add)
  | rw_pc.rl_add => ({ lock with readers := atomic_add lock.readers 1 }, rw_pc.reading)
  | rw_pc.reading =>
    let r := atomic_add_ret_prev lock.readers (-1)
    let cur_readers := wrap_int (r.1 - 1)
    ({ lock with readers := r.2 }, if cur_readers = 0 then rw_pc.ru_release else rw_pc.idle)
  | rw_pc.ru_release =>
    ({ lock with rw_lock := (compare_and_swap ret0 lock.rw_lock 1 0).cell }, rw_pc.idle)
  | rw_pc.wl_claim =>
    let r := compare_and_swap ret0 lock.rw_lock 0 2
    ({ lock with rw_lock := r.cell }, if r.ret = 0 then rw_pc.wl_readers else rw_pc.writing)
  | rw_pc.wl_readers =>
    (lock, if lock.readers > 0 then rw_pc.wl_disallow else rw_pc.wl_claim)
  | rw_pc.wl_disallow => ({ lock with disallow_sub_readers := 1 }, rw_pc.wl_claim)
  | rw_pc.writing =>
    ({ lock with rw_lock := (compare_and_swap ret0 lock.rw_lock 2 0).cell }, rw_pc.wu_clear)
  | rw_pc.wu_clear => ({ lock with disallow_sub_readers := 0 }, rw_pc.idle)

/-- What a schedule says of one step: the thread, its choice if it is idle, and
the stale content of `ret` if it calls `compare_and_swap`. -/
structure rw_label where
  thread : Nat
  write : Bool
  ret0 : Nat
deriving DecidableEq, Repr

/-- The thread named by the label performs its next atomic step. -/
def rw_sys_step (s : rw_sys) (l : rw_label) : rw_sys :=
  let r := rw_thread_step s.lock (s.pc l.thread) l.write l.ret0
  { lock := r.1, pc := Function.update s.pc l.thread r.2 }

/-- The state after a schedule. -/
def rw_run (s : rw_sys) : List rw_label → rw_sys
  | [] => s
  | l :: rest => rw_run (rw_sys_step s l) rest

/-! ## Exercise 6: lock-free queue -/

/-- Source `struct node` (locking.h 52-55); `next` is an address, `0` for `NULL`. -/
structure node where
  next : Nat
  value : Int
deriving DecidableEq, Repr

/-- Source `struct lf_queue` (locking.h 57-60). -/
structure lf_queue where
  head : Nat
  tail : Nat
deriving DecidableEq, Repr

/-- The memory the queue functions work on: the node stored at each address, the
address `malloc` hands out next, and the queue structure itself. -/
structure memory where
  heap : Nat → node
  brk : Nat
  queue : lf_queue

/-- The library call `malloc(sizeof(struct node))`, assumed to succeed: it hands
out the address `brk`, never handed out before, and leaves the content of the
memory as it is. -/
def malloc (m : memory) : Nat × memory := (m.brk, { m with brk := m.brk + 1 })

/-- Source `lf_queue_init` (locking.c 290-294). The `value` of the first node is
not written. -/
def lf_queue_init (m : memory) : memory :=
  let a := malloc m
  let p := a.1
  let m1 := a.2
  let m2 := { m1 with heap := Function.update m1.heap p { m1.heap p with next := 0 } }
  { m2 with queue := { head := p, tail := p } }

/-- The `do ... while(!succ)` loop of `lf_enqueue` (locking.c 311-319), run with
no other thread touching the queue; `q` is the new node. The result is the
memory, the last value of `p`, and the entries of `stale` not yet used. -/
def lf_enqueue_loop :
    Nat → (Nat → Nat) → memory → Nat → Option (memory × Nat × (Nat → Nat))
  | 0, _, _, _ => none
  | fuel + 1, stale, m, q =>
    let p := m.queue.tail
    let r1 := compare_and_swap_ptr (stale 0) (m.heap p).next 0 q
    let m1 := { m with heap := Function.update m.heap p { m.heap p with next := r1.cell } }
    let succ := ptr_to_int r1.ret
    if succ = 0 then
      let r2 := compare_and_swap_ptr (stale 1) m1.queue.tail p (m1.heap p).next
      let m2 := { m1 with queue := { m1.queue with tail := r2.cell } }
      let succ := ptr_to_int r2.ret
      if succ = 0 then lf_enqueue_loop fuel (fun i => stale (i + 2)) m2 q
      else some (m2, p, fun i => stale (i + 2))
    else some (m1, p, fun i => stale (i + 1))

/-- Source `lf_enqueue` (locking.c 303-321), run with no other thread touching
the queue. -/
def lf_enqueue (fuel : Nat) (stale : Nat → Nat) (m : memory) (val : Int) : Option memory :=
  let a := malloc m
  let q := a.1
  let m0 := { a.2 with heap := Function.update a.2.heap q { next := 0, value := val } }
  (lf_enqueue_loop fuel stale m0 q).map fun x =>
    let m1 := x.1
    let p := x.2.1
    let r := compare_and_swap_ptr (x.2.2 0) m1.queue.tail p q
    { m1 with queue := { m1.queue with tail := r.cell } }

/-- Source `lf_dequeue` (locking.c 325-336), run with no other thread touching
the queue. `val` is the content of `*val` before the call; the result is the
value returned, the memory, and the content of `*val` after the call. -/
def lf_dequeue : Nat → (Nat → Nat) → memory → Int → Option (Int × memory × Int)
  | 0, _, _, _ => none
  | fuel + 1, stale, m, val =>
    let p := m.queue.head
    if (m.heap p).next = 0 then some (0, m, val)
    else
      let r := compare_and_swap_ptr (stale 0) m.queue.head p (m.heap p).next
      let m1 := { m with queue := { m.queue with head := r.cell } }
      if r.ret ≠ 0 then lf_dequeue fuel (fun i => stale (i + 1)) m1 val
      else some (1, m1, (m1.heap (m1.heap p).next).value)

/-- The addresses met from `a` by following `next` at most `n` times, `a` first;
the walk stops at `NULL`. -/
def chain (heap : Nat → node) : Nat → Nat → List Nat
  | 0, _ => []
  | n + 1, a => if a = 0 then [] else a :: chain heap n (heap a).next

/-- A memory with nothing allocated: every node reads as zero and `malloc` starts
at address `1`. -/
def memory_start : memory :=
  { heap := fun _ => { next := 0, value := 0 }, brk := 1, queue := { head := 0, tail := 0 } }

/-- The stale content "all bytes zero" for every call. -/
def stale_zero : Nat → Nat := fun _ => 0

/-- The values waiting in the queue: those of the nodes after `head`, found by
following `next` at most `n` times. -/
def queue_values (m : memory) (n : Nat) : List Int :=
  ((chain m.heap (n + 1) m.queue.head).tail).map (fun a => (m.heap a).value)

/-- Calls of `lf_enqueue`, one per value of the list, in order, by one thread. -/
def lf_enqueue_list (fuel : Nat) (stale : Nat → Nat) : memory → List Int → Option memory
  | m, [] => some m
  | m, v :: vs => (lf_enqueue fuel stale m v).bind fun m1 => lf_enqueue_list fuel stale m1 vs

/-- A queue whose `tail` lags: the state an enqueuer leaves between linking its
node (line 313) and advancing `tail` (line 320). Node 1 is the first node, node 2
holds the value 1 and is linked after it, `head` and `tail` both point to node 1. -/
def memory_lagging : memory :=
  { heap := Function.update
      (Function.update memory_start.heap 1 { next := 2, value := 0 }) 2 { next := 0, value := 1 }
    brk := 3
    queue := { head := 1, tail := 1 } }

/-! ## Invariant of the barrier -/

/-- The value of the shared `sense` once `r` rounds are complete: 1 after
`barrier_init`, toggled by every round. -/
def sense_of (r : Nat) : Int := if r % 2 = 0 then 1 else 0

/-- How many of the numbers `0, ..., n - 1` satisfy `p`. -/
def count_upto (p : Nat → Bool) : Nat → Nat
  | 0 => 0
  | n + 1 => count_upto p n + (if p n then 1 else 0)

/-- How many of the threads `0, ..., N - 1` have performed the fetch-and-add of
round `r + 1`. -/
def arrived_count (N r : Nat) (s : barrier_sys) : Nat :=
  count_upto (fun i => decide ((s.threads i).arrived = r + 1)) N

/-- What the position of a thread says about its counters and its local `sense`
when `r` rounds are complete. -/
def thread_ok (r : Nat) (th : barrier_thread) : Prop :=
  (th.pc = barrier_pc.entry → th.returned = r ∧ th.arrived = r) ∧
  (th.pc = barrier_pc.arrive →
    th.returned = r ∧ th.arrived = r ∧ th.sense = sense_of (r + 1)) ∧
  (th.pc = barrier_pc.reset →
    th.returned = r ∧ th.arrived = r + 1 ∧ th.sense = sense_of (r + 1)) ∧
  (th.pc = barrier_pc.publish →
    th.returned = r ∧ th.arrived = r + 1 ∧ th.sense = sense_of (r + 1)) ∧
  (th.pc = barrier_pc.spin →
    th.arrived = th.returned + 1 ∧ th.sense = sense_of (th.returned + 1) ∧
      (th.returned = r ∨ th.returned + 1 = r))

/-- A thread is the last arrival of its round: it stands at line 179 or 180. -/
def is_last (th : barrier_thread) : Prop :=
  th.pc = barrier_pc.reset ∨ th.pc = barrier_pc.publish

/-- The invariant of `N` threads on one barrier when `r` rounds are complete. -/
structure barrier_inv (N r : Nat) (s : barrier_sys) : Prop where
  total : s.bar.total_runners = (N : Int)
  sense : s.bar.sense = sense_of r
  ok : ∀ t, t < N → thread_ok r (s.threads t)
  cur : (∀ t, t < N → (s.threads t).pc ≠ barrier_pc.publish) →
    s.bar.cur_runners = (arrived_count N r s : Int)
  pub : ∀ t, t < N → (s.threads t).pc = barrier_pc.publish → s.bar.cur_runners = 0
  last : ∀ t, t < N → is_last (s.threads t) →
    arrived_count N r s = N ∧ ∀ u, u < N → is_last (s.threads u) → u = t

/-! ## Invariant of the spin lock -/

/-- The invariant of the spin lock: either it is available (`value = 1`) and no
thread is in its critical section, or it is held (`value = 0`) and exactly one
thread is. -/
def spin_inv (s : spin_sys) : Prop :=
  (s.lock.value = 1 ∧ ∀ t, s.pc t = spin_pc.locking) ∨
  (s.lock.value = 0 ∧
    ∃ t, s.pc t = spin_pc.critical ∧ ∀ u, u ≠ t → s.pc u = spin_pc.locking)

/-! ## Invariant of the reader-writer lock -/

/-- The positions at which a thread owns the lock: it has won one of the two
claiming `compare_and_swap` calls and has not yet given `rw_lock` back. -/
def rw_owner (p : rw_pc) : Bool :=
  match p with
  | rw_pc.rl_probe => true
  | rw_pc.rl_add => true
  | rw_pc.reading => true
  | rw_pc.ru_release => true
  | rw_pc.writing => true
  | _ => false

/-- What the lock holds while the thread at position `p` owns it, or, with no
owner (`none`), while it is idle: `rw_lock`, then `readers`. -/
def rw_expect (p : Option rw_pc) : Nat × Int :=
  match p with
  | none => (0, 0)
  | some rw_pc.writing => (2, 0)
  | some rw_pc.reading => (1, 1)
  | some _ => (1, 0)

/-- The lock and one thread agree: the thread is no owner and the lock is idle,
or the thread is the owner and the lock holds what its position says. -/
def rw_agree (x : read_write_lock × rw_pc) : Prop :=
  (rw_owner x.2 = false ∧ (x.1.rw_lock, x.1.readers) = rw_expect none) ∨
  (rw_owner x.2 = true ∧ (x.1.rw_lock, x.1.readers) = rw_expect (some x.2))

/-- The invariant of the reader-writer lock: at most one thread owns it, and the
lock holds what the position of its owner says. -/
def rw_inv (s : rw_sys) : Prop :=
  ((s.lock.rw_lock, s.lock.readers) = rw_expect none ∧ ∀ t, rw_owner (s.pc t) = false) ∨
  (∃ t, rw_owner (s.pc t) = true ∧ (∀ u, u ≠ t → rw_owner (s.pc u) = false) ∧
    (s.lock.rw_lock, s.lock.readers) = rw_expect (some (s.pc t)))

/-! ## Repeated use of the spin lock and of the fetch-and-add -/

/-- The spin lock taken and released `n` times in a row by one thread, every
`spinlock_lock` being given fuel for a single `compare_and_swap`. Each round
takes two entries of `stale`: one for `spinlock_lock`, one for
`spinlock_unlock`. -/
def spinlock_rounds : Nat → (Nat → Nat) → spinlock → Option spinlock
  | 0, _, lock => some lock
  | n + 1, stale, lock =>
    (spinlock_lock 1 stale lock).bind fun held =>
      spinlock_rounds n (fun i => stale (i + 2)) (spinlock_unlock (stale 1) held)

/-- The content of a cell that held `c` after `k` calls
`atomic_add_ret_prev(&cell, 1)`. -/
def ticket_cell (c : Int) : Nat → Int
  | 0 => c
  | k + 1 => (atomic_add_ret_prev (ticket_cell c k) 1).2

/-- The value returned by call number `k` (counted from 0) of
`atomic_add_ret_prev(&cell, 1)` on a cell that held `c` before the first call. -/
def ticket (c : Int) (k : Nat) : Int := (atomic_add_ret_prev (ticket_cell c k) 1).1

/-! ## Calls on the queue by one thread, and the shape of the queue -/

/-- One call on the queue: `lf_enqueue(queue, val)`, or `lf_dequeue(queue, &v)`
with `v` holding `val` before the call; `stale` is what the local `ret` of the
`compare_and_swap_ptr` calls of this call holds on entry. -/
inductive queue_call where
  | enqueue (val : Int) (stale : Nat → Nat)
  | dequeue (val : Int) (stale : Nat → Nat)

/-- The memory after one call, if it returns within the fuel. -/
def lf_call (fuel : Nat) (m : memory) : queue_call → Option memory
  | queue_call.enqueue val stale => lf_enqueue fuel stale m val
  | queue_call.dequeue val stale => (lf_dequeue fuel stale m val).map fun r => r.2.1

/-- The memory after a sequence of calls, each made after the previous one has
returned. -/
def lf_calls (fuel : Nat) : memory → List queue_call → Option memory
  | m, [] => some m
  | m, c :: cs => (lf_call fuel m c).bind fun m1 => lf_calls fuel m1 cs

/-- Following `next` from the node `a` leads through the nodes of the list, none
of them `NULL`, and ends at the node `t`. -/
def linked (heap : Nat → node) : Nat → List Nat → Nat → Prop
  | a, [], t => a = t
  | a, b :: rest, t => (heap a).next = b ∧ b ≠ 0 ∧ linked heap b rest t

/-- The structural invariant of the queue: `head` and `tail` are not `NULL`, the
chain of `next` pointers from `head` ends in a node `last` with `next = NULL`, and
`last` is reached from `tail` by following `next`. -/
def queue_wf (m : memory) : Prop :=
  m.queue.head ≠ 0 ∧ m.queue.tail ≠ 0 ∧
  ∃ (l1 l2 : List Nat) (last : Nat),
    linked m.heap m.queue.head l1 last ∧ linked m.heap m.queue.tail l2 last ∧
    (m.heap last).next = 0

/-- The shape of the queue between two calls of one thread: the chain from `head`
runs through the nodes `l` and ends at `tail`, which is the last node, and every
node of it was handed out by `malloc`. -/
def queue_seq (m : memory) (l : List Nat) : Prop :=
  m.queue.head ≠ 0 ∧ linked m.heap m.queue.head l m.queue.tail ∧
  (m.heap m.queue.tail).next = 0 ∧ ∀ a, a ∈ m.queue.head :: l → a < m.brk

/-! ## The rounds of the barrier as a log of events -/

/-- The steps of `barrier_wait` that decide a round, with the thread that takes
the step and the number of the call of that thread (its round) in which it
does. -/
inductive barrier_event where
  /-- the fetch-and-add of line 177 yielded `cur_runners == bar->total_runners` -/
  | full (t round : Nat)
  /-- the thread executed `bar->cur_runners = 0;` (line 179) -/
  | reset (t round : Nat)
  /-- the thread executed `bar->sense = sense;` (line 180) -/
  | toggle (t round : Nat)
deriving DecidableEq, Repr

/-- The event, if any, of the step that thread `t` takes next in state `s`. -/
def barrier_event_of (s : barrier_sys) (t : Nat) : List barrier_event :=
  match (s.threads t).pc with
  | barrier_pc.arrive =>
    if wrap_int (s.bar.cur_runners + 1) = s.bar.total_runners then
      [barrier_event.full t ((s.threads t).arrived + 1)]
    else []
  | barrier_pc.reset => [barrier_event.reset t (s.threads t).arrived]
  | barrier_pc.publish => [barrier_event.toggle t (s.threads t).arrived]
  | _ => []

/-- The events of a schedule, in the order in which they happen. -/
def barrier_log (s : barrier_sys) : List Nat → List barrier_event
  | [] => []
  | t :: rest => barrier_event_of s t ++ barrier_log (barrier_sys_step s t) rest

/-- The three events of round `k` when thread `t` is its last arrival. -/
def round_events (t k : Nat) : List barrier_event :=
  [barrier_event.full t k, barrier_event.reset t k, barrier_event.toggle t k]

/-- The events of the complete rounds `k + 1`, `k + 2`, ... whose last arrivals
are the threads of the list, in this order. -/
def rounds_log : Nat → List Nat → List barrier_event
  | _, [] => []
  | k, t :: ts => round_events t (k + 1) ++ rounds_log (k + 1) ts

/-- The log of a state in which `r` rounds are complete: the events of the rounds
`1, ..., r`, one last arrival each, followed by nothing if no thread is a last
arrival, by the `full` event of round `r + 1` if a thread stands before the
reset, and by its `full` and `reset` events if it stands before the toggle. -/
def log_shape (N r : Nat) (s : barrier_sys) (log : List barrier_event) : Prop :=
  ∃ ts : List Nat, ts.length = r ∧
    (((∀ u, u < N → ¬ is_last (s.threads u)) ∧ log = rounds_log 0 ts) ∨
     (∃ t, t < N ∧ (s.threads t).pc = barrier_pc.reset ∧
        log = rounds_log 0 ts ++ [barrier_event.full t (r + 1)]) ∨
     (∃ t, t < N ∧ (s.threads t).pc = barrier_pc.publish ∧
        log = rounds_log 0 ts
          ++ [barrier_event.full t (r + 1), barrier_event.reset t (r + 1)]))

/-! ## Calls on the queue by several threads -/

/-- The statement a thread that uses the queue executes next, with the locals of
the call it is in: `q` and `p` of `lf_enqueue`, `p` of `lf_dequeue`, and `n`, the
value read from `p->next` as the third argument of the coming
`compare_and_swap_ptr` call. -/
inductive lf_pc where
  /-- in neither function -/
  | idle
  /-- in `lf_enqueue`: about to execute `p = queue->tail` (line 312) -/
  | enq_load (q : Nat)
  /-- in `lf_enqueue`: about to call `compare_and_swap_ptr(&p->next, NULL, q)`
  (line 313) -/
  | enq_link (q p : Nat)
  /-- in `lf_enqueue`: saw `!succ`, about to read the argument `p->next` of line 317 -/
  | enq_read (q p : Nat)
  /-- in `lf_enqueue`: about to call `compare_and_swap_ptr(&queue->tail, p, n)`
  (line 317) -/
  | enq_help (q p n : Nat)
  /-- in `lf_enqueue`: loop left, about to call
  `compare_and_swap_ptr(&queue->tail, p, q)` (line 320) -/
  | enq_swing (q p : Nat)
  /-- in `lf_dequeue`: about to execute `p = queue->head` (line 327) -/
  | deq_load
  /-- in `lf_dequeue`: about to test `p->next == NULL` (line 328) -/
  | deq_test (p : Nat)
  /-- in `lf_dequeue`: about to read the argument `p->next` of line 331 -/
  | deq_read (p : Nat)
  /-- in `lf_dequeue`: about to call `compare_and_swap_ptr(&queue->head, p, n)`
  (line 331) -/
  | deq_cas (p n : Nat)
  /-- in `lf_dequeue`: loop left, about to execute `*val = p->next->value` (line 332) -/
  | deq_val (p : Nat)
deriving DecidableEq, Repr

/-- What belongs to one thread: where it stands, the content of the variable it
passes as `val` to `lf_dequeue`, and the value its last `lf_dequeue` returned. -/
structure lf_thread where
  pc : lf_pc
  val : Int
  ret : Int
deriving DecidableEq, Repr

/-- What a schedule says of one step: the thread, the call it makes if it is idle
(`lf_enqueue(queue, val)` when `enq` is set, `lf_dequeue(queue, &v)` otherwise),
and the stale content of `ret` if the step calls `compare_and_swap_ptr`. -/
structure lf_label where
  thread : Nat
  enq : Bool
  val : Int
  ret0 : Nat
deriving DecidableEq, Repr

/-- One atomic step of one thread on the shared memory: one access to the shared
memory per step, in the order of the source (locking.c 303-336). The first step
of `lf_enqueue` takes lines 304-306 together, since no other thread knows the
new node yet. -/
def lf_thread_step (m : memory) (th : lf_thread) (l : lf_label) : memory × lf_thread :=
  match th.pc with
  | lf_pc.idle =>
    if l.enq then
      let a := malloc m
      let q := a.1
      ({ a.2 with heap := Function.update a.2.heap q { next := 0, value := l.val } },
        { th with pc := lf_pc.enq_load q })
    else (m, { th with pc := lf_pc.deq_load })
  | lf_pc.enq_load q => (m, { th with pc := lf_pc.enq_link q m.queue.tail })
  | lf_pc.enq_link q p =>
    let r := compare_and_swap_ptr l.ret0 (m.heap p).next 0 q
    let succ := ptr_to_int r.ret
    ({ m with heap := Function.update m.heap p { m.heap p with next := r.cell } },
      { th with pc := if succ = 0 then lf_pc.enq_read q p else lf_pc.enq_swing q p })
  | lf_pc.enq_read q p => (m, { th with pc := lf_pc.enq_help q p (m.heap p).next })
  | lf_pc.enq_help q p n =>
    let r := compare_and_swap_ptr l.ret0 m.queue.tail p n
    let succ := ptr_to_int r.ret
    ({ m with queue := { m.queue with tail := r.cell } },
      { th with pc := if succ = 0 then lf_pc.enq_load q else lf_pc.enq_swing q p })
  | lf_pc.enq_swing q p =>
    let r := compare_and_swap_ptr l.ret0 m.queue.tail p q
    ({ m with queue := { m.queue with tail := r.cell } }, { th with pc := lf_pc.idle })
  | lf_pc.deq_load => (m, { th with pc := lf_pc.deq_test m.queue.head })
  | lf_pc.deq_test p =>
    if (m.heap p).next = 0 then (m, { th with pc := lf_pc.idle, ret := 0 })
    else (m, { th with pc := lf_pc.deq_read p })
  | lf_pc.deq_read p => (m, { th with pc := lf_pc.deq_cas p (m.heap p).next })
  | lf_pc.deq_cas p n =>
    let r := compare_and_swap_ptr l.ret0 m.queue.head p n
    ({ m with queue := { m.queue with head := r.cell } },
      { th with pc := if r.ret ≠ 0 then lf_pc.deq_load else lf_pc.deq_val p })
  | lf_pc.deq_val p =>
    (m, { pc := lf_pc.idle, val := (m.heap (m.heap p).next).value, ret := 1 })

/-- One queue shared by the threads `0, 1, 2, ...`. -/
structure lf_sys where
  mem : memory
  th : Nat → lf_thread

/-- The queue after `lf_queue_init` on the memory `m0`, every thread idle. -/
def lf_start (m0 : memory) : lf_sys :=
  { mem := lf_queue_init m0, th := fun _ => { pc := lf_pc.idle, val := 0, ret := 0 } }

/-- The thread named by the label performs its next atomic step. -/
def lf_sys_step (s : lf_sys) (l : lf_label) : lf_sys :=
  let r := lf_thread_step s.mem (s.th l.thread) l
  { mem := r.1, th := Function.update s.th l.thread r.2 }

/-- The state after a schedule. -/
def lf_run (s : lf_sys) : List lf_label → lf_sys
  | [] => s
  | l :: rest => lf_run (lf_sys_step s l) rest

/-- Two overlapping calls: thread 0 calls `lf_enqueue(queue, 1)` and is preempted
after it has linked its node (line 313); thread 1 calls `lf_enqueue(queue, 2)`,
its `compare_and_swap_ptr` of line 313 finds the bytes `0x100` in `ret`, and it
runs to its return; then thread 0 runs to its return. -/
def lf_overlap : List lf_label :=
  [ { thread := 0, enq := true, val := 1, ret0 := 0 },
    { thread := 0, enq := true, val := 1, ret0 := 0 },
    { thread := 0, enq := true, val := 1, ret0 := 0 },
    { thread := 1, enq := true, val := 2, ret0 := 0 },
    { thread := 1, enq := true, val := 2, ret0 := 0 },
    { thread := 1, enq := true, val := 2, ret0 := 256 },
    { thread := 1, enq := true, val := 2, ret0 := 0 },
    { thread := 0, enq := true, val := 1, ret0 := 0 } ]

/-- The two overlapping calls of `lf_overlap` with zero bytes in `ret` at every
`compare_and_swap_ptr` call: the call of line 313 by thread 1 returns 0, so the
thread goes through line 317 (the read of `p->next`, then the call) before it
reaches line 320. -/
def lf_overlap_clean : List lf_label :=
  [ { thread := 0, enq := true, val := 1, ret0 := 0 },
    { thread := 0, enq := true, val := 1, ret0 := 0 },
    { thread := 0, enq := true, val := 1, ret0 := 0 },
    { thread := 1, enq := true, val := 2, ret0 := 0 },
    { thread := 1, enq := true, val := 2, ret0 := 0 },
    { thread := 1, enq := true, val := 2, ret0 := 0 },
    { thread := 1, enq := true, val := 2, ret0 := 0 },
    { thread := 1, enq := true, val := 2, ret0 := 0 },
    { thread := 1, enq := true, val := 2, ret0 := 0 },
    { thread := 0, enq := true, val := 1, ret0 := 0 } ]

/-! ## Invariant of the queue under calls by several threads -/

/-- The node `x` comes right after the node `p` in the list. -/
def adjacent (L : List Nat) (p x : Nat) : Prop := ∃ pre post, L = pre ++ p :: x :: post

/-- The list holds a chain of nodes: each node points to the one after it in the
list and the last one has `next = NULL`. -/
def lf_path (heap : Nat → node) (L : List Nat) : Prop :=
  (∀ p x, adjacent L p x → (heap p).next = x) ∧ ∀ pre p, L = pre ++ [p] → (heap p).next = 0

/-- The new node of a thread in `lf_enqueue` whose `compare_and_swap_ptr` of line
313 has not succeeded so far. -/
def lf_pending : lf_pc → Option Nat
  | lf_pc.enq_load q => some q
  | lf_pc.enq_link q _ => some q
  | lf_pc.enq_read q _ => some q
  | lf_pc.enq_help q _ _ => some q
  | _ => none

/-- A node handed out by `malloc`, initialised (line 306), and not in the chain. -/
def lf_fresh (heap : Nat → node) (brk : Nat) (L : List Nat) (q : Nat) : Prop :=
  q ≠ 0 ∧ q < brk ∧ q ∉ L ∧ (heap q).next = 0

/-- What the locals of a thread satisfy at each statement, when `L` is the chain
of all nodes linked so far and `pre` the part of it before `tail`. -/
def lf_thread_ok (heap : Nat → node) (brk : Nat) (L pre : List Nat) : lf_pc → Prop
  | lf_pc.idle => True
  | lf_pc.enq_load q => lf_fresh heap brk L q
  | lf_pc.enq_link q p => lf_fresh heap brk L q ∧ p ∈ L
  | lf_pc.enq_read q p => lf_fresh heap brk L q ∧ ∃ x, adjacent L p x
  | lf_pc.enq_help q p n => lf_fresh heap brk L q ∧ adjacent L p n
  | lf_pc.enq_swing q p => adjacent L p q ∨ p ∈ pre
  | lf_pc.deq_load => True
  | lf_pc.deq_test p => p ∈ L
  | lf_pc.deq_read p => ∃ x, adjacent L p x
  | lf_pc.deq_cas p n => adjacent L p n
  | lf_pc.deq_val _ => True

/-- The invariant of the queue shared by several threads: `L` is the chain of all
nodes linked so far, `head` is one of them, `tail` is the one between `pre` and
`post`, the locals of every thread fit, and no two threads hold the same new
node. -/
structure lf_inv (s : lf_sys) (L pre post : List Nat) : Prop where
  path : lf_path s.mem.heap L
  nodup : L.Nodup
  bound : ∀ x, x ∈ L → x ≠ 0 ∧ x < s.mem.brk
  head : s.mem.queue.head ∈ L
  tail : L = pre ++ s.mem.queue.tail :: post
  threads : ∀ t, lf_thread_ok s.mem.heap s.mem.brk L pre (s.th t).pc
  pending : ∀ t u q, t ≠ u →
    lf_pending (s.th t).pc = some q → lf_pending (s.th u).pc ≠ some q

/-! # Theorems -/

/-! ### Basic facts about the words -/

theorem wrap32_of_lt {x : Nat} (h : x < 2 ^ 32) : wrap32 x = x :=
  Nat.mod_eq_of_lt h

theorem wrap64_of_lt {x : Nat} (h : x < 2 ^ 64) : wrap64 x = x :=
  Nat.mod_eq_of_lt h

theorem setz_mod_256 (old : Nat) (zf : Bool) :
    setz old zf % 256 = if zf then 1 else 0 := by
  unfold setz
  cases zf <;> simp [Nat.add_mod]

theorem setz_true_ne_zero (old : Nat) : setz old true ≠ 0 := by
  unfold setz
  simp

/-- The low byte of the value `compare_and_swap` returns is the zero flag. -/
theorem compare_and_swap_ret_mod (ret0 cell expected new : Nat) :
    (compare_and_swap ret0 cell expected new).ret % 256
      = if wrap32 expected = wrap32 cell then 1 else 0 := by
  have h : (256 : Nat) ∣ 2 ^ 32 := ⟨2 ^ 24, by norm_num⟩
  simp only [compare_and_swap, wrap32]
  rw [Nat.mod_mod_of_dvd _ h, setz_mod_256]
  by_cases hc : expected % 2 ^ 32 = cell % 2 ^ 32 <;> simp [hc]

/-- The low byte of the value `compare_and_swap_ptr` returns is the zero flag. -/
theorem compare_and_swap_ptr_ret_mod (ret0 cell expected new : Nat) :
    (compare_and_swap_ptr ret0 cell expected new).ret % 256
      = if wrap64 expected = wrap64 cell then 1 else 0 := by
  have h : (256 : Nat) ∣ 2 ^ 64 := ⟨2 ^ 56, by norm_num⟩
  simp only [compare_and_swap_ptr, wrap64]
  rw [Nat.mod_mod_of_dvd _ h, setz_mod_256]
  by_cases hc : expected % 2 ^ 64 = cell % 2 ^ 64 <;> simp [hc]

/-! ## Compare and swap -/

/-- A compare-and-swap whose cell holds the expected value: the low byte of the
value returned is 1, so the value is not zero, and the cell takes the new value. -/
theorem compare_and_swap_ptr_hit (ret0 c n : Nat) :
    (compare_and_swap_ptr ret0 c c n).ret ≠ 0 ∧
      (compare_and_swap_ptr ret0 c c n).cell = wrap64 n := by
  constructor
  · intro h
    have := compare_and_swap_ptr_ret_mod ret0 c c n
    rw [h] at this
    simp at this
  · simp [compare_and_swap_ptr]

/-- C1, evaluated on the code: with the cell holding 5 and 5 expected, neither
`compare_and_swap` nor `compare_and_swap_ptr` returns 5, whatever the local `ret`
held before; with clean bytes in `ret` they return 1 when the swap is done and 0
when it is not (cell 5, expected 6), never the prior content 5. -/
theorem compare_and_swap_returns_flag_not_prior_content (ret0 : Nat) :
    (compare_and_swap ret0 5 5 7).ret ≠ 5 ∧
    (compare_and_swap_ptr ret0 5 5 7).ret ≠ 5 ∧
    (compare_and_swap 0 5 5 7).ret = 1 ∧
    (compare_and_swap 0 5 6 7).ret = 0 ∧
    (compare_and_swap_ptr 0 5 5 7).ret = 1 ∧
    (compare_and_swap_ptr 0 5 6 7).ret = 0 := by
  refine ⟨?_, ?_, ?_, ?_, ?_, ?_⟩
  rotate_left 2
  · norm_num [compare_and_swap, setz, wrap32]
  · norm_num [compare_and_swap, setz, wrap32]
  · norm_num [compare_and_swap_ptr, setz, wrap64]
  · norm_num [compare_and_swap_ptr, setz, wrap64]
  · intro h
    have := compare_and_swap_ret_mod ret0 5 5 7
    rw [h] at this
    simp at this
  · intro h
    have := compare_and_swap_ptr_ret_mod ret0 5 5 7
    rw [h] at this
    simp at this

/-- C9: after `compare_and_swap(&cell, e, n)` the cell holds `n` if it held `e`,
and what it held otherwise; the same for `compare_and_swap_ptr`, where a 64-bit
`n` is stored whole. -/
theorem compare_and_swap_memory_effect (ret0 c e n ret1 c1 e1 n1 : Nat)
    (hc : c < 2 ^ 32) (he : e < 2 ^ 32) (hn : n < 2 ^ 32)
    (hc1 : c1 < 2 ^ 64) (he1 : e1 < 2 ^ 64) (hn1 : n1 < 2 ^ 64) :
    (compare_and_swap ret0 c e n).cell = (if c = e then n else c) ∧
    (compare_and_swap_ptr ret1 c1 e1 n1).cell = (if c1 = e1 then n1 else c1) := by
  constructor
  · simp only [compare_and_swap, wrap32_of_lt hc, wrap32_of_lt he, wrap32_of_lt hn]
    by_cases h : c = e
    · simp [h]
    · have h2 : ¬ e = c := fun h3 => h h3.symm
      simp [h, h2]
  · simp only [compare_and_swap_ptr, wrap64_of_lt hc1, wrap64_of_lt he1, wrap64_of_lt hn1]
    by_cases h : c1 = e1
    · simp [h]
    · have h2 : ¬ e1 = c1 := fun h3 => h h3.symm
      simp [h, h2]

/-- C9 at a concrete input: a swap of 5 for 7 in a 32-bit cell, and a swap in a
pointer cell whose content and operands need more than 32 bits. -/
theorem compare_and_swap_memory_effect_witness :
    (compare_and_swap 9 5 5 7).cell = (if 5 = 5 then 7 else 5) ∧
    (compare_and_swap_ptr 9 1099511627784 1099511627784 1099511627800).cell
      = (if 1099511627784 = 1099511627784 then 1099511627800 else 1099511627784) :=
  compare_and_swap_memory_effect 9 5 5 7 9 1099511627784 1099511627784 1099511627800
    (by norm_num) (by norm_num) (by norm_num) (by norm_num) (by norm_num) (by norm_num)

/-! ## Lock-free queue, one thread -/

theorem ptr_to_int_ne_zero {x : Nat} (h : x % 256 = 1) : ptr_to_int x ≠ 0 := by
  unfold ptr_to_int wrap_int
  have h2 : (Int.ofNat x) % 256 = 1 := by
    have : ((x % 256 : Nat) : Int) = 1 := by rw [h]; rfl
    simpa using this
  norm_num
  omega

/-- A compare-and-swap on a pointer cell that holds the expected value yields a
non-zero `int` as well. -/
theorem compare_and_swap_ptr_hit_int (ret0 c n : Nat) :
    ptr_to_int (compare_and_swap_ptr ret0 c c n).ret ≠ 0 := by
  apply ptr_to_int_ne_zero
  rw [compare_and_swap_ptr_ret_mod]
  simp

/-- One evaluation of the loop body of `lf_dequeue` on a queue that is not empty:
the `compare_and_swap_ptr` on `head` cannot fail when no other thread runs, its
value is not zero, and the loop goes round again. -/
theorem lf_dequeue_step (fuel : Nat) (stale : Nat → Nat) (m : memory) (val : Int)
    (h : (m.heap m.queue.head).next ≠ 0) :
    lf_dequeue (fuel + 1) stale m val
      = lf_dequeue fuel (fun i => stale (i + 1))
          { m with queue := { m.queue with head := wrap64 (m.heap m.queue.head).next } } val := by
  have hit := compare_and_swap_ptr_hit (stale 0) m.queue.head (m.heap m.queue.head).next
  simp only [lf_dequeue, h, if_false, ne_eq, hit.1, not_false_eq_true, if_true, hit.2]

/-- Run by one thread, `lf_dequeue` never returns 1 and never writes `*val`. -/
theorem lf_dequeue_never_present (fuel : Nat) :
    ∀ (stale : Nat → Nat) (m : memory) (val : Int) (r : Int × memory × Int),
      lf_dequeue fuel stale m val = some r → r.1 = 0 ∧ r.2.2 = val := by
  induction fuel with
  | zero => intro stale m val r h; simp [lf_dequeue] at h
  | succ k ih =>
    intro stale m val r h
    by_cases hn : (m.heap m.queue.head).next = 0
    · simp [lf_dequeue, hn] at h
      subst h
      simp
    · rw [lf_dequeue_step k stale m val hn] at h
      exact ih _ _ _ _ h

/-- The loop of `lf_enqueue` by one thread when `tail` is the last node: the first
link attempt succeeds and the loop ends after one evaluation of its body. -/
theorem lf_enqueue_loop_at_last (fuel : Nat) (stale : Nat → Nat) (m : memory) (q : Nat)
    (h : (m.heap m.queue.tail).next = 0) :
    lf_enqueue_loop (fuel + 1) stale m q = some
      ({ heap := (Function.update m.heap m.queue.tail
            { next := wrap64 q, value := (m.heap m.queue.tail).value }),
         brk := m.brk, queue := m.queue },
        m.queue.tail, fun i => stale (i + 1)) := by
  have h1 := compare_and_swap_ptr_hit_int (stale 0) 0 q
  have h2 := (compare_and_swap_ptr_hit (stale 0) 0 q).2
  rw [lf_enqueue_loop]
  simp only [h, h1, h2, if_false]

/-- An enqueue by one thread on a queue whose `tail` is the last node: the first
link attempt succeeds, the loop ends, and `tail` moves to the new node. -/
theorem lf_enqueue_at_last (fuel : Nat) (stale : Nat → Nat) (m : memory) (val : Int)
    (h : (m.heap m.queue.tail).next = 0) (hne : m.queue.tail ≠ m.brk) :
    lf_enqueue (fuel + 1) stale m val = some
      { heap := (Function.update (Function.update m.heap m.brk { next := 0, value := val })
          m.queue.tail { next := wrap64 m.brk, value := (m.heap m.queue.tail).value }),
        brk := m.brk + 1,
        queue := { head := m.queue.head, tail := wrap64 m.brk } } := by
  have h3 := (compare_and_swap_ptr_hit (stale 1) m.queue.tail m.brk).2
  unfold lf_enqueue
  simp only [malloc]
  rw [lf_enqueue_loop_at_last]
  · simp only [Option.map, Function.update_noteq hne, h3]
  · simp only [Function.update_noteq hne, h]

/-- C8: on a queue whose first node has `next = NULL`, and so on the queue that
`lf_queue_init` leaves, `lf_dequeue` returns 0 within one evaluation of its loop
body, for any amount of fuel, with the memory (head, tail, every node) and `*val`
as they were. -/
theorem lf_dequeue_empty (stale : Nat → Nat) (m : memory) (val : Int)
    (h : (m.heap m.queue.head).next = 0) :
    lf_dequeue 1 stale m val = some (0, m, val) ∧
    (∀ fuel, lf_dequeue (fuel + 1) stale m val = some (0, m, val)) ∧
    (∀ m0, lf_dequeue 1 stale (lf_queue_init m0) val = some (0, lf_queue_init m0, val)) := by
  refine ⟨by simp [lf_dequeue, h], fun fuel => by simp [lf_dequeue, h], fun m0 => ?_⟩
  simp [lf_dequeue, lf_queue_init, malloc]

/-- C8 at a concrete input: the queue right after `lf_queue_init`. -/
theorem lf_dequeue_empty_witness :
    ((lf_queue_init memory_start).heap (lf_queue_init memory_start).queue.head).next = 0 ∧
    lf_dequeue 1 stale_zero (lf_queue_init memory_start) 42
      = some (0, lf_queue_init memory_start, 42) :=
  ⟨by simp [lf_queue_init, malloc],
   (lf_dequeue_empty stale_zero (lf_queue_init memory_start) 42
      (by simp [lf_queue_init, malloc])).1⟩

/-- C2, evaluated on the code: after `lf_queue_init` and `lf_enqueue` of 1, 2, 3
by one thread the values 1, 2, 3 wait in the queue, and the first `lf_dequeue`
returns 0, not 1: each `compare_and_swap_ptr` on `head` succeeds, its value is
not zero, so the `do ... while` goes round again until the queue is empty. `head`
ends on the last node (address 4), no value is left, `*val` (here 7) is never
written. Whatever the stale bytes and the fuel, a call on that queue that returns
returns 0. -/
theorem lf_dequeue_after_three_enqueues_returns_zero :
    ∃ m3 m4, lf_enqueue_list 1 stale_zero (lf_queue_init memory_start) [1, 2, 3] = some m3 ∧
      queue_values m3 8 = [1, 2, 3] ∧
      lf_dequeue 4 stale_zero m3 7 = some (0, m4, 7) ∧
      m4.queue.head = 4 ∧ queue_values m4 8 = [] ∧
      (∀ fuel stale val r, lf_dequeue fuel stale m3 val = some r → r.1 = 0 ∧ r.2.2 = val) :=
  ⟨_, _, rfl, by decide, rfl, by decide, by decide,
    fun fuel stale val r h => lf_dequeue_never_present fuel stale _ val r h⟩

/-- C5, evaluated on the code: on the queue `memory_lagging` (node 1 linked to
node 2, `tail` still on node 1) `lf_enqueue(queue, 2)` returns after one evaluation
of its loop body with the new node (address 3, value 2) linked nowhere: the chain
from `head` is still 1, 2 and the only value waiting is 1. With clean bytes in
`ret` the helping `compare_and_swap_ptr` moves `tail` to node 2, its result ends
the loop, and the last call finds `tail != p`. With the stale byte pattern
`0x100` the failed link attempt itself ends the loop and `tail` is set to the
node that was never linked. -/
theorem lf_enqueue_lagging_tail_loses_value :
    (∃ m1, lf_enqueue 1 stale_zero memory_lagging 2 = some m1 ∧
      chain m1.heap 8 m1.queue.head = [1, 2] ∧ queue_values m1 8 = [1] ∧
      m1.heap 3 = { next := 0, value := 2 } ∧ m1.queue.tail = 2) ∧
    (∃ m2, lf_enqueue 1 (fun _ => 256) memory_lagging 2 = some m2 ∧
      chain m2.heap 8 m2.queue.head = [1, 2] ∧ queue_values m2 8 = [1] ∧
      m2.heap 3 = { next := 0, value := 2 } ∧ m2.queue.tail = 3) :=
  ⟨⟨_, rfl, by decide, by decide, by decide, by decide⟩,
   ⟨_, rfl, by decide, by decide, by decide, by decide⟩⟩

/-! ## Compare and swap with clean bytes in `ret` -/

/-- A failed `compare_and_swap` whose local `ret` held nothing beyond its low
byte returns 0 and leaves the cell alone. -/
theorem compare_and_swap_miss_clean (ret0 c e n : Nat) (hr : wrap32 ret0 < 256)
    (hne : wrap32 e ≠ wrap32 c) :
    compare_and_swap ret0 c e n = { ret := 0, cell := c } := by
  have h0 : wrap32 ret0 / 256 = 0 := Nat.div_eq_of_lt hr
  simp only [compare_and_swap, setz, h0, hne, decide_False, Bool.false_eq_true, if_false]
  rfl

/-- A successful `compare_and_swap` whose local `ret` held nothing beyond its low
byte returns 1 and stores the new value. -/
theorem compare_and_swap_hit_clean (ret0 c e n : Nat) (hr : wrap32 ret0 < 256)
    (he : wrap32 e = wrap32 c) :
    compare_and_swap ret0 c e n = { ret := 1, cell := wrap32 n } := by
  have h0 : wrap32 ret0 / 256 = 0 := Nat.div_eq_of_lt hr
  simp only [compare_and_swap, setz, h0, he, decide_True, if_true]
  rfl

/-! ## Reader-writer lock, one thread -/

/-- With clean bytes in `ret`, `rw_read_lock` on a lock in the reading state never
leaves its loop: the first `compare_and_swap` (0 expected) fails and returns 0. -/
theorem rw_read_lock_reading_spins (fuel : Nat) :
    ∀ (stale : Nat → Nat) (lock : read_write_lock),
      (∀ i, wrap32 (stale i) < 256) → lock.rw_lock = 1 →
      rw_read_lock fuel stale lock = none := by
  induction fuel with
  | zero => intro stale lock _ _; rfl
  | succ k ih =>
    intro stale lock hs hl
    rw [rw_read_lock]
    by_cases hd : lock.disallow_sub_readers = 1
    · simp only [hd, if_true]
      exact ih stale lock hs hl
    · have hm := compare_and_swap_miss_clean (stale 0) lock.rw_lock 0 1 (hs 0)
        (by rw [hl]; decide)
      simp only [hd, if_false, hm, if_true]
      exact ih _ _ (fun i => hs (i + 1)) hl

/-- C4, evaluated on the code: on a lock with `rw_lock = 1` (reading),
`disallow_sub_readers = 0` and any number `r` of readers, a call of
`rw_read_lock` with clean bytes in `ret` has not returned after any number of
evaluations of its loop condition. -/
theorem rw_read_lock_second_reader_never_returns (fuel : Nat) (r : Int) :
    rw_read_lock fuel stale_zero { readers := r, disallow_sub_readers := 0, rw_lock := 1 }
      = none :=
  rw_read_lock_reading_spins fuel stale_zero _ (fun _ => show wrap32 0 < 256 by decide) rfl

/-! ## Spin lock and reader-writer lock, several threads -/

/-- C3, evaluated on the code: thread 0 takes the lock; thread 1 then calls
`compare_and_swap(&lock->value, 1, 0)`, which fails and clears the low byte of
`ret`, whose other bytes hold the stale pattern `0x100`: the value returned, 256,
is not 0, the loop of `spinlock_lock` ends, and both threads are in the critical
section. -/
theorem spinlock_two_threads_critical :
    (spin_run spin_start [(0, 0), (1, 256)]).pc 0 = spin_pc.critical ∧
    (spin_run spin_start [(0, 0), (1, 256)]).pc 1 = spin_pc.critical ∧
    (spin_run spin_start [(0, 0), (1, 256)]).lock.value = 0 := by
  decide

/-- C7, evaluated on the code: thread 0 takes the lock for writing; thread 1
calls `rw_read_lock`, both its `compare_and_swap` calls fail and return 256 (the
low byte cleared, the stale pattern `0x100` above it), which is not 0, so the
loop ends and `readers` is incremented: a writer and a reader hold the lock at
once and `readers = 1`. -/
theorem rw_lock_writer_and_reader_hold :
    (rw_run rw_start
      [⟨0, true, 0⟩, ⟨0, true, 0⟩, ⟨1, false, 0⟩, ⟨1, false, 0⟩, ⟨1, false, 256⟩,
       ⟨1, false, 256⟩, ⟨1, false, 0⟩]).pc 0 = rw_pc.writing ∧
    (rw_run rw_start
      [⟨0, true, 0⟩, ⟨0, true, 0⟩, ⟨1, false, 0⟩, ⟨1, false, 0⟩, ⟨1, false, 256⟩,
       ⟨1, false, 256⟩, ⟨1, false, 0⟩]).pc 1 = rw_pc.reading ∧
    (rw_run rw_start
      [⟨0, true, 0⟩, ⟨0, true, 0⟩, ⟨1, false, 0⟩, ⟨1, false, 0⟩, ⟨1, false, 256⟩,
       ⟨1, false, 256⟩, ⟨1, false, 0⟩]).lock = { readers := 1, disallow_sub_readers := 0, rw_lock := 2 } := by
  decide

/-! ## Barrier, one arrival -/

theorem wrap_int_of_range {x : Int} (h1 : -2 ^ 31 ≤ x) (h2 : x < 2 ^ 31) : wrap_int x = x := by
  unfold wrap_int
  norm_num at h1 h2 ⊢
  omega

/-- The step of a thread that stands at line 176. -/
theorem barrier_wait_step_entry (bar : barrier) (ls : Int) (r a : Nat) :
    barrier_wait_step bar { pc := barrier_pc.entry, sense := ls, returned := r, arrived := a }
      = (bar, { pc := barrier_pc.arrive, sense := wrap_int (1 - bar.sense),
                returned := r, arrived := a }) := rfl

/-- The step of a thread that stands at the fetch-and-add of line 177. -/
theorem barrier_wait_step_arrive (bar : barrier) (ls : Int) (r a : Nat) :
    barrier_wait_step bar { pc := barrier_pc.arrive, sense := ls, returned := r, arrived := a }
      = ({ total_runners := bar.total_runners, cur_runners := wrap_int (bar.cur_runners + 1),
           sense := bar.sense },
         { pc := if wrap_int (bar.cur_runners + 1) = bar.total_runners then barrier_pc.reset
                 else barrier_pc.spin,
           sense := ls, returned := r, arrived := a + 1 }) := rfl

/-- The step of a thread that stands at line 179. -/
theorem barrier_wait_step_reset (bar : barrier) (ls : Int) (r a : Nat) :
    barrier_wait_step bar { pc := barrier_pc.reset, sense := ls, returned := r, arrived := a }
      = ({ total_runners := bar.total_runners, cur_runners := 0, sense := bar.sense },
         { pc := barrier_pc.publish, sense := ls, returned := r, arrived := a }) := rfl

/-- The step of a thread that stands at line 180. -/
theorem barrier_wait_step_publish (bar : barrier) (ls : Int) (r a : Nat) :
    barrier_wait_step bar { pc := barrier_pc.publish, sense := ls, returned := r, arrived := a }
      = ({ total_runners := bar.total_runners, cur_runners := bar.cur_runners, sense := ls },
         { pc := barrier_pc.entry, sense := ls, returned := r + 1, arrived := a }) := rfl

/-- The step of a thread in the spin loop whose `sense` differs from the shared
one: nothing changes. -/
theorem barrier_wait_step_spin_wait (bar : barrier) (ls : Int) (r a : Nat)
    (h : ls ≠ bar.sense) :
    barrier_wait_step bar { pc := barrier_pc.spin, sense := ls, returned := r, arrived := a }
      = (bar, { pc := barrier_pc.spin, sense := ls, returned := r, arrived := a }) := by
  show (if ls ≠ bar.sense then _ else _) = _
  rw [if_pos h]

/-- The step of a thread in the spin loop whose `sense` equals the shared one: the
call returns. -/
theorem barrier_wait_step_spin_go (bar : barrier) (ls : Int) (r a : Nat)
    (h : ls = bar.sense) :
    barrier_wait_step bar { pc := barrier_pc.spin, sense := ls, returned := r, arrived := a }
      = (bar, { pc := barrier_pc.entry, sense := ls, returned := r + 1, arrived := a }) := by
  show (if ls ≠ bar.sense then _ else _) = _
  rw [if_neg (not_not.mpr h)]

theorem wrap_int_one_sub {s : Int} (hs : s = 0 ∨ s = 1) : wrap_int (1 - s) = 1 - s := by
  rcases hs with h | h <;> subst h <;> exact wrap_int_of_range (by norm_num) (by norm_num)

theorem wrap_int_succ_of_lt {k : Int} (h0 : 0 ≤ k) (h1 : k + 1 < 2 ^ 31) :
    wrap_int (k + 1) = k + 1 :=
  wrap_int_of_range (by norm_num; omega) h1

/-- The first two statements of `barrier_wait` for a thread that is not the last
of its round: the local `sense` is the toggled one, `cur_runners` is one more,
and the thread stands before its spin loop. -/
theorem barrier_arrival_not_last (N k : Nat) (s : Int) (hN : N < 2 ^ 31)
    (hs : s = 0 ∨ s = 1) (hk : k + 1 < N) :
    barrier_arrival { total_runners := N, cur_runners := k, sense := s }
      = ({ total_runners := N, cur_runners := (k : Int) + 1, sense := s },
         { pc := barrier_pc.spin, sense := 1 - s, returned := 0, arrived := 1 }) := by
  have hN' : (N : Int) < 2 ^ 31 := by exact_mod_cast hN
  have hk' : (k : Int) + 1 < N := by exact_mod_cast hk
  have w2 : wrap_int ((k : Int) + 1) = k + 1 :=
    wrap_int_succ_of_lt (Int.ofNat_nonneg k) (by omega)
  have hne : ¬ ((k : Int) + 1 = N) := by omega
  unfold barrier_arrival
  simp only [barrier_thread_start, barrier_wait_step_entry, barrier_wait_step_arrive,
    wrap_int_one_sub hs, w2, hne, if_false]
  rfl

/-- The whole of `barrier_wait` for the last thread of a round: it never reaches
the spin loop, resets `cur_runners`, publishes the toggled `sense` and returns. -/
theorem barrier_arrival_last (N k : Nat) (s : Int) (hN : N < 2 ^ 31)
    (hs : s = 0 ∨ s = 1) (hk : k + 1 = N) :
    barrier_arrival { total_runners := N, cur_runners := k, sense := s }
      = ({ total_runners := N, cur_runners := 0, sense := 1 - s },
         { pc := barrier_pc.entry, sense := 1 - s, returned := 1, arrived := 1 }) := by
  subst hk
  have hN' : (k : Int) + 1 < 2 ^ 31 := by exact_mod_cast hN
  have w2 : wrap_int ((k : Int) + 1) = k + 1 :=
    wrap_int_succ_of_lt (Int.ofNat_nonneg k) hN'
  unfold barrier_arrival
  simp only [barrier_thread_start, barrier_wait_step_entry, barrier_wait_step_arrive,
    wrap_int_one_sub hs, w2, Nat.cast_add, Nat.cast_one, if_true, barrier_wait_step_reset,
    barrier_wait_step_publish]

theorem barrier_arrivals_succ (n : Nat) (bar : barrier) :
    barrier_arrivals (n + 1) bar = barrier_arrivals n (barrier_arrival bar).1 := rfl

/-- The `j` arrivals that complete a round in which `N - j` threads have arrived. -/
theorem barrier_arrivals_complete (N : Nat) (s : Int) (hN : N < 2 ^ 31)
    (hs : s = 0 ∨ s = 1) (j : Nat) :
    ∀ k : Nat, 0 < j → k + j = N →
      barrier_arrivals j { total_runners := N, cur_runners := k, sense := s }
        = { total_runners := N, cur_runners := 0, sense := 1 - s } := by
  induction j with
  | zero => intro k h; omega
  | succ i ih =>
    intro k _ hk
    rw [barrier_arrivals_succ]
    by_cases hi : i = 0
    · subst hi
      rw [barrier_arrival_last N k s hN hs (by omega)]
      rfl
    · rw [barrier_arrival_not_last N k s hN hs (by omega)]
      have h := ih (k + 1) (by omega) (by omega)
      rw [Nat.cast_add, Nat.cast_one] at h
      exact h

/-- C10: `barrier_init` leaves `total_runners = count`, `cur_runners = 0`,
`sense = 1`. On a barrier with `total_runners = N`, `sense = s` and
`cur_runners = k < N`: the last arrival (`k = N - 1`) goes from the fetch-and-add
to the reset, not to the spin loop, and returns leaving `cur_runners = 0`,
`sense = 1 - s`; any other arrival leaves `cur_runners = k + 1`, `sense` and
`total_runners` as they were, and stands in the spin loop, where a step writes
nothing, keeps the thread in place while the shared `sense` differs from `1 - s`
and returns once it equals `1 - s`. `N` arrivals flip `sense`, and `2 * N`
arrivals after `barrier_init` give back the state `barrier_init` left. -/
theorem barrier_wait_one_arrival (N k : Nat) (s : Int) (bar0 : barrier)
    (hN1 : 1 ≤ N) (hN : N < 2 ^ 31) (hs : s = 0 ∨ s = 1) (hk : k < N) :
    barrier_init bar0 N = { total_runners := N, cur_runners := 0, sense := 1 } ∧
    (k + 1 = N ∨ k + 1 < N) ∧
    (k + 1 = N →
      (barrier_wait_step { total_runners := N, cur_runners := k, sense := s }
          { pc := barrier_pc.arrive, sense := 1 - s, returned := 0, arrived := 0 }).2.pc
        = barrier_pc.reset ∧
      barrier_arrival { total_runners := N, cur_runners := k, sense := s }
        = ({ total_runners := N, cur_runners := 0, sense := 1 - s },
           { pc := barrier_pc.entry, sense := 1 - s, returned := 1, arrived := 1 })) ∧
    (k + 1 < N →
      barrier_arrival { total_runners := N, cur_runners := k, sense := s }
        = ({ total_runners := N, cur_runners := (k : Int) + 1, sense := s },
           { pc := barrier_pc.spin, sense := 1 - s, returned := 0, arrived := 1 }) ∧
      ∀ bar : barrier,
        (barrier_wait_step bar
          { pc := barrier_pc.spin, sense := 1 - s, returned := 0, arrived := 1 }).1 = bar ∧
        (bar.sense ≠ 1 - s →
          (barrier_wait_step bar
            { pc := barrier_pc.spin, sense := 1 - s, returned := 0, arrived := 1 }).2
          = { pc := barrier_pc.spin, sense := 1 - s, returned := 0, arrived := 1 }) ∧
        (bar.sense = 1 - s →
          (barrier_wait_step bar
            { pc := barrier_pc.spin, sense := 1 - s, returned := 0, arrived := 1 }).2
          = { pc := barrier_pc.entry, sense := 1 - s, returned := 1, arrived := 1 })) ∧
    barrier_arrivals N { total_runners := N, cur_runners := 0, sense := s }
      = { total_runners := N, cur_runners := 0, sense := 1 - s } ∧
    barrier_arrivals N (barrier_arrivals N (barrier_init bar0 N)) = barrier_init bar0 N := by
  have hN' : (N : Int) < 2 ^ 31 := by exact_mod_cast hN
  have round : ∀ s1 : Int, s1 = 0 ∨ s1 = 1 →
      barrier_arrivals N { total_runners := N, cur_runners := 0, sense := s1 }
        = { total_runners := N, cur_runners := 0, sense := 1 - s1 } := by
    intro s1 h1
    have h := barrier_arrivals_complete N s1 hN h1 N 0 (by omega) (by omega)
    rw [Nat.cast_zero] at h
    exact h
  refine ⟨rfl, by omega, ?_, ?_, round s hs, ?_⟩
  · intro hk1
    refine ⟨?_, barrier_arrival_last N k s hN hs hk1⟩
    have hk' : (k : Int) + 1 = N := by exact_mod_cast hk1
    have w2 : wrap_int ((k : Int) + 1) = k + 1 :=
      wrap_int_succ_of_lt (Int.ofNat_nonneg k) (by omega)
    rw [barrier_wait_step_arrive]
    simp only [w2]
    exact if_pos hk'
  · intro hk1
    refine ⟨barrier_arrival_not_last N k s hN hs hk1, fun bar => ⟨?_, ?_, ?_⟩⟩
    · by_cases h : 1 - s = bar.sense
      · rw [barrier_wait_step_spin_go bar _ _ _ h]
      · rw [barrier_wait_step_spin_wait bar _ _ _ h]
    · intro h
      rw [barrier_wait_step_spin_wait bar _ _ _ (fun e => h e.symm)]
    · intro h
      rw [barrier_wait_step_spin_go bar _ _ _ h.symm]
  · have h1 := round 1 (Or.inr rfl)
    have h2 := round 0 (Or.inl rfl)
    rw [show (1 : Int) - 1 = 0 from rfl] at h1
    rw [show (1 : Int) - 0 = 1 from rfl] at h2
    show barrier_arrivals N (barrier_arrivals N
      { total_runners := N, cur_runners := 0, sense := 1 }) = _
    rw [h1, h2]
    rfl

/-- C10 at a concrete input: three runners, one already arrived, `sense = 1`. -/
theorem barrier_wait_one_arrival_witness :
    barrier_arrival { total_runners := 3, cur_runners := 1, sense := 1 }
      = ({ total_runners := 3, cur_runners := 2, sense := 1 },
         { pc := barrier_pc.spin, sense := 0, returned := 0, arrived := 1 }) ∧
    barrier_arrivals 3 { total_runners := 3, cur_runners := 0, sense := 1 }
      = { total_runners := 3, cur_runners := 0, sense := 0 } := by
  have h := barrier_wait_one_arrival 3 1 1 { total_runners := 0, cur_runners := 0, sense := 0 }
    (by norm_num) (by norm_num) (Or.inr rfl) (by norm_num)
  exact ⟨by simpa using (h.2.2.2.1 (by norm_num)).1, by simpa using h.2.2.2.2.1⟩

/-! ## Barrier, `N` threads -/

theorem sense_of_cases (r : Nat) : sense_of r = 0 ∨ sense_of r = 1 := by
  unfold sense_of
  by_cases h : r % 2 = 0
  · right; rw [if_pos h]
  · left; rw [if_neg h]

theorem sense_of_succ (r : Nat) : sense_of (r + 1) = 1 - sense_of r := by
  unfold sense_of
  by_cases h : r % 2 = 0
  · have h2 : ¬ ((r + 1) % 2 = 0) := by omega
    rw [if_pos h, if_neg h2]; rfl
  · have h2 : (r + 1) % 2 = 0 := by omega
    rw [if_neg h, if_pos h2]; rfl

theorem sense_of_succ_ne (r : Nat) : sense_of (r + 1) ≠ sense_of r := by
  rw [sense_of_succ]
  rcases sense_of_cases r with h | h <;> rw [h] <;> decide

theorem wrap_int_toggle (r : Nat) : wrap_int (1 - sense_of r) = sense_of (r + 1) := by
  rw [wrap_int_one_sub (sense_of_cases r), sense_of_succ]

theorem count_upto_le (p : Nat → Bool) (n : Nat) : count_upto p n ≤ n := by
  induction n with
  | zero => exact Nat.le_refl 0
  | succ k ih =>
    unfold count_upto
    by_cases h : p k = true
    · rw [if_pos h]; omega
    · rw [if_neg h]; omega

theorem count_upto_congr (p q : Nat → Bool) (n : Nat) (h : ∀ i, i < n → p i = q i) :
    count_upto p n = count_upto q n := by
  induction n with
  | zero => rfl
  | succ k ih =>
    unfold count_upto
    rw [ih (fun i hi => h i (by omega)), h k (by omega)]

theorem count_upto_all (p : Nat → Bool) (n : Nat) (h : count_upto p n = n) :
    ∀ i, i < n → p i = true := by
  induction n with
  | zero => intro i hi; omega
  | succ k ih =>
    intro i hi
    unfold count_upto at h
    have hle := count_upto_le p k
    by_cases hk : p k = true
    · rw [if_pos hk] at h
      by_cases hik : i = k
      · rw [hik]; exact hk
      · exact ih (by omega) i (by omega)
    · rw [if_neg hk] at h
      omega

theorem count_upto_none (p : Nat → Bool) (n : Nat) (h : ∀ i, i < n → p i = false) :
    count_upto p n = 0 := by
  induction n with
  | zero => rfl
  | succ k ih =>
    unfold count_upto
    rw [ih (fun i hi => h i (by omega)), h k (by omega)]
    rfl

theorem count_upto_set (p q : Nat → Bool) (t : Nat) (hp : p t = false) (hq : q t = true)
    (hoth : ∀ i, i ≠ t → q i = p i) (n : Nat) :
    count_upto q n = count_upto p n + (if t < n then 1 else 0) := by
  induction n with
  | zero => rfl
  | succ k ih =>
    unfold count_upto
    rw [ih]
    by_cases hk : k = t
    · subst hk
      rw [hp, hq]
      split_ifs <;> first | omega | contradiction
    · rw [hoth k hk]
      split_ifs <;> omega

theorem arrived_count_le (N r : Nat) (s : barrier_sys) : arrived_count N r s ≤ N :=
  count_upto_le _ N

theorem arrived_count_congr (N r : Nat) (s s1 : barrier_sys)
    (h : ∀ u, u < N → (s1.threads u).arrived = (s.threads u).arrived) :
    arrived_count N r s1 = arrived_count N r s := by
  unfold arrived_count
  apply count_upto_congr
  intro i hi
  rw [h i hi]

theorem arrived_count_all (N r : Nat) (s : barrier_sys) (h : arrived_count N r s = N) :
    ∀ u, u < N → (s.threads u).arrived = r + 1 := by
  intro u hu
  have := count_upto_all _ N h u hu
  exact of_decide_eq_true this

theorem arrived_count_none (N r : Nat) (s : barrier_sys)
    (h : ∀ u, u < N → (s.threads u).arrived ≠ r + 1) : arrived_count N r s = 0 := by
  unfold arrived_count
  apply count_upto_none
  intro i hi
  exact decide_eq_false (h i hi)

theorem arrived_count_incr (N r : Nat) (s s1 : barrier_sys) (t : Nat) (ht : t < N)
    (h0 : (s.threads t).arrived ≠ r + 1) (h1 : (s1.threads t).arrived = r + 1)
    (hoth : ∀ u, u ≠ t → s1.threads u = s.threads u) :
    arrived_count N r s1 = arrived_count N r s + 1 := by
  unfold arrived_count
  rw [count_upto_set (fun i => decide ((s.threads i).arrived = r + 1))
    (fun i => decide ((s1.threads i).arrived = r + 1)) t (decide_eq_false h0)
    (decide_eq_true h1) (fun i hi => by simp only [hoth i hi]) N, if_pos ht]

theorem barrier_sys_step_bar (s : barrier_sys) (t : Nat) :
    (barrier_sys_step s t).bar = (barrier_wait_step s.bar (s.threads t)).1 := rfl

theorem barrier_sys_step_self (s : barrier_sys) (t : Nat) :
    (barrier_sys_step s t).threads t = (barrier_wait_step s.bar (s.threads t)).2 := by
  show Function.update s.threads t _ t = _
  rw [Function.update_same]

theorem barrier_sys_step_other (s : barrier_sys) (t u : Nat) (h : u ≠ t) :
    (barrier_sys_step s t).threads u = s.threads u := by
  show Function.update s.threads t _ u = _
  rw [Function.update_noteq h]

/-- Bounds that the invariant puts on the two counters of a thread. -/
theorem thread_ok_bounds (r : Nat) (th : barrier_thread) (h : thread_ok r th) :
    th.returned ≤ r ∧ r ≤ th.arrived ∧ th.arrived ≤ r + 1 := by
  obtain ⟨h1, h2, h3, h4, h5⟩ := h
  cases hpc : th.pc with
  | entry => have := h1 hpc; omega
  | arrive => have := h2 hpc; omega
  | reset => have := h3 hpc; omega
  | publish => have := h4 hpc; omega
  | spin => have := h5 hpc; omega

theorem barrier_inv_start (N : Nat) : barrier_inv N 0 (barrier_start N) := by
  refine ⟨rfl, rfl, ?_, ?_, ?_, ?_⟩
  · intro t _
    refine ⟨fun _ => ⟨rfl, rfl⟩, ?_, ?_, ?_, ?_⟩ <;> intro h <;> cases h
  · intro _
    have h0 : arrived_count N 0 (barrier_start N) = 0 :=
      arrived_count_none N 0 _ (fun u _ => show (0 : Nat) ≠ 0 + 1 by decide)
    rw [h0]
    rfl
  · intro t _ h
    cases h
  · intro t _ h
    rcases h with h | h <;> cases h

/-- A step that moves one thread between two positions that are not those of a
last arrival, and changes neither the barrier nor a counter of fetch-and-adds,
keeps the invariant. -/
theorem barrier_inv_frame (N r : Nat) (s s1 : barrier_sys) (t : Nat)
    (inv : barrier_inv N r s) (hbar : s1.bar = s.bar)
    (hoth : ∀ u, u ≠ t → s1.threads u = s.threads u)
    (harr : (s1.threads t).arrived = (s.threads t).arrived)
    (hpc : ¬ is_last (s.threads t)) (hpc1 : ¬ is_last (s1.threads t))
    (hok : thread_ok r (s1.threads t)) : barrier_inv N r s1 := by
  have hcount : arrived_count N r s1 = arrived_count N r s := by
    apply arrived_count_congr
    intro u _
    by_cases hu : u = t
    · rw [hu, harr]
    · rw [hoth u hu]
  have hlast : ∀ u, is_last (s1.threads u) → is_last (s.threads u) := by
    intro u h
    by_cases hu : u = t
    · rw [hu] at h; exact absurd h hpc1
    · rw [hoth u hu] at h; exact h
  have hpub : ∀ u, (s1.threads u).pc = barrier_pc.publish →
      (s.threads u).pc = barrier_pc.publish := by
    intro u h
    by_cases hu : u = t
    · rw [hu] at h; exact absurd (Or.inr h) hpc1
    · rw [hoth u hu] at h; exact h
  refine ⟨by rw [hbar]; exact inv.total, by rw [hbar]; exact inv.sense, ?_, ?_, ?_, ?_⟩
  · intro u hu
    by_cases hut : u = t
    · rw [hut]; exact hok
    · rw [hoth u hut]; exact inv.ok u hu
  · intro h
    rw [hbar, hcount]
    apply inv.cur
    intro u hu hp
    by_cases hut : u = t
    · rw [hut] at hp; exact hpc (Or.inr hp)
    · exact h u hu (by rw [hoth u hut]; exact hp)
  · intro u hu h
    rw [hbar]
    exact inv.pub u hu (hpub u h)
  · intro u hu h
    obtain ⟨h1, h2⟩ := inv.last u hu (hlast u h)
    exact ⟨by rw [hcount]; exact h1, fun v hv hl => h2 v hv (hlast v hl)⟩

theorem barrier_inv_step_entry (N r : Nat) (s : barrier_sys) (t : Nat) (ls : Int)
    (ret arr : Nat) (inv : barrier_inv N r s) (ht : t < N)
    (hth : s.threads t
      = { pc := barrier_pc.entry, sense := ls, returned := ret, arrived := arr }) :
    barrier_inv N r (barrier_sys_step s t) := by
  have hok := inv.ok t ht
  rw [hth] at hok
  obtain ⟨hr, ha⟩ := hok.1 rfl
  have hself : (barrier_sys_step s t).threads t
      = { pc := barrier_pc.arrive, sense := wrap_int (1 - s.bar.sense),
          returned := ret, arrived := arr } := by
    rw [barrier_sys_step_self, hth, barrier_wait_step_entry]
  have hbar : (barrier_sys_step s t).bar = s.bar := by
    rw [barrier_sys_step_bar, hth, barrier_wait_step_entry]
  apply barrier_inv_frame N r s _ t inv hbar (fun u hu => barrier_sys_step_other s t u hu)
  · rw [hself, hth]
  · rw [hth]; intro h; rcases h with h | h <;> cases h
  · rw [hself]; intro h; rcases h with h | h <;> cases h
  · rw [hself]
    refine ⟨(fun h => by cases h), fun _ => ⟨hr, ha, ?_⟩, (fun h => by cases h),
      (fun h => by cases h), (fun h => by cases h)⟩
    show wrap_int (1 - s.bar.sense) = sense_of (r + 1)
    rw [inv.sense, wrap_int_toggle]

theorem barrier_inv_step_spin (N r : Nat) (s : barrier_sys) (t : Nat) (ls : Int)
    (ret arr : Nat) (inv : barrier_inv N r s) (ht : t < N)
    (hth : s.threads t
      = { pc := barrier_pc.spin, sense := ls, returned := ret, arrived := arr }) :
    barrier_inv N r (barrier_sys_step s t) := by
  have hok := inv.ok t ht
  rw [hth] at hok
  obtain ⟨ha, hs, hr⟩ := hok.2.2.2.2 rfl
  dsimp only at ha hs hr
  have hnl : ¬ is_last (s.threads t) := by
    rw [hth]; intro h; rcases h with h | h <;> cases h
  by_cases hgo : ls = s.bar.sense
  · have hself : (barrier_sys_step s t).threads t
        = { pc := barrier_pc.entry, sense := ls, returned := ret + 1, arrived := arr } := by
      rw [barrier_sys_step_self, hth, barrier_wait_step_spin_go _ _ _ _ hgo]
    have hbar : (barrier_sys_step s t).bar = s.bar := by
      rw [barrier_sys_step_bar, hth, barrier_wait_step_spin_go _ _ _ _ hgo]
    have hret : ret + 1 = r := by
      rcases hr with h | h
      · exfalso
        rw [h] at hs
        rw [hs, inv.sense] at hgo
        exact sense_of_succ_ne r hgo
      · exact h
    apply barrier_inv_frame N r s _ t inv hbar (fun u hu => barrier_sys_step_other s t u hu)
    · rw [hself, hth]
    · exact hnl
    · rw [hself]; intro h; rcases h with h | h <;> cases h
    · rw [hself]
      refine ⟨fun _ => ⟨hret, by dsimp only; omega⟩, (fun h => by cases h), (fun h => by cases h),
        (fun h => by cases h), (fun h => by cases h)⟩
  · have hself : (barrier_sys_step s t).threads t = s.threads t := by
      rw [barrier_sys_step_self, hth, barrier_wait_step_spin_wait _ _ _ _ hgo]
    have hbar : (barrier_sys_step s t).bar = s.bar := by
      rw [barrier_sys_step_bar, hth, barrier_wait_step_spin_wait _ _ _ _ hgo]
    apply barrier_inv_frame N r s _ t inv hbar (fun u hu => barrier_sys_step_other s t u hu)
    · rw [hself]
    · exact hnl
    · rw [hself]; exact hnl
    · rw [hself]; exact inv.ok t ht

theorem barrier_inv_step_arrive (N r : Nat) (s : barrier_sys) (t : Nat) (ls : Int)
    (ret arr : Nat) (hN : N < 2 ^ 31) (inv : barrier_inv N r s) (ht : t < N)
    (hth : s.threads t
      = { pc := barrier_pc.arrive, sense := ls, returned := ret, arrived := arr }) :
    barrier_inv N r (barrier_sys_step s t) := by
  have hok := inv.ok t ht
  rw [hth] at hok
  obtain ⟨hr, ha, hs⟩ := hok.2.1 rfl
  dsimp only at hr ha hs
  have hnot : arrived_count N r s ≠ N := by
    intro h
    have := arrived_count_all N r s h t ht
    rw [hth] at this
    dsimp only at this
    omega
  have hnl : ∀ u, u < N → ¬ is_last (s.threads u) :=
    fun u hu hl => hnot (inv.last u hu hl).1
  have hcur : s.bar.cur_runners = (arrived_count N r s : Int) :=
    inv.cur (fun u hu hp => hnl u hu (Or.inr hp))
  have hlt : arrived_count N r s < N := by
    have hle := arrived_count_le N r s
    omega
  generalize hc : arrived_count N r s = c at hcur hlt hnot
  have hcN : (c : Int) < N := by exact_mod_cast hlt
  have hN' : (N : Int) < 2 ^ 31 := by exact_mod_cast hN
  have hw : wrap_int (s.bar.cur_runners + 1) = (c : Int) + 1 := by
    rw [hcur]
    exact wrap_int_succ_of_lt (Int.ofNat_nonneg c) (by omega)
  have hself : (barrier_sys_step s t).threads t
      = { pc := if (c : Int) + 1 = N then barrier_pc.reset else barrier_pc.spin,
          sense := ls, returned := ret, arrived := arr + 1 } := by
    rw [barrier_sys_step_self, hth, barrier_wait_step_arrive, hw, inv.total]
  have hbar : (barrier_sys_step s t).bar
      = { total_runners := N, cur_runners := (c : Int) + 1, sense := sense_of r } := by
    rw [barrier_sys_step_bar, hth, barrier_wait_step_arrive, hw, inv.total, inv.sense]
  have hcount : arrived_count N r (barrier_sys_step s t) = c + 1 := by
    rw [← hc]
    apply arrived_count_incr N r s _ t ht
    · rw [hth]; dsimp only; omega
    · rw [hself]; dsimp only; omega
    · exact fun u hu => barrier_sys_step_other s t u hu
  have hlast1 : ∀ u, u < N → is_last ((barrier_sys_step s t).threads u) →
      u = t ∧ c + 1 = N := by
    intro u hu hl
    by_cases hut : u = t
    · refine ⟨hut, ?_⟩
      rw [hut, hself] at hl
      by_cases hcc : (c : Int) + 1 = N
      · exact_mod_cast hcc
      · unfold is_last at hl
        rw [if_neg hcc] at hl
        rcases hl with h | h <;> cases h
    · rw [barrier_sys_step_other s t u hut] at hl
      exact absurd hl (hnl u hu)
  refine ⟨by rw [hbar], by rw [hbar], ?_, ?_, ?_, ?_⟩
  · intro u hu
    by_cases hut : u = t
    · rw [hut, hself]
      by_cases hcc : (c : Int) + 1 = N
      · rw [if_pos hcc]
        exact ⟨(fun h => by cases h), (fun h => by cases h),
          fun _ => ⟨hr, by dsimp only; omega, hs⟩, (fun h => by cases h), (fun h => by cases h)⟩
      · rw [if_neg hcc]
        exact ⟨(fun h => by cases h), (fun h => by cases h), (fun h => by cases h),
          (fun h => by cases h),
          fun _ => ⟨by dsimp only; omega, by dsimp only; rw [hr]; exact hs, Or.inl hr⟩⟩
    · rw [barrier_sys_step_other s t u hut]
      exact inv.ok u hu
  · intro _
    rw [hbar, hcount]
    push_cast
    rfl
  · intro u hu hp
    have h1 := hlast1 u hu (Or.inr hp)
    rw [h1.1, hself] at hp
    have hcc : (c : Int) + 1 = N := by exact_mod_cast h1.2
    rw [if_pos hcc] at hp
    cases hp
  · intro u hu hl
    obtain ⟨hut, hcc⟩ := hlast1 u hu hl
    exact ⟨by rw [hcount]; exact hcc, fun v hv hlv => by rw [(hlast1 v hv hlv).1, hut]⟩

theorem barrier_inv_step_reset (N r : Nat) (s : barrier_sys) (t : Nat) (ls : Int)
    (ret arr : Nat) (inv : barrier_inv N r s) (ht : t < N)
    (hth : s.threads t
      = { pc := barrier_pc.reset, sense := ls, returned := ret, arrived := arr }) :
    barrier_inv N r (barrier_sys_step s t) := by
  have hok := inv.ok t ht
  rw [hth] at hok
  have hl : is_last (s.threads t) := by rw [hth]; exact Or.inl rfl
  obtain ⟨hall, huniq⟩ := inv.last t ht hl
  have hself : (barrier_sys_step s t).threads t
      = { pc := barrier_pc.publish, sense := ls, returned := ret, arrived := arr } := by
    rw [barrier_sys_step_self, hth, barrier_wait_step_reset]
  have hbar : (barrier_sys_step s t).bar
      = { total_runners := N, cur_runners := 0, sense := sense_of r } := by
    rw [barrier_sys_step_bar, hth, barrier_wait_step_reset, inv.total, inv.sense]
  have hcount : arrived_count N r (barrier_sys_step s t) = arrived_count N r s := by
    apply arrived_count_congr
    intro u _
    by_cases hu : u = t
    · rw [hu, hself, hth]
    · rw [barrier_sys_step_other s t u hu]
  have hlast1 : ∀ u, u < N → is_last ((barrier_sys_step s t).threads u) → u = t := by
    intro u hu hlu
    by_cases hut : u = t
    · exact hut
    · rw [barrier_sys_step_other s t u hut] at hlu
      exact huniq u hu hlu
  refine ⟨by rw [hbar], by rw [hbar], ?_, ?_, ?_, ?_⟩
  · intro u hu
    by_cases hut : u = t
    · rw [hut, hself]
      exact ⟨(fun h => by cases h), (fun h => by cases h), (fun h => by cases h),
        fun _ => hok.2.2.1 rfl, (fun h => by cases h)⟩
    · rw [barrier_sys_step_other s t u hut]
      exact inv.ok u hu
  · intro h
    exact absurd (by rw [hself]) (h t ht)
  · intro u _ _
    rw [hbar]
  · intro u hu hlu
    have hut := hlast1 u hu hlu
    exact ⟨by rw [hcount]; exact hall, fun v hv hlv => by rw [hlast1 v hv hlv, hut]⟩

theorem barrier_inv_step_publish (N r : Nat) (s : barrier_sys) (t : Nat) (ls : Int)
    (ret arr : Nat) (inv : barrier_inv N r s) (ht : t < N)
    (hth : s.threads t
      = { pc := barrier_pc.publish, sense := ls, returned := ret, arrived := arr }) :
    barrier_inv N (r + 1) (barrier_sys_step s t) := by
  have hok := inv.ok t ht
  rw [hth] at hok
  obtain ⟨hr, ha, hs⟩ := hok.2.2.2.1 rfl
  dsimp only at hr ha hs
  have hl : is_last (s.threads t) := by rw [hth]; exact Or.inr rfl
  obtain ⟨hall, huniq⟩ := inv.last t ht hl
  have harr := arrived_count_all N r s hall
  have hcur0 : s.bar.cur_runners = 0 := inv.pub t ht (by rw [hth])
  have hself : (barrier_sys_step s t).threads t
      = { pc := barrier_pc.entry, sense := ls, returned := ret + 1, arrived := arr } := by
    rw [barrier_sys_step_self, hth, barrier_wait_step_publish]
  have hbar : (barrier_sys_step s t).bar
      = { total_runners := N, cur_runners := 0, sense := sense_of (r + 1) } := by
    rw [barrier_sys_step_bar, hth, barrier_wait_step_publish, inv.total, hcur0, hs]
  have hnl : ∀ u, u < N → ¬ is_last ((barrier_sys_step s t).threads u) := by
    intro u hu hlu
    by_cases hut : u = t
    · rw [hut, hself] at hlu
      rcases hlu with h | h <;> cases h
    · rw [barrier_sys_step_other s t u hut] at hlu
      exact hut (huniq u hu hlu)
  have hcount : arrived_count N (r + 1) (barrier_sys_step s t) = 0 := by
    apply arrived_count_none
    intro u hu
    by_cases hut : u = t
    · rw [hut, hself]; dsimp only; omega
    · rw [barrier_sys_step_other s t u hut, harr u hu]; omega
  refine ⟨by rw [hbar], by rw [hbar], ?_, ?_, ?_, ?_⟩
  · intro u hu
    by_cases hut : u = t
    · rw [hut, hself]
      exact ⟨fun _ => ⟨by dsimp only; omega, by dsimp only; omega⟩, (fun h => by cases h),
        (fun h => by cases h), (fun h => by cases h), (fun h => by cases h)⟩
    · rw [barrier_sys_step_other s t u hut]
      have hu1 := harr u hu
      have hnu : ¬ is_last (s.threads u) := fun h => hut (huniq u hu h)
      obtain ⟨o1, o2, _, _, o5⟩ := inv.ok u hu
      refine ⟨?_, ?_, ?_, ?_, ?_⟩
      · intro h
        have := o1 h
        omega
      · intro h
        have := o2 h
        omega
      · intro h
        exact absurd (Or.inl h) hnu
      · intro h
        exact absurd (Or.inr h) hnu
      · intro h
        obtain ⟨p1, p2, _⟩ := o5 h
        exact ⟨p1, p2, Or.inr (by omega)⟩
  · intro _
    rw [hbar, hcount]
    rfl
  · intro u hu hp
    exact absurd (Or.inr hp) (hnl u hu)
  · intro u hu hlu
    exact absurd hlu (hnl u hu)

/-- Every step of a thread below `N` keeps the invariant, for the same number of
complete rounds or for one more. -/
theorem barrier_inv_step (N r : Nat) (s : barrier_sys) (t : Nat) (hN : N < 2 ^ 31)
    (inv : barrier_inv N r s) (ht : t < N) :
    ∃ r1, barrier_inv N r1 (barrier_sys_step s t) := by
  rcases hth : s.threads t with ⟨pc, ls, ret, arr⟩
  cases pc with
  | entry => exact ⟨r, barrier_inv_step_entry N r s t ls ret arr inv ht hth⟩
  | arrive => exact ⟨r, barrier_inv_step_arrive N r s t ls ret arr hN inv ht hth⟩
  | reset => exact ⟨r, barrier_inv_step_reset N r s t ls ret arr inv ht hth⟩
  | publish => exact ⟨r + 1, barrier_inv_step_publish N r s t ls ret arr inv ht hth⟩
  | spin => exact ⟨r, barrier_inv_step_spin N r s t ls ret arr inv ht hth⟩

/-- The invariant holds after every schedule of the threads below `N`. -/
theorem barrier_inv_run (N : Nat) (hN : N < 2 ^ 31) (sched : List Nat) :
    ∀ (s : barrier_sys) (r : Nat), barrier_inv N r s → (∀ t, t ∈ sched → t < N) →
      ∃ r1, barrier_inv N r1 (barrier_run s sched) := by
  induction sched with
  | nil => intro s r inv _; exact ⟨r, inv⟩
  | cons t rest ih =>
    intro s r inv hs
    obtain ⟨r1, inv1⟩ := barrier_inv_step N r s t hN inv (hs t (List.mem_cons_self t rest))
    exact ih _ r1 inv1 (fun u hu => hs u (List.mem_cons_of_mem t hu))

/-- C6: `N` threads (`N` an `int`, so below `2 ^ 31`) on a barrier initialised
with `barrier_init(bar, N)`, every thread calling `barrier_wait` again and again,
the atomic steps interleaved by an arbitrary schedule: in every state reached, if
thread `t` has returned from its `K`-th call then every thread `u` has performed
the fetch-and-add of its `K`-th call. This holds for every `K`, on the same
barrier, with no step of the schedule reinitialising it. -/
theorem barrier_rendezvous (N : Nat) (sched : List Nat) (t u K : Nat)
    (hN : N < 2 ^ 31) (hs : ∀ i, i ∈ sched → i < N)
    (ht : t < N) (hu : u < N)
    (hret : K ≤ ((barrier_run (barrier_start N) sched).threads t).returned) :
    K ≤ ((barrier_run (barrier_start N) sched).threads u).arrived := by
  obtain ⟨r, inv⟩ := barrier_inv_run N hN sched _ 0 (barrier_inv_start N) hs
  have h1 := thread_ok_bounds r _ (inv.ok t ht)
  have h2 := thread_ok_bounds r _ (inv.ok u hu)
  omega

/-- C6 at a concrete input: two threads; thread 1 arrives last and completes the
first round, after which thread 0 returns from its first call. -/
theorem barrier_rendezvous_witness :
    1 ≤ ((barrier_run (barrier_start 2) [0, 0, 1, 1, 1, 1, 0]).threads 0).returned ∧
    1 ≤ ((barrier_run (barrier_start 2) [0, 0, 1, 1, 1, 1, 0]).threads 1).arrived :=
  ⟨by decide,
   barrier_rendezvous 2 [0, 0, 1, 1, 1, 1, 0] 0 1 1 (by norm_num) (by decide)
    (by decide) (by decide) (by decide)⟩

/-! ## Spin lock, several threads, clean bytes in `ret` -/

theorem spin_step_locking (s : spin_sys) (t ret0 : Nat) (h : s.pc t = spin_pc.locking) :
    spin_step s t ret0
      = { lock := { value := (compare_and_swap ret0 s.lock.value 1 0).cell }
          pc := Function.update s.pc t
            (if (compare_and_swap ret0 s.lock.value 1 0).ret = 0 then spin_pc.locking
             else spin_pc.critical) } := by
  unfold spin_step
  rw [h]

theorem spin_step_critical (s : spin_sys) (t ret0 : Nat) (h : s.pc t = spin_pc.critical) :
    spin_step s t ret0
      = { lock := spinlock_unlock ret0 s.lock
          pc := Function.update s.pc t spin_pc.locking } := by
  unfold spin_step
  rw [h]

/-- Every step whose `compare_and_swap` finds clean bytes in `ret` keeps the
invariant of the spin lock. -/
theorem spin_inv_step (s : spin_sys) (t ret0 : Nat) (hr : wrap32 ret0 < 256)
    (inv : spin_inv s) : spin_inv (spin_step s t ret0) := by
  rcases inv with ⟨hv, hall⟩ | ⟨hv, o, ho, hoth⟩
  · right
    rw [spin_step_locking s t ret0 (hall t), hv,
      compare_and_swap_hit_clean ret0 1 1 0 hr rfl]
    refine ⟨show wrap32 0 = 0 by decide, t, ?_, ?_⟩
    · show Function.update s.pc t _ t = _
      rw [Function.update_same]
      rfl
    · intro u hu
      show Function.update s.pc t _ u = _
      rw [Function.update_noteq hu]
      exact hall u
  · by_cases hto : t = o
    · left
      rw [spin_step_critical s t ret0 (by rw [hto]; exact ho)]
      unfold spinlock_unlock
      rw [hv, compare_and_swap_hit_clean ret0 0 0 1 hr rfl]
      refine ⟨show wrap32 1 = 1 by decide, ?_⟩
      intro u
      show Function.update s.pc t _ u = _
      by_cases hu : u = t
      · rw [hu, Function.update_same]
      · rw [Function.update_noteq hu]
        exact hoth u (by rw [← hto]; exact hu)
    · right
      rw [spin_step_locking s t ret0 (hoth t hto), hv,
        compare_and_swap_miss_clean ret0 0 1 0 hr (by decide)]
      refine ⟨rfl, o, ?_, ?_⟩
      · show Function.update s.pc t _ o = _
        rw [Function.update_noteq (fun h => hto h.symm)]
        exact ho
      · intro u hu
        show Function.update s.pc t _ u = _
        by_cases hut : u = t
        · rw [hut, Function.update_same]
          rfl
        · rw [Function.update_noteq hut]
          exact hoth u hu

theorem spin_inv_run (sched : List (Nat × Nat)) :
    ∀ s, spin_inv s → (∀ x, x ∈ sched → wrap32 x.2 < 256) → spin_inv (spin_run s sched) := by
  induction sched with
  | nil => intro s inv _; exact inv
  | cons x rest ih =>
    intro s inv hs
    obtain ⟨t, ret0⟩ := x
    exact ih _ (spin_inv_step s t ret0 (hs (t, ret0) (List.mem_cons_self _ _)) inv)
      (fun y hy => hs y (List.mem_cons_of_mem _ hy))

/-- Mutual exclusion of the spin lock when the bytes of `ret` that `setz` does not
write are zero at every `compare_and_swap` call: after any schedule from
`spinlock_init`, two threads that are both between their return from
`spinlock_lock` and their call of `spinlock_unlock` are the same thread. -/
theorem spinlock_mutual_exclusion_clean (sched : List (Nat × Nat)) (t u : Nat)
    (hs : ∀ x, x ∈ sched → wrap32 x.2 < 256)
    (ht : (spin_run spin_start sched).pc t = spin_pc.critical)
    (hu : (spin_run spin_start sched).pc u = spin_pc.critical) : t = u := by
  have inv := spin_inv_run sched spin_start (Or.inl ⟨rfl, fun _ => rfl⟩) hs
  rcases inv with ⟨_, hall⟩ | ⟨_, o, _, hoth⟩
  · rw [hall t] at ht
    cases ht
  · by_cases h1 : t = o
    · by_cases h2 : u = o
      · rw [h1, h2]
      · rw [hoth u h2] at hu
        cases hu
    · rw [hoth t h1] at ht
      cases ht

/-- Mutual exclusion under clean bytes at a concrete schedule: thread 0 takes the
lock, thread 1 fails to, thread 0 releases it, thread 1 takes it. -/
theorem spinlock_mutual_exclusion_clean_witness :
    (spin_run spin_start [(0, 0), (1, 0), (0, 0), (1, 0)]).pc 1 = spin_pc.critical ∧
    (1 : Nat) = 1 :=
  ⟨by decide,
   spinlock_mutual_exclusion_clean [(0, 0), (1, 0), (0, 0), (1, 0)] 1 1 (by decide)
    (by decide) (by decide)⟩

/-! ## Reader-writer lock, several threads, clean bytes in `ret` -/

/-- A step of a thread on an idle lock that nobody owns: afterwards the thread
either owns the lock or the lock is still idle. -/
theorem rw_thread_step_free (lock : read_write_lock) (pc : rw_pc) (w : Bool) (ret0 : Nat)
    (hr : wrap32 ret0 < 256) (h0 : (lock.rw_lock, lock.readers) = rw_expect none)
    (hp : rw_owner pc = false) : rw_agree (rw_thread_step lock pc w ret0) := by
  obtain ⟨rd, dis, rw⟩ := lock
  have h1 : rw = 0 := congrArg Prod.fst h0
  have h2 : rd = 0 := congrArg Prod.snd h0
  subst h1 h2
  have c1 := compare_and_swap_hit_clean ret0 0 0 1 hr rfl
  have c2 := compare_and_swap_hit_clean ret0 0 0 2 hr rfl
  cases pc with
  | idle => cases w <;> exact Or.inl ⟨rfl, rfl⟩
  | rl_test =>
    by_cases hd : dis = 1
    · left
      refine ⟨?_, rfl⟩
      show rw_owner (if dis = 1 then rw_pc.rl_test else rw_pc.rl_claim) = false
      rw [if_pos hd]; rfl
    · left
      refine ⟨?_, rfl⟩
      show rw_owner (if dis = 1 then rw_pc.rl_test else rw_pc.rl_claim) = false
      rw [if_neg hd]; rfl
  | rl_claim =>
    right
    simp only [rw_thread_step, c1]
    exact ⟨rfl, rfl⟩
  | rl_probe => cases hp
  | rl_add => cases hp
  | reading => cases hp
  | ru_release => cases hp
  | wl_claim =>
    right
    simp only [rw_thread_step, c2]
    exact ⟨rfl, rfl⟩
  | wl_readers => exact Or.inl ⟨rfl, rfl⟩
  | wl_disallow => exact Or.inl ⟨rfl, rfl⟩
  | writing => cases hp
  | wu_clear => exact Or.inl ⟨rfl, rfl⟩

/-- A step of a thread that does not own the lock while another thread, at
position `po`, does: the thread stays without the lock and the lock keeps
`rw_lock` and `readers`. -/
theorem rw_thread_step_other (lock : read_write_lock) (pc po : rw_pc) (w : Bool) (ret0 : Nat)
    (hr : wrap32 ret0 < 256) (h0 : (lock.rw_lock, lock.readers) = rw_expect (some po))
    (hp : rw_owner pc = false) :
    rw_owner (rw_thread_step lock pc w ret0).2 = false ∧
    ((rw_thread_step lock pc w ret0).1.rw_lock, (rw_thread_step lock pc w ret0).1.readers)
      = (lock.rw_lock, lock.readers) := by
  obtain ⟨rd, dis, rw⟩ := lock
  have hrw : rw = 1 ∨ rw = 2 := by
    have h1 : rw = (rw_expect (some po)).1 := congrArg Prod.fst h0
    cases po <;> first | exact Or.inl h1 | exact Or.inr h1
  have m1 : ∀ n, compare_and_swap ret0 rw 0 n = { ret := 0, cell := rw } := by
    intro n
    apply compare_and_swap_miss_clean ret0 rw 0 n hr
    rcases hrw with h | h <;> rw [h] <;> decide
  cases pc with
  | idle => cases w <;> exact ⟨rfl, rfl⟩
  | rl_test =>
    refine ⟨?_, rfl⟩
    show rw_owner (if dis = 1 then rw_pc.rl_test else rw_pc.rl_claim) = false
    by_cases hd : dis = 1
    · rw [if_pos hd]; rfl
    · rw [if_neg hd]; rfl
  | rl_claim =>
    simp only [rw_thread_step, m1]
    refine ⟨?_, ?_⟩ <;> first | rfl | trivial
  | rl_probe => cases hp
  | rl_add => cases hp
  | reading => cases hp
  | ru_release => cases hp
  | wl_claim =>
    simp only [rw_thread_step, m1]
    refine ⟨?_, ?_⟩ <;> first | rfl | trivial
  | wl_readers =>
    refine ⟨?_, rfl⟩
    show rw_owner (if rd > 0 then rw_pc.wl_disallow else rw_pc.wl_claim) = false
    by_cases hd : rd > 0
    · rw [if_pos hd]; rfl
    · rw [if_neg hd]; rfl
  | wl_disallow => exact ⟨rfl, rfl⟩
  | writing => cases hp
  | wu_clear => exact ⟨rfl, rfl⟩

/-- A step of the thread that owns the lock: afterwards it still owns it, with the
lock holding what its new position says, or it has given the lock back. -/
theorem rw_thread_step_owner (lock : read_write_lock) (pc : rw_pc) (w : Bool) (ret0 : Nat)
    (hr : wrap32 ret0 < 256) (hp : rw_owner pc = true)
    (h0 : (lock.rw_lock, lock.readers) = rw_expect (some pc)) :
    rw_agree (rw_thread_step lock pc w ret0) := by
  obtain ⟨rd, dis, rw⟩ := lock
  have h1 : rw = (rw_expect (some pc)).1 := congrArg Prod.fst h0
  have h2 : rd = (rw_expect (some pc)).2 := congrArg Prod.snd h0
  have c1 := compare_and_swap_hit_clean ret0 1 1 1 hr rfl
  have c2 := compare_and_swap_hit_clean ret0 1 1 0 hr rfl
  have c3 := compare_and_swap_hit_clean ret0 2 2 0 hr rfl
  cases pc with
  | idle => cases hp
  | rl_test => cases hp
  | rl_claim => cases hp
  | rl_probe =>
    subst h1 h2
    right
    simp only [rw_thread_step, rw_expect, c1]
    exact ⟨rfl, rfl⟩
  | rl_add =>
    subst h1 h2
    exact Or.inr ⟨rfl, rfl⟩
  | reading =>
    subst h1 h2
    exact Or.inr ⟨rfl, rfl⟩
  | ru_release =>
    subst h1 h2
    left
    simp only [rw_thread_step, rw_expect, c2]
    exact ⟨rfl, rfl⟩
  | wl_claim => cases hp
  | wl_readers => cases hp
  | wl_disallow => cases hp
  | writing =>
    subst h1 h2
    left
    simp only [rw_thread_step, rw_expect, c3]
    exact ⟨rfl, rfl⟩
  | wu_clear => cases hp

/-- Every step whose `compare_and_swap` finds clean bytes in `ret` keeps the
invariant of the reader-writer lock. -/
theorem rw_inv_step (s : rw_sys) (l : rw_label) (hr : wrap32 l.ret0 < 256)
    (inv : rw_inv s) : rw_inv (rw_sys_step s l) := by
  have hself : (rw_sys_step s l).pc l.thread
      = (rw_thread_step s.lock (s.pc l.thread) l.write l.ret0).2 := by
    show Function.update s.pc l.thread _ l.thread = _
    rw [Function.update_same]
  have hoth : ∀ u, u ≠ l.thread → (rw_sys_step s l).pc u = s.pc u := by
    intro u hu
    show Function.update s.pc l.thread _ u = _
    rw [Function.update_noteq hu]
  have hlock : (rw_sys_step s l).lock
      = (rw_thread_step s.lock (s.pc l.thread) l.write l.ret0).1 := rfl
  have build : rw_agree (rw_thread_step s.lock (s.pc l.thread) l.write l.ret0) →
      (∀ u, u ≠ l.thread → rw_owner (s.pc u) = false) → rw_inv (rw_sys_step s l) := by
    intro hag hothers
    rcases hag with ⟨a1, a2⟩ | ⟨a1, a2⟩
    · left
      refine ⟨by rw [hlock]; exact a2, fun u => ?_⟩
      by_cases hu : u = l.thread
      · rw [hu, hself]; exact a1
      · rw [hoth u hu]; exact hothers u hu
    · right
      refine ⟨l.thread, by rw [hself]; exact a1, fun u hu => ?_, by rw [hlock, hself]; exact a2⟩
      rw [hoth u hu]; exact hothers u hu
  rcases inv with ⟨h0, hall⟩ | ⟨o, ho, hothers, h0⟩
  · exact build (rw_thread_step_free s.lock _ l.write l.ret0 hr h0 (hall l.thread))
      (fun u _ => hall u)
  · by_cases hto : l.thread = o
    · rw [← hto] at ho h0 hothers
      exact build (rw_thread_step_owner s.lock _ l.write l.ret0 hr ho h0) hothers
    · obtain ⟨b1, b2⟩ := rw_thread_step_other s.lock (s.pc l.thread) (s.pc o) l.write l.ret0
        hr h0 (hothers l.thread hto)
      right
      have hpo : (rw_sys_step s l).pc o = s.pc o := hoth o (fun h => hto h.symm)
      refine ⟨o, by rw [hpo]; exact ho, fun u hu => ?_, by rw [hpo, hlock, b2]; exact h0⟩
      by_cases hut : u = l.thread
      · rw [hut, hself]; exact b1
      · rw [hoth u hut]; exact hothers u hu

theorem rw_inv_run (sched : List rw_label) :
    ∀ s, rw_inv s → (∀ l, l ∈ sched → wrap32 l.ret0 < 256) → rw_inv (rw_run s sched) := by
  induction sched with
  | nil => intro s inv _; exact inv
  | cons l rest ih =>
    intro s inv hs
    exact ih _ (rw_inv_step s l (hs l (List.mem_cons_self _ _)) inv)
      (fun y hy => hs y (List.mem_cons_of_mem _ hy))

/-- Reader/writer exclusivity when the bytes of `ret` that `setz` does not write
are zero at every `compare_and_swap` call: after any schedule from `rw_lock_init`,
if thread `t` is between its return from `rw_write_lock` and its call of
`rw_write_unlock`, then `readers = 0`, no thread is between its return from
`rw_read_lock` and its call of `rw_read_unlock`, and no other thread has returned
from `rw_write_lock`. -/
theorem rw_lock_exclusive_clean (sched : List rw_label) (t u : Nat)
    (hs : ∀ l, l ∈ sched → wrap32 l.ret0 < 256)
    (ht : (rw_run rw_start sched).pc t = rw_pc.writing) :
    (rw_run rw_start sched).lock.readers = 0 ∧
    (rw_run rw_start sched).pc u ≠ rw_pc.reading ∧
    ((rw_run rw_start sched).pc u = rw_pc.writing → u = t) := by
  have inv := rw_inv_run sched rw_start (Or.inl ⟨rfl, fun _ => rfl⟩) hs
  rcases inv with ⟨_, hall⟩ | ⟨o, _, hoth, h0⟩
  · have := hall t
    rw [ht] at this
    cases this
  · have hto : t = o := by
      by_contra h
      have := hoth t h
      rw [ht] at this
      cases this
    rw [← hto, ht] at h0
    rw [← hto] at hoth
    refine ⟨congrArg Prod.snd h0, ?_, ?_⟩
    · intro hu
      by_cases hut : u = t
      · rw [hut, ht] at hu
        cases hu
      · have := hoth u hut
        rw [hu] at this
        cases this
    · intro hu
      by_contra hut
      have := hoth u hut
      rw [hu] at this
      cases this

/-- Exclusivity under clean bytes at a concrete schedule: thread 1 reads and
releases, then thread 0 takes the lock for writing. -/
theorem rw_lock_exclusive_clean_witness :
    (rw_run rw_start
      [⟨1, false, 0⟩, ⟨1, false, 0⟩, ⟨1, false, 0⟩, ⟨1, false, 0⟩, ⟨1, false, 0⟩,
       ⟨1, false, 0⟩, ⟨1, false, 0⟩, ⟨0, true, 0⟩, ⟨0, true, 0⟩]).pc 0 = rw_pc.writing ∧
    (rw_run rw_start
      [⟨1, false, 0⟩, ⟨1, false, 0⟩, ⟨1, false, 0⟩, ⟨1, false, 0⟩, ⟨1, false, 0⟩,
       ⟨1, false, 0⟩, ⟨1, false, 0⟩, ⟨0, true, 0⟩, ⟨0, true, 0⟩]).lock.readers = 0 :=
  ⟨by decide,
   (rw_lock_exclusive_clean
      [⟨1, false, 0⟩, ⟨1, false, 0⟩, ⟨1, false, 0⟩, ⟨1, false, 0⟩, ⟨1, false, 0⟩,
       ⟨1, false, 0⟩, ⟨1, false, 0⟩, ⟨0, true, 0⟩, ⟨0, true, 0⟩] 0 1 (by decide)
      (by decide)).1⟩

/-! ## Lock-free queue: an enqueue on a lagging tail, in general -/

theorem compare_and_swap_ptr_miss_cell (ret0 c e n : Nat) (h : wrap64 e ≠ wrap64 c) :
    (compare_and_swap_ptr ret0 c e n).cell = c := by
  simp only [compare_and_swap_ptr, h, decide_False, Bool.false_eq_true, if_false]

/-- The loop of `lf_enqueue` by one thread on a queue whose `tail` is not the last
node: it ends after one evaluation of its body and has written no node. -/
theorem lf_enqueue_loop_lagging (fuel : Nat) (stale : Nat → Nat) (m : memory) (q : Nat)
    (h1 : (m.heap m.queue.tail).next ≠ 0) (h2 : (m.heap m.queue.tail).next < 2 ^ 64) :
    ∃ x, lf_enqueue_loop (fuel + 1) stale m q = some x ∧ x.1.heap = m.heap ∧
      x.1.brk = m.brk ∧ x.1.queue.head = m.queue.head := by
  have hmiss : wrap64 0 ≠ wrap64 (m.heap m.queue.tail).next := by
    rw [wrap64_of_lt h2]
    exact fun h => h1 h.symm
  have hcell := compare_and_swap_ptr_miss_cell (stale 0) (m.heap m.queue.tail).next 0 q hmiss
  have hheap : Function.update m.heap m.queue.tail
      { next := (m.heap m.queue.tail).next, value := (m.heap m.queue.tail).value } = m.heap :=
    Function.update_eq_self _ _
  have hit := compare_and_swap_ptr_hit_int (stale 1) m.queue.tail (m.heap m.queue.tail).next
  rw [lf_enqueue_loop]
  simp only [hcell, hheap]
  by_cases hs : ptr_to_int
      (compare_and_swap_ptr (stale 0) (m.heap m.queue.tail).next 0 q).ret = 0
  · rw [if_pos hs, if_neg hit]
    exact ⟨_, rfl, rfl, rfl, rfl⟩
  · rw [if_neg hs]
    exact ⟨_, rfl, rfl, rfl, rfl⟩

/-- An enqueue by one thread on a queue whose `tail` is not the last node returns
after one evaluation of its loop body; the only node written is the new one at
address `brk`, so no `next` field points to it and the value is not in the
queue. -/
theorem lf_enqueue_lagging (fuel : Nat) (stale : Nat → Nat) (m : memory) (val : Int)
    (h1 : (m.heap m.queue.tail).next ≠ 0) (h2 : (m.heap m.queue.tail).next < 2 ^ 64)
    (hne : m.queue.tail ≠ m.brk) :
    ∃ m1, lf_enqueue (fuel + 1) stale m val = some m1 ∧
      m1.heap = Function.update m.heap m.brk { next := 0, value := val } ∧
      m1.queue.head = m.queue.head := by
  unfold lf_enqueue
  simp only [malloc]
  obtain ⟨x, hx, hh, _, hq⟩ := lf_enqueue_loop_lagging fuel stale
    { heap := Function.update m.heap m.brk { next := 0, value := val }, brk := m.brk + 1,
      queue := m.queue } m.brk
    (by simp only [Function.update_noteq hne]; exact h1)
    (by simp only [Function.update_noteq hne]; exact h2)
  rw [hx]
  exact ⟨_, rfl, hh, hq⟩

/-- An enqueue on a lagging tail at the concrete queue `memory_lagging`. -/
theorem lf_enqueue_lagging_witness :
    ∃ m1, lf_enqueue 1 stale_zero memory_lagging 2 = some m1 ∧
      m1.heap = Function.update memory_lagging.heap memory_lagging.brk
        { next := 0, value := 2 } ∧
      m1.queue.head = memory_lagging.queue.head :=
  lf_enqueue_lagging 0 stale_zero memory_lagging 2 (by decide) (by decide) (by decide)

/-! ## Spin lock, one thread -/

/-- A `compare_and_swap` whose cell holds the expected value: the value returned
is not zero, whatever `ret` held, and the cell takes the new value. -/
theorem compare_and_swap_hit (ret0 c e n : Nat) (h : wrap32 e = wrap32 c) :
    (compare_and_swap ret0 c e n).ret ≠ 0 ∧ (compare_and_swap ret0 c e n).cell = wrap32 n := by
  constructor
  · intro h0
    have := compare_and_swap_ret_mod ret0 c e n
    rw [h0, if_pos h] at this
    simp at this
  · simp only [compare_and_swap, h, decide_True, if_true]

/-- One call of `spinlock_lock` on an available lock: a single `compare_and_swap`
takes it. -/
theorem spinlock_lock_available (fuel : Nat) (stale : Nat → Nat) :
    spinlock_lock (fuel + 1) stale { value := 1 } = some { value := 0 } := by
  have h := compare_and_swap_hit (stale 0) 1 1 0 rfl
  rw [spinlock_lock]
  simp only [h.1, if_false, h.2]
  rfl

theorem spinlock_unlock_held (ret0 : Nat) :
    spinlock_unlock ret0 { value := 0 } = { value := 1 } := by
  have h := compare_and_swap_hit ret0 0 0 1 rfl
  unfold spinlock_unlock
  simp only [h.2]
  rfl

theorem spinlock_rounds_available (n : Nat) :
    ∀ stale : Nat → Nat, spinlock_rounds n stale { value := 1 } = some { value := 1 } := by
  induction n with
  | zero => intro stale; rfl
  | succ k ih =>
    intro stale
    rw [spinlock_rounds, spinlock_lock_available 0 stale]
    simp only [Option.some_bind, spinlock_unlock_held]
    exact ih _

/-- C12: `spinlock_init` leaves `value = 1`; `spinlock_lock` on `value = 1`
returns after a single `compare_and_swap` leaving `value = 0`; `spinlock_unlock`
on `value = 0` leaves `value = 1`; so init, lock, unlock gives the state of init
alone, and `n` rounds of lock and unlock, each lock with fuel for one
`compare_and_swap`, all return and end in that state. Nothing here depends on
what the local `ret` held. -/
theorem spinlock_round_trip (stale : Nat → Nat) (ret0 : Nat) (lock0 : spinlock) (n : Nat) :
    spinlock_init lock0 = { value := 1 } ∧
    spinlock_lock 1 stale { value := 1 } = some { value := 0 } ∧
    spinlock_unlock ret0 { value := 0 } = { value := 1 } ∧
    (spinlock_lock 1 stale (spinlock_init lock0)).map (spinlock_unlock ret0)
      = some (spinlock_init lock0) ∧
    spinlock_rounds n stale (spinlock_init lock0) = some (spinlock_init lock0) := by
  refine ⟨rfl, spinlock_lock_available 0 stale, spinlock_unlock_held ret0, ?_,
    spinlock_rounds_available n stale⟩
  show (spinlock_lock 1 stale { value := 1 }).map (spinlock_unlock ret0) = some { value := 1 }
  rw [spinlock_lock_available 0 stale, Option.map_some', spinlock_unlock_held]

/-! ## Reader-writer lock, one thread: the four functions -/

/-- C13: with `disallow_sub_readers = 1`, whatever `rw_lock` and `readers` hold,
`rw_read_lock` has not returned after any number of evaluations of its loop
condition; an evaluation goes on to the next with the same lock and without
using a `compare_and_swap`; and the atomic step of a thread at that test leaves
the lock as it is and the thread at the test. -/
theorem rw_read_lock_disallowed (fuel : Nat) (stale : Nat → Nat) (lock : read_write_lock)
    (w : Bool) (ret0 : Nat) (h : lock.disallow_sub_readers = 1) :
    rw_read_lock fuel stale lock = none ∧
    rw_read_lock (fuel + 1) stale lock = rw_read_lock fuel stale lock ∧
    rw_thread_step lock rw_pc.rl_test w ret0 = (lock, rw_pc.rl_test) := by
  have hstep : ∀ k, rw_read_lock (k + 1) stale lock = rw_read_lock k stale lock := by
    intro k
    rw [rw_read_lock, if_pos h]
  refine ⟨?_, hstep fuel, ?_⟩
  · induction fuel with
    | zero => rfl
    | succ k ih => rw [hstep k]; exact ih
  · show (lock, if lock.disallow_sub_readers = 1 then rw_pc.rl_test else rw_pc.rl_claim) = _
    rw [if_pos h]

/-- C13 at a concrete input: a writer holds the lock and the flag is set. -/
theorem rw_read_lock_disallowed_witness :
    rw_read_lock 5 stale_zero { readers := 0, disallow_sub_readers := 1, rw_lock := 2 } = none :=
  (rw_read_lock_disallowed 5 stale_zero
    { readers := 0, disallow_sub_readers := 1, rw_lock := 2 } false 0 rfl).1

/-- The content of the cell after a `compare_and_swap` on 32-bit operands. -/
theorem compare_and_swap_cell (ret0 c e n : Nat) (hc : c < 2 ^ 32) (he : e < 2 ^ 32)
    (hn : n < 2 ^ 32) : (compare_and_swap ret0 c e n).cell = if c = e then n else c := by
  simp only [compare_and_swap, wrap32_of_lt hc, wrap32_of_lt he, wrap32_of_lt hn]
  by_cases h : c = e
  · simp [h]
  · have h2 : ¬ e = c := fun h3 => h h3.symm
    simp [h, h2]

/-- One call of `rw_read_lock` on an idle lock with the flag clear: both
`compare_and_swap` calls succeed, whatever `ret` held, and `readers` is
incremented. -/
theorem rw_read_lock_idle (fuel : Nat) (stale : Nat → Nat) (r d : Int) (hd : d ≠ 1) :
    rw_read_lock (fuel + 1) stale { readers := r, disallow_sub_readers := d, rw_lock := 0 }
      = some { readers := atomic_add r 1, disallow_sub_readers := d, rw_lock := 1 } := by
  have h1 := compare_and_swap_hit (stale 0) 0 0 1 rfl
  have h2 := compare_and_swap_hit (stale 1) 1 1 1 rfl
  have w1 : wrap32 1 = 1 := by decide
  rw [rw_read_lock]
  simp only [hd, if_false, h1.1, h1.2, w1, h2.1, h2.2]

/-- What `rw_read_unlock` leaves when `readers` is positive. -/
theorem rw_read_unlock_eq (ret0 : Nat) (r d : Int) (rw : Nat) (h1 : 1 ≤ r) (h2 : r < 2 ^ 31) :
    rw_read_unlock ret0 { readers := r, disallow_sub_readers := d, rw_lock := rw }
      = if r - 1 = 0 then
          { readers := r - 1, disallow_sub_readers := d,
            rw_lock := (compare_and_swap ret0 rw 1 0).cell }
        else { readers := r - 1, disallow_sub_readers := d, rw_lock := rw } := by
  have w1 : wrap_int (r + -1) = r - 1 := by
    have : r + -1 = r - 1 := by ring
    rw [this]
    exact wrap_int_of_range (by norm_num; omega) (by omega)
  have w2 : wrap_int (r - 1) = r - 1 :=
    wrap_int_of_range (by norm_num; omega) (by omega)
  unfold rw_read_unlock atomic_add_ret_prev
  simp only [w1, w2]

/-- C14: on a lock with `readers = r >= 1`, `rw_read_unlock` leaves
`readers = r - 1` and `disallow_sub_readers` as it was; when `r - 1 = 0` and
`rw_lock = 1` it sets `rw_lock` to 0; when `r - 1 > 0` or `rw_lock` is not 1 it
leaves `rw_lock` as it was. After `rw_lock_init`, `rw_read_lock` returns within
one evaluation of its loop condition with `readers = 1`, `rw_lock = 1`, and
`rw_read_unlock` then gives back the state `rw_lock_init` left. Nothing here
depends on what the local `ret` held. -/
theorem rw_read_unlock_effect (ret0 : Nat) (stale : Nat → Nat) (r d : Int) (rw : Nat)
    (lock0 : read_write_lock) (h1 : 1 ≤ r) (h2 : r < 2 ^ 31) (h3 : rw < 2 ^ 32) :
    (rw_read_unlock ret0 { readers := r, disallow_sub_readers := d, rw_lock := rw }).readers
      = r - 1 ∧
    (rw_read_unlock ret0
      { readers := r, disallow_sub_readers := d, rw_lock := rw }).disallow_sub_readers = d ∧
    (r - 1 = 0 → rw = 1 →
      (rw_read_unlock ret0
        { readers := r, disallow_sub_readers := d, rw_lock := rw }).rw_lock = 0) ∧
    (r - 1 > 0 ∨ rw ≠ 1 →
      (rw_read_unlock ret0
        { readers := r, disallow_sub_readers := d, rw_lock := rw }).rw_lock = rw) ∧
    rw_read_lock 1 stale (rw_lock_init lock0)
      = some { readers := 1, disallow_sub_readers := 0, rw_lock := 1 } ∧
    rw_read_unlock ret0 { readers := 1, disallow_sub_readers := 0, rw_lock := 1 }
      = rw_lock_init lock0 := by
  have hcell := compare_and_swap_cell ret0 rw 1 0 h3 (by norm_num) (by norm_num)
  have heq := rw_read_unlock_eq ret0 r d rw h1 h2
  refine ⟨?_, ?_, ?_, ?_, ?_, ?_⟩
  · rw [heq]; split_ifs <;> rfl
  · rw [heq]; split_ifs <;> rfl
  · intro hr hrw
    rw [heq, if_pos hr]
    show (compare_and_swap ret0 rw 1 0).cell = 0
    rw [hcell, if_pos hrw]
  · intro h
    rw [heq]
    by_cases hr : r - 1 = 0
    · rw [if_pos hr]
      show (compare_and_swap ret0 rw 1 0).cell = rw
      rw [hcell]
      rcases h with h | h
      · omega
      · rw [if_neg h]
    · rw [if_neg hr]
  · exact rw_read_lock_idle 0 stale 0 0 (by decide)
  · have h := rw_read_unlock_eq ret0 1 0 1 (by norm_num) (by norm_num)
    rw [h, if_pos (by norm_num)]
    have hc := compare_and_swap_cell ret0 1 1 0 (by norm_num) (by norm_num) (by norm_num)
    rw [hc, if_pos rfl]
    rfl

/-- C14 at a concrete input: the second-last of two readers leaves. -/
theorem rw_read_unlock_effect_witness :
    (rw_read_unlock 0 { readers := 2, disallow_sub_readers := 0, rw_lock := 1 }).readers
      = 2 - 1 ∧
    rw_read_lock 1 stale_zero (rw_lock_init { readers := 7, disallow_sub_readers := 7, rw_lock := 7 })
      = some { readers := 1, disallow_sub_readers := 0, rw_lock := 1 } :=
  ⟨(rw_read_unlock_effect 0 stale_zero 2 0 1
      { readers := 7, disallow_sub_readers := 7, rw_lock := 7 }
      (by norm_num) (by norm_num) (by norm_num)).1,
   (rw_read_unlock_effect 0 stale_zero 2 0 1
      { readers := 7, disallow_sub_readers := 7, rw_lock := 7 }
      (by norm_num) (by norm_num) (by norm_num)).2.2.2.2.1⟩

/-! ## Atomic arithmetic -/

/-- The reduction `wrap_int` gives a two's-complement `int` that differs from its
argument by a multiple of `2 ^ 32`. -/
theorem wrap_int_spec (x : Int) :
    -2 ^ 31 ≤ wrap_int x ∧ wrap_int x < 2 ^ 31 ∧ (wrap_int x - x) % 2 ^ 32 = 0 := by
  unfold wrap_int
  norm_num
  omega

/-- Two integers have the same reduction exactly when they differ by a multiple
of `2 ^ 32`. -/
theorem wrap_int_eq_iff (x y : Int) : wrap_int x = wrap_int y ↔ (x - y) % 2 ^ 32 = 0 := by
  unfold wrap_int
  norm_num
  omega

/-- C18: `atomic_add` leaves `c + d` and `atomic_sub` leaves `c - d`, both
reduced modulo `2 ^ 32` to a two's-complement `int`; `atomic_sub` with `d` is
`atomic_add` with `-d` (also with `-d` itself reduced, as for `d = INT_MIN`); and
`atomic_add` followed by `atomic_sub` with the same delta gives back `c`, for
every `int` `c` and every `d`. -/
theorem atomic_add_sub (c d : Int) (h1 : -2 ^ 31 ≤ c) (h2 : c < 2 ^ 31) :
    atomic_add c d = wrap_int (c + d) ∧
    atomic_sub c d = wrap_int (c - d) ∧
    (-2 ^ 31 ≤ atomic_add c d ∧ atomic_add c d < 2 ^ 31 ∧
      (atomic_add c d - (c + d)) % 2 ^ 32 = 0) ∧
    (-2 ^ 31 ≤ atomic_sub c d ∧ atomic_sub c d < 2 ^ 31 ∧
      (atomic_sub c d - (c - d)) % 2 ^ 32 = 0) ∧
    atomic_sub c d = atomic_add c (-d) ∧
    atomic_sub c d = atomic_add c (wrap_int (-d)) ∧
    atomic_sub (atomic_add c d) d = c := by
  refine ⟨rfl, rfl, wrap_int_spec _, wrap_int_spec _, ?_, ?_, ?_⟩
  · show wrap_int (c - d) = wrap_int (c + -d)
    rw [Int.sub_eq_add_neg]
  · show wrap_int (c - d) = wrap_int (c + wrap_int (-d))
    rw [wrap_int_eq_iff]
    have := wrap_int_spec (-d)
    omega
  · show wrap_int (wrap_int (c + d) - d) = c
    have hc : wrap_int c = c := wrap_int_of_range h1 h2
    rw [← hc, wrap_int_eq_iff, hc]
    have := wrap_int_spec (c + d)
    omega

/-- C18 at a concrete input: an addition that wraps past `INT_MAX` and the
subtraction that undoes it. -/
theorem atomic_add_sub_witness :
    atomic_add 2147483647 5 = wrap_int (2147483647 + 5) ∧
    atomic_sub (atomic_add 2147483647 5) 5 = 2147483647 :=
  ⟨(atomic_add_sub 2147483647 5 (by norm_num) (by norm_num)).1,
   (atomic_add_sub 2147483647 5 (by norm_num) (by norm_num)).2.2.2.2.2.2⟩

/-! ## Fetch-and-add as a ticket dispenser -/

theorem ticket_cell_eq (c : Int) (k : Nat) : ticket_cell c (k + 1) = wrap_int (c + (k + 1)) := by
  induction k with
  | zero =>
    show wrap_int (c + 1) = wrap_int (c + ((0 : Nat) + 1))
    norm_num
  | succ n ih =>
    show wrap_int (ticket_cell c (n + 1) + 1) = _
    rw [ih, wrap_int_eq_iff]
    have := wrap_int_spec (c + (n + 1))
    push_cast
    omega

/-- The value returned by call number `k`: `c + k`, reduced. -/
theorem ticket_eq (c : Int) (k : Nat) (h1 : -2 ^ 31 ≤ c) (h2 : c < 2 ^ 31) :
    ticket c k = wrap_int (c + k) := by
  cases k with
  | zero =>
    show c = wrap_int (c + ((0 : Nat) : Int))
    rw [Nat.cast_zero, Int.add_zero, wrap_int_of_range h1 h2]
  | succ n =>
    show ticket_cell c (n + 1) = _
    rw [ticket_cell_eq]
    push_cast
    rfl

/-- C16 as stated fails on the code: on a cell that starts at 0, call number
`2 ^ 32` returns 0, the value call number 0 returned; and on a cell that starts
at `INT_MAX` the second call returns `INT_MIN`, not `INT_MAX + 1`. -/
theorem ticket_returned_twice :
    ticket 0 4294967296 = ticket 0 0 ∧ ticket 2147483647 1 = -2147483648 := by
  constructor
  · rw [ticket_eq 0 4294967296 (by norm_num) (by norm_num),
      ticket_eq 0 0 (by norm_num) (by norm_num), wrap_int_eq_iff]
    norm_num
  · rw [ticket_eq 2147483647 1 (by norm_num) (by norm_num)]
    unfold wrap_int
    norm_num

/-- C16, amended: `atomic_add_ret_prev(&cell, d)` returns `c` and leaves `c + d`
reduced modulo `2 ^ 32` to a two's-complement `int`; consecutive calls with delta
1 return `c`, `c + 1`, `c + 2`, ... each reduced in the same way; two calls less
than `2 ^ 32` calls apart return different values, and the call `2 ^ 32` calls
later returns the same value again. -/
theorem atomic_add_ret_prev_tickets (c d : Int) (i j : Nat)
    (h1 : -2 ^ 31 ≤ c) (h2 : c < 2 ^ 31) (hij : i < j) (hw : j - i < 2 ^ 32) :
    (atomic_add_ret_prev c d).1 = c ∧
    (atomic_add_ret_prev c d).2 = wrap_int (c + d) ∧
    (-2 ^ 31 ≤ (atomic_add_ret_prev c d).2 ∧ (atomic_add_ret_prev c d).2 < 2 ^ 31 ∧
      ((atomic_add_ret_prev c d).2 - (c + d)) % 2 ^ 32 = 0) ∧
    ticket c i = wrap_int (c + i) ∧
    ticket c i ≠ ticket c j ∧
    ticket c (i + 2 ^ 32) = ticket c i := by
  refine ⟨rfl, rfl, wrap_int_spec _, ticket_eq c i h1 h2, ?_, ?_⟩
  · rw [ticket_eq c i h1 h2, ticket_eq c j h1 h2, Ne, wrap_int_eq_iff]
    have hw' : ((j : Int) - i) < 2 ^ 32 := by
      have : ((j - i : Nat) : Int) < 2 ^ 32 := by exact_mod_cast hw
      rw [Nat.cast_sub (le_of_lt hij)] at this
      exact this
    have hij' : (i : Int) < j := by exact_mod_cast hij
    norm_num at hw' ⊢
    omega
  · rw [ticket_eq c i h1 h2, ticket_eq c (i + 2 ^ 32) h1 h2, wrap_int_eq_iff]
    push_cast
    norm_num

/-- C16, amended, at a concrete input: the first two tickets of a cell that
starts at `INT_MAX`. -/
theorem atomic_add_ret_prev_tickets_witness :
    (atomic_add_ret_prev 2147483647 (-3)).1 = 2147483647 ∧
    ticket 2147483647 0 ≠ ticket 2147483647 1 :=
  ⟨(atomic_add_ret_prev_tickets 2147483647 (-3) 0 1 (by norm_num) (by norm_num)
      (by norm_num) (by norm_num)).1,
   (atomic_add_ret_prev_tickets 2147483647 (-3) 0 1 (by norm_num) (by norm_num)
      (by norm_num) (by norm_num)).2.2.2.2.1⟩

/-! ## The value `compare_and_swap` returns, as the callers test it -/

/-- C19, evaluated on the code: with the stale pattern `0x100` in the bytes of
`ret` that `setz` does not write, a `compare_and_swap` on a cell that holds 0 with
1 expected fails and returns 256, not 0; so does `compare_and_swap_ptr`; and
`spinlock_lock` on a held lock (`value = 0`) finds its loop condition `== 0`
false after that failed attempt and returns, the lock still held by another. -/
theorem compare_and_swap_failure_not_zero :
    (compare_and_swap 256 0 1 0).ret = 256 ∧
    (compare_and_swap 256 0 1 0).cell = 0 ∧
    (compare_and_swap_ptr 256 0 1 0).ret = 256 ∧
    (compare_and_swap_ptr 256 0 1 0).cell = 0 ∧
    spinlock_lock 1 (fun _ => 256) { value := 0 } = some { value := 0 } := by
  refine ⟨by decide, by decide, by decide, by decide, by decide⟩

/-- A failed `compare_and_swap_ptr` whose local `ret` held nothing beyond its low
byte returns 0 and leaves the cell alone. -/
theorem compare_and_swap_ptr_miss_clean (ret0 c e n : Nat) (hr : wrap64 ret0 < 256)
    (hne : wrap64 e ≠ wrap64 c) :
    compare_and_swap_ptr ret0 c e n = { ret := 0, cell := c } := by
  have h0 : wrap64 ret0 / 256 = 0 := Nat.div_eq_of_lt hr
  simp only [compare_and_swap_ptr, setz, h0, hne, decide_False, Bool.false_eq_true, if_false]
  rfl

/-- A successful `compare_and_swap_ptr` whose local `ret` held nothing beyond its
low byte returns 1 and stores the new value. -/
theorem compare_and_swap_ptr_hit_clean (ret0 c e n : Nat) (hr : wrap64 ret0 < 256)
    (he : wrap64 e = wrap64 c) :
    compare_and_swap_ptr ret0 c e n = { ret := 1, cell := wrap64 n } := by
  have h0 : wrap64 ret0 / 256 = 0 := Nat.div_eq_of_lt hr
  simp only [compare_and_swap_ptr, setz, h0, he, decide_True, if_true]
  rfl

/-- The claim C19 when the bytes of `ret` that `setz` does not write are zero:
`compare_and_swap` returns 1, a non-zero value, exactly when the cell held the
expected value and 0 exactly when it did not; the same for
`compare_and_swap_ptr`; and the loop condition of `spinlock_lock` is true exactly
when the lock was not available. -/
theorem compare_and_swap_flag_clean (ret0 c e n ret1 c1 e1 n1 : Nat)
    (hr : wrap32 ret0 < 256) (hc : c < 2 ^ 32) (he : e < 2 ^ 32)
    (hr1 : wrap64 ret1 < 256) (hc1 : c1 < 2 ^ 64) (he1 : e1 < 2 ^ 64) :
    (compare_and_swap ret0 c e n).ret = (if c = e then 1 else 0) ∧
    ((compare_and_swap ret0 c e n).ret ≠ 0 ↔ c = e) ∧
    ((compare_and_swap ret0 c e n).ret = 0 ↔ c ≠ e) ∧
    (compare_and_swap_ptr ret1 c1 e1 n1).ret = (if c1 = e1 then 1 else 0) ∧
    ((compare_and_swap_ptr ret1 c1 e1 n1).ret ≠ 0 ↔ c1 = e1) ∧
    ((compare_and_swap_ptr ret1 c1 e1 n1).ret = 0 ↔ c1 ≠ e1) ∧
    ((compare_and_swap ret0 c 1 0).ret = 0 ↔ c ≠ 1) := by
  have key : ∀ x, x < 2 ^ 32 →
      (compare_and_swap ret0 c x n).ret = (if c = x then 1 else 0) := by
    intro x hx
    by_cases h : c = x
    · rw [compare_and_swap_hit_clean ret0 c x n hr (by rw [h]), if_pos h]
    · rw [compare_and_swap_miss_clean ret0 c x n hr
        (by rw [wrap32_of_lt hx, wrap32_of_lt hc]; exact fun h2 => h h2.symm), if_neg h]
  have key0 : (compare_and_swap ret0 c 1 0).ret = (if c = 1 then 1 else 0) := by
    by_cases h : c = 1
    · rw [compare_and_swap_hit_clean ret0 c 1 0 hr (by rw [h]), if_pos h]
    · rw [compare_and_swap_miss_clean ret0 c 1 0 hr
        (by rw [wrap32_of_lt (show (1 : Nat) < 2 ^ 32 by norm_num), wrap32_of_lt hc]
            exact fun h2 => h h2.symm), if_neg h]
  have key1 : (compare_and_swap_ptr ret1 c1 e1 n1).ret = (if c1 = e1 then 1 else 0) := by
    by_cases h : c1 = e1
    · rw [compare_and_swap_ptr_hit_clean ret1 c1 e1 n1 hr1 (by rw [h]), if_pos h]
    · rw [compare_and_swap_ptr_miss_clean ret1 c1 e1 n1 hr1
        (by rw [wrap64_of_lt he1, wrap64_of_lt hc1]; exact fun h2 => h h2.symm), if_neg h]
  refine ⟨key e he, ?_, ?_, key1, ?_, ?_, ?_⟩
  · rw [key e he]; by_cases h : c = e <;> simp [h]
  · rw [key e he]; by_cases h : c = e <;> simp [h]
  · rw [key1]; by_cases h : c1 = e1 <;> simp [h]
  · rw [key1]; by_cases h : c1 = e1 <;> simp [h]
  · rw [key0]; by_cases h : c = 1 <;> simp [h]

/-- The clean-bytes form of C19 at a concrete input. -/
theorem compare_and_swap_flag_clean_witness :
    (compare_and_swap 0 5 5 7).ret = (if 5 = 5 then 1 else 0) ∧
    (compare_and_swap_ptr 0 5 6 7).ret = (if 5 = 6 then 1 else 0) :=
  ⟨(compare_and_swap_flag_clean 0 5 5 7 0 5 6 7 (by decide) (by norm_num) (by norm_num)
      (by decide) (by norm_num) (by norm_num)).1,
   (compare_and_swap_flag_clean 0 5 5 7 0 5 6 7 (by decide) (by norm_num) (by norm_num)
      (by decide) (by norm_num) (by norm_num)).2.2.2.1⟩

/-! ## Write lock, one thread -/

/-- C15, evaluated on the code: a writer holds the lock (`rw_lock = 2`); a call of
`rw_write_lock` whose `compare_and_swap` finds the stale pattern `0x100` in `ret`
fails to swap, gets 256 instead of 0, finds the loop condition `== 0` false and
returns after that single attempt, with `rw_lock` still 2. -/
theorem rw_write_lock_returns_while_held :
    rw_write_lock 1 (fun _ => 256) { readers := 0, disallow_sub_readers := 0, rw_lock := 2 }
      = some { readers := 0, disallow_sub_readers := 0, rw_lock := 2 } := by
  decide

/-- One call of `rw_write_lock` on an idle lock: a single `compare_and_swap` takes
it, whatever `ret` held. -/
theorem rw_write_lock_idle (fuel : Nat) (stale : Nat → Nat) (r d : Int) :
    rw_write_lock (fuel + 1) stale { readers := r, disallow_sub_readers := d, rw_lock := 0 }
      = some { readers := r, disallow_sub_readers := d, rw_lock := 2 } := by
  have h := compare_and_swap_hit (stale 0) 0 0 2 rfl
  have w : wrap32 2 = 2 := by decide
  rw [rw_write_lock]
  simp only [h.1, if_false, h.2, w]

/-- One failed attempt of `rw_write_lock` with clean bytes in `ret`: the loop goes
round with `rw_lock` and `readers` as they were and `disallow_sub_readers` set to
1 exactly when `readers > 0`. -/
theorem rw_write_lock_attempt_clean (fuel : Nat) (stale : Nat → Nat) (r d : Int) (rw : Nat)
    (hs : wrap32 (stale 0) < 256) (h0 : rw ≠ 0) (h1 : rw < 2 ^ 32) :
    rw_write_lock (fuel + 1) stale { readers := r, disallow_sub_readers := d, rw_lock := rw }
      = rw_write_lock fuel (fun i => stale (i + 1))
          { readers := r, disallow_sub_readers := if r > 0 then 1 else d, rw_lock := rw } := by
  have hm := compare_and_swap_miss_clean (stale 0) rw 0 2 hs
    (by rw [wrap32_of_lt h1]; exact fun h => h0 h.symm)
  rw [rw_write_lock]
  simp only [hm, if_true]
  by_cases hr : r > 0
  · simp only [hr, if_true]
  · simp only [hr, if_false]

/-- With clean bytes in `ret`, `rw_write_lock` does not return while `rw_lock` is
not zero. -/
theorem rw_write_lock_spins_clean (fuel : Nat) :
    ∀ (stale : Nat → Nat) (r d : Int) (rw : Nat), (∀ i, wrap32 (stale i) < 256) → rw ≠ 0 →
      rw < 2 ^ 32 →
      rw_write_lock fuel stale { readers := r, disallow_sub_readers := d, rw_lock := rw }
        = none := by
  induction fuel with
  | zero => intro stale r d rw _ _ _; rfl
  | succ k ih =>
    intro stale r d rw hs h0 h1
    rw [rw_write_lock_attempt_clean k stale r d rw (hs 0) h0 h1]
    exact ih _ _ _ _ (fun i => hs (i + 1)) h0 h1

/-- The claim C15 when the bytes of `ret` that `setz` does not write are zero at
every call: `rw_write_lock` on `rw_lock = 0` returns after one `compare_and_swap`
leaving `rw_lock = 2`, `readers` and `disallow_sub_readers` as they were; on
`rw_lock != 0` a failed attempt leaves `rw_lock` and `readers` as they were and
sets `disallow_sub_readers` to 1 exactly when `readers > 0`, and the call has not
returned after any number of attempts; `rw_write_unlock` on `rw_lock = 2` leaves
`rw_lock = 0`, `disallow_sub_readers = 0` and `readers` as it was; and init, write
lock, write unlock ends in the state of init. -/
theorem rw_write_lock_clean (fuel : Nat) (stale : Nat → Nat) (ret0 : Nat) (r d : Int)
    (rw : Nat) (lock0 : read_write_lock)
    (hs : ∀ i, wrap32 (stale i) < 256) (h0 : rw ≠ 0) (h1 : rw < 2 ^ 32) :
    rw_write_lock 1 stale { readers := r, disallow_sub_readers := d, rw_lock := 0 }
      = some { readers := r, disallow_sub_readers := d, rw_lock := 2 } ∧
    rw_write_lock (fuel + 1) stale { readers := r, disallow_sub_readers := d, rw_lock := rw }
      = rw_write_lock fuel (fun i => stale (i + 1))
          { readers := r, disallow_sub_readers := if r > 0 then 1 else d, rw_lock := rw } ∧
    rw_write_lock fuel stale { readers := r, disallow_sub_readers := d, rw_lock := rw }
      = none ∧
    rw_write_unlock ret0 { readers := r, disallow_sub_readers := d, rw_lock := 2 }
      = { readers := r, disallow_sub_readers := 0, rw_lock := 0 } ∧
    (rw_write_lock 1 stale (rw_lock_init lock0)).map (rw_write_unlock ret0)
      = some (rw_lock_init lock0) := by
  have hu : ∀ r1 d1 : Int,
      rw_write_unlock ret0 { readers := r1, disallow_sub_readers := d1, rw_lock := 2 }
        = { readers := r1, disallow_sub_readers := 0, rw_lock := 0 } := by
    intro r1 d1
    have h := compare_and_swap_hit ret0 2 2 0 rfl
    unfold rw_write_unlock
    simp only [h.2]
    rfl
  refine ⟨rw_write_lock_idle 0 stale r d, rw_write_lock_attempt_clean fuel stale r d rw (hs 0) h0 h1,
    rw_write_lock_spins_clean fuel stale r d rw hs h0 h1, hu r d, ?_⟩
  show (rw_write_lock 1 stale { readers := 0, disallow_sub_readers := 0, rw_lock := 0 }).map
    (rw_write_unlock ret0) = some { readers := 0, disallow_sub_readers := 0, rw_lock := 0 }
  rw [rw_write_lock_idle 0 stale 0 0, Option.map_some', hu]

/-- The clean-bytes form of C15 at a concrete input: a second writer while a
reader is inside. -/
theorem rw_write_lock_clean_witness :
    rw_write_lock 3 stale_zero { readers := 1, disallow_sub_readers := 0, rw_lock := 1 }
      = none :=
  (rw_write_lock_clean 3 stale_zero 0 1 0 1
    { readers := 0, disallow_sub_readers := 0, rw_lock := 0 }
    (fun _ => show wrap32 0 < 256 by decide) (by decide) (by norm_num)).2.2.1

/-! ## Lock-free queue: the structural invariant under calls by one thread -/

theorem linked_end_mem (heap : Nat → node) (l : List Nat) :
    ∀ a t, linked heap a l t → t ∈ a :: l := by
  induction l with
  | nil =>
    intro a t h
    have h1 : a = t := h
    rw [h1]
    exact List.mem_cons_self _ _
  | cons b rest ih =>
    intro a t h
    obtain ⟨_, _, h3⟩ := h
    exact List.mem_cons_of_mem _ (ih b t h3)

theorem linked_end_ne_zero (heap : Nat → node) (l : List Nat) :
    ∀ a t, a ≠ 0 → linked heap a l t → t ≠ 0 := by
  induction l with
  | nil =>
    intro a t ha h
    have h1 : a = t := h
    rw [← h1]
    exact ha
  | cons b rest ih =>
    intro a t _ h
    obtain ⟨_, h2, h3⟩ := h
    exact ih b t h2 h3

/-- Linking a new node `q` after the last node `t` extends the chain by `q`. -/
theorem linked_snoc (heap : Nat → node) (q t : Nat) (nq nt : node) (hq : q ≠ 0)
    (hnt : nt.next = q) (ht : (heap t).next = 0) (l : List Nat) :
    ∀ a, linked heap a l t → (∀ x, x ∈ a :: l → x ≠ q) →
      linked (Function.update (Function.update heap q nq) t nt) a (l ++ [q]) q := by
  induction l with
  | nil =>
    intro a h _
    have h1 : a = t := h
    subst h1
    show (Function.update (Function.update heap q nq) a nt a).next = q ∧ q ≠ 0 ∧ q = q
    rw [Function.update_same]
    exact ⟨hnt, hq, rfl⟩
  | cons b rest ih =>
    intro a h hne
    obtain ⟨h1, h2, h3⟩ := h
    have hat : a ≠ t := by
      intro e
      rw [e, ht] at h1
      exact h2 h1.symm
    have haq : a ≠ q := hne a (List.mem_cons_self _ _)
    show (Function.update (Function.update heap q nq) t nt a).next = b ∧ b ≠ 0 ∧
      linked (Function.update (Function.update heap q nq) t nt) b (rest ++ [q]) q
    rw [Function.update_noteq hat, Function.update_noteq haq]
    exact ⟨h1, h2, ih b h3 (fun x hx => hne x (List.mem_cons_of_mem _ hx))⟩

theorem queue_seq_wf (m : memory) (l : List Nat) (h : queue_seq m l) : queue_wf m :=
  ⟨h.1, linked_end_ne_zero m.heap l _ _ h.1 h.2.1,
    l, [], m.queue.tail, h.2.1, rfl, h.2.2.1⟩

theorem lf_queue_init_seq (m0 : memory) (h1 : 1 ≤ m0.brk) : queue_seq (lf_queue_init m0) [] := by
  refine ⟨?_, rfl, ?_, ?_⟩
  · show m0.brk ≠ 0
    omega
  · show (Function.update m0.heap m0.brk _ m0.brk).next = 0
    rw [Function.update_same]
  · intro a ha
    rw [List.mem_singleton] at ha
    rw [ha]
    show m0.brk < m0.brk + 1
    omega

theorem lf_enqueue_zero (stale : Nat → Nat) (m : memory) (val : Int) :
    lf_enqueue 0 stale m val = none := rfl

/-- An enqueue by one thread keeps the shape and makes the chain one node
longer. -/
theorem lf_enqueue_seq (fuel : Nat) (stale : Nat → Nat) (m : memory) (val : Int)
    (l : List Nat) (h : queue_seq m l) (hb : m.brk < 2 ^ 64) :
    ∃ m1, lf_enqueue (fuel + 1) stale m val = some m1 ∧ queue_seq m1 (l ++ [m.brk]) ∧
      m1.brk = m.brk + 1 := by
  obtain ⟨h1, h2, h3, h4⟩ := h
  have htail : m.queue.tail < m.brk := h4 _ (linked_end_mem m.heap l _ _ h2)
  have hne : m.queue.tail ≠ m.brk := by omega
  have hq0 : m.brk ≠ 0 := by omega
  rw [lf_enqueue_at_last fuel stale m val h3 hne, wrap64_of_lt hb]
  refine ⟨_, rfl, ⟨h1, ?_, ?_, ?_⟩, rfl⟩
  · exact linked_snoc m.heap m.brk m.queue.tail _ _ hq0 rfl h3 l m.queue.head h2
      (fun x hx => by have := h4 x hx; omega)
  · show (Function.update (Function.update m.heap m.brk _) m.queue.tail _ m.brk).next = 0
    rw [Function.update_noteq (fun e => hne e.symm), Function.update_same]
  · intro a ha
    show a < m.brk + 1
    rw [← List.cons_append, List.mem_append, List.mem_singleton] at ha
    rcases ha with ha | ha
    · have := h4 a ha
      omega
    · omega

/-- A dequeue by one thread on a chain of `l.length + 1` nodes returns 0 once the
fuel exceeds `l.length`, with `head` moved to `tail`, and has not returned with
less fuel. -/
theorem lf_dequeue_seq (l : List Nat) :
    ∀ (fuel : Nat) (stale : Nat → Nat) (m : memory) (val : Int), queue_seq m l →
      m.brk ≤ 2 ^ 64 →
      lf_dequeue fuel stale m val
        = if l.length < fuel then
            some (0, { heap := m.heap, brk := m.brk,
                       queue := { head := m.queue.tail, tail := m.queue.tail } }, val)
          else none := by
  induction l with
  | nil =>
    intro fuel stale m val h _
    obtain ⟨_, h2, h3, _⟩ := h
    have h2' : m.queue.head = m.queue.tail := h2
    cases fuel with
    | zero => rfl
    | succ k =>
      rw [if_pos (by simp)]
      rw [lf_dequeue]
      rw [h2', if_pos h3]
      obtain ⟨heap, brk, ⟨hd, tl⟩⟩ := m
      simp only at h2'
      subst h2'
      rfl
  | cons b rest ih =>
    intro fuel stale m val h hb
    obtain ⟨h1, h2, h3, h4⟩ := h
    obtain ⟨e1, e2, e3⟩ := h2
    cases fuel with
    | zero => rfl
    | succ k =>
      have hbb : b < 2 ^ 64 := by
        have := h4 b (List.mem_cons_of_mem _ (List.mem_cons_self _ _))
        omega
      rw [lf_dequeue_step k stale m val (by rw [e1]; exact e2), e1, wrap64_of_lt hbb]
      rw [ih k _ { heap := m.heap, brk := m.brk, queue := { head := b, tail := m.queue.tail } }
        val ⟨e2, e3, h3, fun a ha => h4 a (List.mem_cons_of_mem _ ha)⟩ hb]
      by_cases hk : rest.length < k
      · rw [if_pos hk, if_pos (by simp; omega)]
      · rw [if_neg hk, if_neg (by simp; omega)]

/-- Every sequence of calls by one thread keeps the shape, and returns when the
fuel exceeds the length of the chain plus the number of calls. -/
theorem lf_calls_seq (fuel : Nat) (calls : List queue_call) :
    ∀ (m : memory) (l : List Nat), queue_seq m l → m.brk + calls.length ≤ 2 ^ 64 →
      (∀ m1, lf_calls fuel m calls = some m1 → ∃ l1, queue_seq m1 l1) ∧
      (l.length + calls.length < fuel → ∃ m1, lf_calls fuel m calls = some m1) := by
  induction calls with
  | nil =>
    intro m l h _
    refine ⟨fun m1 h1 => ?_, fun _ => ⟨m, rfl⟩⟩
    have : m = m1 := Option.some.inj h1
    rw [← this]
    exact ⟨l, h⟩
  | cons c cs ih =>
    intro m l h hb
    rw [List.length_cons] at hb
    cases c with
    | enqueue val stale =>
      cases fuel with
      | zero =>
        refine ⟨fun m1 h1 => ?_, fun hf => by omega⟩
        have : lf_calls 0 m (queue_call.enqueue val stale :: cs) = none := rfl
        rw [this] at h1
        cases h1
      | succ k =>
        obtain ⟨m1, e1, s1, b1⟩ := lf_enqueue_seq k stale m val l h (by omega)
        have hrun : lf_calls (k + 1) m (queue_call.enqueue val stale :: cs)
            = lf_calls (k + 1) m1 cs := by
          show (lf_enqueue (k + 1) stale m val).bind _ = _
          rw [e1, Option.some_bind]
        have ih1 := ih m1 (l ++ [m.brk]) s1 (by rw [b1]; omega)
        refine ⟨fun m2 h2 => ih1.1 m2 (by rw [← hrun]; exact h2), fun hf => ?_⟩
        rw [hrun]
        apply ih1.2
        rw [List.length_append, List.length_singleton]
        rw [List.length_cons] at hf
        omega
    | dequeue val stale =>
      have hd := lf_dequeue_seq l fuel stale m val h (by omega)
      have s1 : queue_seq
          { heap := m.heap, brk := m.brk,
            queue := { head := m.queue.tail, tail := m.queue.tail } } [] := by
        refine ⟨linked_end_ne_zero m.heap l _ _ h.1 h.2.1, rfl, h.2.2.1, ?_⟩
        intro a ha
        rw [List.mem_singleton] at ha
        rw [ha]
        exact h.2.2.2 _ (linked_end_mem m.heap l _ _ h.2.1)
      by_cases hl : l.length < fuel
      · rw [if_pos hl] at hd
        have hrun : lf_calls fuel m (queue_call.dequeue val stale :: cs)
            = lf_calls fuel
                { heap := m.heap, brk := m.brk,
                  queue := { head := m.queue.tail, tail := m.queue.tail } } cs := by
          show ((lf_dequeue fuel stale m val).map fun r => r.2.1).bind _ = _
          rw [hd, Option.map_some', Option.some_bind]
        have ih1 := ih _ [] s1 (by show m.brk + cs.length ≤ 2 ^ 64; omega)
        refine ⟨fun m2 h2 => ih1.1 m2 (by rw [← hrun]; exact h2), fun hf => ?_⟩
        rw [hrun]
        apply ih1.2
        rw [List.length_cons] at hf
        rw [List.length_nil]
        omega
      · refine ⟨fun m1 h1 => ?_, fun hf => by rw [List.length_cons] at hf; omega⟩
        rw [if_neg hl] at hd
        have : lf_calls fuel m (queue_call.dequeue val stale :: cs) = none := by
          show ((lf_dequeue fuel stale m val).map fun r => r.2.1).bind _ = _
          rw [hd]
          rfl
        rw [this] at h1
        cases h1

/-- The structural invariant of the queue under calls made one after the other
by one thread: `lf_queue_init` leaves `head = tail`, a node that is not `NULL` and
has `next = NULL`, and after any sequence of `lf_enqueue` and `lf_dequeue` calls,
each made after the previous one has returned (whatever the stale bytes of `ret`
in each call), `head` and `tail` are not `NULL`, the chain of `next` pointers from
`head` is finite and ends in a node with `next = NULL`, and that node is reached
from `tail` (it is `tail`). The calls do return when the fuel exceeds their
number. `malloc` is taken to hand out addresses that fit a pointer. -/
theorem lf_queue_structure_sequential (m0 : memory) (calls : List queue_call) (fuel : Nat)
    (h1 : 1 ≤ m0.brk) (h2 : m0.brk + calls.length < 2 ^ 64) :
    (lf_queue_init m0).queue.head = (lf_queue_init m0).queue.tail ∧
    (lf_queue_init m0).queue.head ≠ 0 ∧
    ((lf_queue_init m0).heap (lf_queue_init m0).queue.head).next = 0 ∧
    queue_wf (lf_queue_init m0) ∧
    (∀ m, lf_calls fuel (lf_queue_init m0) calls = some m → queue_wf m) ∧
    (calls.length < fuel → ∃ m, lf_calls fuel (lf_queue_init m0) calls = some m) := by
  have s0 := lf_queue_init_seq m0 h1
  have hrun := lf_calls_seq fuel calls (lf_queue_init m0) [] s0
    (by show m0.brk + 1 + calls.length ≤ 2 ^ 64; omega)
  refine ⟨rfl, s0.1, s0.2.2.1, queue_seq_wf _ _ s0, ?_, ?_⟩
  · intro m hm
    obtain ⟨l1, hl1⟩ := hrun.1 m hm
    exact queue_seq_wf _ _ hl1
  · intro hf
    exact hrun.2 (by rw [List.length_nil]; omega)

/-- The invariant under calls by one thread at a concrete input: two enqueues, a
dequeue and an enqueue on a fresh queue return within five units of fuel. -/
theorem lf_queue_structure_sequential_witness :
    ∃ m, lf_calls 5 (lf_queue_init memory_start)
      [queue_call.enqueue 1 stale_zero, queue_call.enqueue 2 stale_zero,
       queue_call.dequeue 0 stale_zero, queue_call.enqueue 3 stale_zero] = some m :=
  (lf_queue_structure_sequential memory_start
    [queue_call.enqueue 1 stale_zero, queue_call.enqueue 2 stale_zero,
     queue_call.dequeue 0 stale_zero, queue_call.enqueue 3 stale_zero] 5
    (by decide) (by decide)).2.2.2.2.2 (by decide)

/-! ## Barrier: the counter invariant and the log of the rounds -/

theorem barrier_run_snoc (p : List Nat) (t : Nat) :
    ∀ s, barrier_run s (p ++ [t]) = barrier_sys_step (barrier_run s p) t := by
  induction p with
  | nil => intro s; rfl
  | cons a rest ih => intro s; exact ih (barrier_sys_step s a)

theorem barrier_log_snoc (p : List Nat) (t : Nat) :
    ∀ s, barrier_log s (p ++ [t]) = barrier_log s p ++ barrier_event_of (barrier_run s p) t := by
  induction p with
  | nil =>
    intro s
    show barrier_event_of s t ++ [] = [] ++ barrier_event_of s t
    rw [List.append_nil, List.nil_append]
  | cons a rest ih =>
    intro s
    show barrier_event_of s a ++ barrier_log (barrier_sys_step s a) (rest ++ [t]) = _
    rw [ih (barrier_sys_step s a), ← List.append_assoc]
    rfl

theorem rounds_log_snoc (ts : List Nat) (t : Nat) :
    ∀ k, rounds_log k (ts ++ [t]) = rounds_log k ts ++ round_events t (k + ts.length + 1) := by
  induction ts with
  | nil =>
    intro k
    show round_events t (k + 1) ++ [] = [] ++ round_events t (k + 0 + 1)
    rw [List.append_nil, List.nil_append, Nat.add_zero]
  | cons a rest ih =>
    intro k
    show round_events a (k + 1) ++ rounds_log (k + 1) (rest ++ [t]) = _
    rw [ih (k + 1), ← List.append_assoc, List.length_cons]
    have : k + 1 + rest.length + 1 = k + (rest.length + 1) + 1 := by omega
    rw [this]
    rfl

theorem barrier_event_of_arrive (s : barrier_sys) (t : Nat)
    (h : (s.threads t).pc = barrier_pc.arrive) :
    barrier_event_of s t
      = if wrap_int (s.bar.cur_runners + 1) = s.bar.total_runners then
          [barrier_event.full t ((s.threads t).arrived + 1)]
        else [] := by
  unfold barrier_event_of
  rw [h]

theorem barrier_event_of_reset (s : barrier_sys) (t : Nat)
    (h : (s.threads t).pc = barrier_pc.reset) :
    barrier_event_of s t = [barrier_event.reset t (s.threads t).arrived] := by
  unfold barrier_event_of
  rw [h]

theorem barrier_event_of_publish (s : barrier_sys) (t : Nat)
    (h : (s.threads t).pc = barrier_pc.publish) :
    barrier_event_of s t = [barrier_event.toggle t (s.threads t).arrived] := by
  unfold barrier_event_of
  rw [h]

theorem barrier_event_of_entry (s : barrier_sys) (t : Nat)
    (h : (s.threads t).pc = barrier_pc.entry) : barrier_event_of s t = [] := by
  unfold barrier_event_of
  rw [h]

theorem barrier_event_of_spin (s : barrier_sys) (t : Nat)
    (h : (s.threads t).pc = barrier_pc.spin) : barrier_event_of s t = [] := by
  unfold barrier_event_of
  rw [h]

/-- A step of a thread that is no last arrival before it and none after it keeps
the shape of the log. -/
theorem log_shape_frame (N r : Nat) (s s1 : barrier_sys) (t : Nat) (log : List barrier_event)
    (hoth : ∀ u, u ≠ t → s1.threads u = s.threads u)
    (hpc : ¬ is_last (s.threads t)) (hpc1 : ¬ is_last (s1.threads t))
    (h : log_shape N r s log) : log_shape N r s1 log := by
  obtain ⟨ts, hlen, hcase⟩ := h
  refine ⟨ts, hlen, ?_⟩
  rcases hcase with ⟨hno, hlog⟩ | ⟨t1, ht1, hp, hlog⟩ | ⟨t1, ht1, hp, hlog⟩
  · left
    refine ⟨fun u hu => ?_, hlog⟩
    by_cases hut : u = t
    · rw [hut]; exact hpc1
    · rw [hoth u hut]; exact hno u hu
  · right; left
    have hne : t1 ≠ t := fun e => hpc (by rw [← e]; exact Or.inl hp)
    exact ⟨t1, ht1, by rw [hoth t1 hne]; exact hp, hlog⟩
  · right; right
    have hne : t1 ≠ t := fun e => hpc (by rw [← e]; exact Or.inr hp)
    exact ⟨t1, ht1, by rw [hoth t1 hne]; exact hp, hlog⟩

/-- Every step of a thread below `N` keeps the invariant and the shape of the
log, the event of the step being added to the log. -/
theorem log_shape_step (N r : Nat) (s : barrier_sys) (t : Nat) (log : List barrier_event)
    (hN : N < 2 ^ 31) (inv : barrier_inv N r s) (hl : log_shape N r s log) (ht : t < N) :
    ∃ r1, barrier_inv N r1 (barrier_sys_step s t) ∧
      log_shape N r1 (barrier_sys_step s t) (log ++ barrier_event_of s t) := by
  have hoth : ∀ u, u ≠ t → (barrier_sys_step s t).threads u = s.threads u :=
    fun u hu => barrier_sys_step_other s t u hu
  have hok := inv.ok t ht
  rcases hth : s.threads t with ⟨pc, ls, ret, arr⟩
  rw [hth] at hok
  cases pc with
  | entry =>
    have hself : (barrier_sys_step s t).threads t
        = { pc := barrier_pc.arrive, sense := wrap_int (1 - s.bar.sense),
            returned := ret, arrived := arr } := by
      rw [barrier_sys_step_self, hth, barrier_wait_step_entry]
    refine ⟨r, barrier_inv_step_entry N r s t ls ret arr inv ht hth, ?_⟩
    rw [barrier_event_of_entry s t (by rw [hth]), List.append_nil]
    apply log_shape_frame N r s _ t log hoth _ _ hl
    · rw [hth]; intro h; rcases h with h | h <;> cases h
    · rw [hself]; intro h; rcases h with h | h <;> cases h
  | spin =>
    refine ⟨r, barrier_inv_step_spin N r s t ls ret arr inv ht hth, ?_⟩
    rw [barrier_event_of_spin s t (by rw [hth]), List.append_nil]
    apply log_shape_frame N r s _ t log hoth _ _ hl
    · rw [hth]; intro h; rcases h with h | h <;> cases h
    · by_cases hgo : ls = s.bar.sense
      · rw [barrier_sys_step_self, hth, barrier_wait_step_spin_go _ _ _ _ hgo]
        intro h; rcases h with h | h <;> cases h
      · rw [barrier_sys_step_self, hth, barrier_wait_step_spin_wait _ _ _ _ hgo]
        intro h; rcases h with h | h <;> cases h
  | arrive =>
    obtain ⟨_, ha, _⟩ := hok.2.1 rfl
    dsimp only at ha
    have hnot : arrived_count N r s ≠ N := by
      intro h
      have := arrived_count_all N r s h t ht
      rw [hth] at this
      dsimp only at this
      omega
    have hnl : ∀ u, u < N → ¬ is_last (s.threads u) :=
      fun u hu hlu => hnot (inv.last u hu hlu).1
    have hself : (barrier_sys_step s t).threads t
        = { pc := if wrap_int (s.bar.cur_runners + 1) = s.bar.total_runners then
                    barrier_pc.reset else barrier_pc.spin,
            sense := ls, returned := ret, arrived := arr + 1 } := by
      rw [barrier_sys_step_self, hth, barrier_wait_step_arrive]
    refine ⟨r, barrier_inv_step_arrive N r s t ls ret arr hN inv ht hth, ?_⟩
    obtain ⟨ts, hlen, hcase⟩ := hl
    have hlog : log = rounds_log 0 ts := by
      rcases hcase with ⟨_, h⟩ | ⟨t1, ht1, hp, _⟩ | ⟨t1, ht1, hp, _⟩
      · exact h
      · exact absurd (Or.inl hp) (hnl t1 ht1)
      · exact absurd (Or.inr hp) (hnl t1 ht1)
    rw [barrier_event_of_arrive s t (by rw [hth]), hth]
    refine ⟨ts, hlen, ?_⟩
    by_cases hc : wrap_int (s.bar.cur_runners + 1) = s.bar.total_runners
    · right; left
      rw [if_pos hc]
      refine ⟨t, ht, by rw [hself, if_pos hc], ?_⟩
      rw [hlog, ha]
    · left
      rw [if_neg hc, List.append_nil]
      refine ⟨fun u hu => ?_, hlog⟩
      by_cases hut : u = t
      · rw [hut, hself, if_neg hc]
        intro h; rcases h with h | h <;> cases h
      · rw [hoth u hut]
        exact hnl u hu
  | reset =>
    obtain ⟨_, ha, _⟩ := hok.2.2.1 rfl
    dsimp only at ha
    have hlast : is_last (s.threads t) := by rw [hth]; exact Or.inl rfl
    obtain ⟨_, huniq⟩ := inv.last t ht hlast
    have hself : (barrier_sys_step s t).threads t
        = { pc := barrier_pc.publish, sense := ls, returned := ret, arrived := arr } := by
      rw [barrier_sys_step_self, hth, barrier_wait_step_reset]
    refine ⟨r, barrier_inv_step_reset N r s t ls ret arr inv ht hth, ?_⟩
    obtain ⟨ts, hlen, hcase⟩ := hl
    rw [barrier_event_of_reset s t (by rw [hth]), hth]
    refine ⟨ts, hlen, Or.inr (Or.inr ⟨t, ht, by rw [hself], ?_⟩)⟩
    rcases hcase with ⟨hno, _⟩ | ⟨t1, ht1, hp, hlog⟩ | ⟨t1, ht1, hp, _⟩
    · exact absurd hlast (hno t ht)
    · have e : t1 = t := huniq t1 ht1 (Or.inl hp)
      rw [hlog, e, List.append_assoc, ha]
      rfl
    · have e : t1 = t := huniq t1 ht1 (Or.inr hp)
      rw [e, hth] at hp
      cases hp
  | publish =>
    obtain ⟨_, ha, _⟩ := hok.2.2.2.1 rfl
    dsimp only at ha
    have hlast : is_last (s.threads t) := by rw [hth]; exact Or.inr rfl
    obtain ⟨_, huniq⟩ := inv.last t ht hlast
    have hself : (barrier_sys_step s t).threads t
        = { pc := barrier_pc.entry, sense := ls, returned := ret + 1, arrived := arr } := by
      rw [barrier_sys_step_self, hth, barrier_wait_step_publish]
    refine ⟨r + 1, barrier_inv_step_publish N r s t ls ret arr inv ht hth, ?_⟩
    obtain ⟨ts, hlen, hcase⟩ := hl
    rw [barrier_event_of_publish s t (by rw [hth]), hth]
    refine ⟨ts ++ [t], by rw [List.length_append, hlen]; rfl, Or.inl ⟨fun u hu => ?_, ?_⟩⟩
    · by_cases hut : u = t
      · rw [hut, hself]
        intro h; rcases h with h | h <;> cases h
      · rw [hoth u hut]
        exact fun h => hut (huniq u hu h)
    · rcases hcase with ⟨hno, _⟩ | ⟨t1, ht1, hp, _⟩ | ⟨t1, ht1, hp, hlog⟩
      · exact absurd hlast (hno t ht)
      · have e : t1 = t := huniq t1 ht1 (Or.inl hp)
        rw [e, hth] at hp
        cases hp
      · have e : t1 = t := huniq t1 ht1 (Or.inr hp)
        rw [hlog, e, rounds_log_snoc, List.append_assoc, hlen, ha, Nat.zero_add]
        rfl

/-- After every schedule of the threads below `N` the invariant holds and the log
has its shape, for the same number of complete rounds. -/
theorem barrier_log_run (N : Nat) (hN : N < 2 ^ 31) (sched : List Nat) :
    (∀ t, t ∈ sched → t < N) →
      ∃ r, barrier_inv N r (barrier_run (barrier_start N) sched) ∧
        log_shape N r (barrier_run (barrier_start N) sched)
          (barrier_log (barrier_start N) sched) := by
  induction sched using List.reverseRecOn with
  | nil =>
    intro _
    refine ⟨0, barrier_inv_start N, [], rfl, Or.inl ⟨fun u _ h => ?_, rfl⟩⟩
    rcases h with h | h <;> cases h
  | append_singleton p t ih =>
    intro hs
    obtain ⟨r, inv, hl⟩ := ih (fun u hu => hs u (List.mem_append_left _ hu))
    rw [barrier_run_snoc, barrier_log_snoc]
    exact log_shape_step N r _ t _ hN inv hl
      (hs t (List.mem_append_right _ (List.mem_singleton_self t)))

/-- C17: `N` threads (`N` an `int`, so below `2 ^ 31`) on a barrier initialised
with `barrier_init(bar, N)`, every thread calling `barrier_wait` again and again.
In every state reached, `total_runners = N`, `0 <= cur_runners <= N` and `sense`
is 0 or 1. The events of the schedule are those of `r` complete rounds, numbered
`1, ..., r`, in each of which ONE thread is the one whose fetch-and-add yields
`cur_runners = N`, the one that resets `cur_runners` and the one that toggles
`sense`; after them comes nothing, or the fetch-and-add (and the reset) of the
one last arrival of round `r + 1`. Every thread has returned from at most `r`
calls and has arrived in at least `r`. -/
theorem barrier_counter_invariant (N : Nat) (sched : List Nat)
    (hN : N < 2 ^ 31) (hs : ∀ i, i ∈ sched → i < N) :
    (barrier_run (barrier_start N) sched).bar.total_runners = N ∧
    0 ≤ (barrier_run (barrier_start N) sched).bar.cur_runners ∧
    (barrier_run (barrier_start N) sched).bar.cur_runners ≤ N ∧
    ((barrier_run (barrier_start N) sched).bar.sense = 0 ∨
      (barrier_run (barrier_start N) sched).bar.sense = 1) ∧
    ∃ (r : Nat) (ts : List Nat), ts.length = r ∧
      (barrier_log (barrier_start N) sched = rounds_log 0 ts ∨
       (∃ t, t < N ∧ barrier_log (barrier_start N) sched
          = rounds_log 0 ts ++ [barrier_event.full t (r + 1)]) ∨
       (∃ t, t < N ∧ barrier_log (barrier_start N) sched
          = rounds_log 0 ts
            ++ [barrier_event.full t (r + 1), barrier_event.reset t (r + 1)])) ∧
      ∀ u, u < N →
        ((barrier_run (barrier_start N) sched).threads u).returned ≤ r ∧
        r ≤ ((barrier_run (barrier_start N) sched).threads u).arrived := by
  obtain ⟨r, inv, ts, hlen, hcase⟩ := barrier_log_run N hN sched hs
  have hcur : 0 ≤ (barrier_run (barrier_start N) sched).bar.cur_runners ∧
      (barrier_run (barrier_start N) sched).bar.cur_runners ≤ N := by
    by_cases hp : ∃ t, t < N ∧
        ((barrier_run (barrier_start N) sched).threads t).pc = barrier_pc.publish
    · obtain ⟨t, ht, hpc⟩ := hp
      rw [inv.pub t ht hpc]
      exact ⟨le_refl 0, Int.ofNat_nonneg N⟩
    · rw [inv.cur (fun t ht hpc => hp ⟨t, ht, hpc⟩)]
      have := arrived_count_le N r (barrier_run (barrier_start N) sched)
      exact ⟨Int.ofNat_nonneg _, by exact_mod_cast this⟩
  refine ⟨inv.total, hcur.1, hcur.2, by rw [inv.sense]; exact sense_of_cases r,
    r, ts, hlen, ?_, fun u hu => ?_⟩
  · rcases hcase with ⟨_, h⟩ | ⟨t, ht, _, h⟩ | ⟨t, ht, _, h⟩
    · exact Or.inl h
    · exact Or.inr (Or.inl ⟨t, ht, h⟩)
    · exact Or.inr (Or.inr ⟨t, ht, h⟩)
  · have hb := thread_ok_bounds r _ (inv.ok u hu)
    exact ⟨hb.1, hb.2.1⟩

/-- C17 at a concrete input: two threads; thread 1 arrives last in the first
round, resets the counter and toggles `sense`: the log is that of one complete
round by thread 1, and the barrier holds `total_runners = 2`. -/
theorem barrier_counter_invariant_witness :
    barrier_log (barrier_start 2) [0, 0, 1, 1, 1, 1] = rounds_log 0 [1] ∧
    (barrier_run (barrier_start 2) [0, 0, 1, 1, 1, 1]).bar.total_runners = 2 ∧
    (barrier_run (barrier_start 2) [0, 0, 1, 1, 1, 1]).bar.cur_runners ≤ 2 :=
  ⟨by decide,
   (barrier_counter_invariant 2 [0, 0, 1, 1, 1, 1] (by norm_num) (by decide)).1,
   (barrier_counter_invariant 2 [0, 0, 1, 1, 1, 1] (by norm_num) (by decide)).2.2.1⟩


/-! ## Lock-free queue: overlapping calls -/

/-- Two chains from the same node that both end in a node with `next = NULL` end
in the same node. -/
theorem linked_end_unique (heap : Nat → node) (l1 : List Nat) :
    ∀ a l2 t1 t2, linked heap a l1 t1 → linked heap a l2 t2 →
      (heap t1).next = 0 → (heap t2).next = 0 → t1 = t2 := by
  induction l1 with
  | nil =>
    intro a l2 t1 t2 h1 h2 z1 _
    have e1 : a = t1 := h1
    cases l2 with
    | nil =>
      have e2 : a = t2 := h2
      rw [← e1, ← e2]
    | cons b rest =>
      obtain ⟨n1, n2, _⟩ := h2
      rw [e1, z1] at n1
      exact absurd n1.symm n2
  | cons b rest ih =>
    intro a l2 t1 t2 h1 h2 z1 z2
    obtain ⟨n1, n2, n3⟩ := h1
    cases l2 with
    | nil =>
      have e2 : a = t2 := h2
      rw [e2, z2] at n1
      exact absurd n1.symm n2
    | cons c rest2 =>
      obtain ⟨k1, _, k3⟩ := h2
      rw [n1] at k1
      rw [← k1] at k3
      exact ih b rest2 t1 t2 n3 k3 z1 z2

/-- A queue whose `tail` has `next = NULL` and is not the end of the chain from
`head` does not satisfy the structural invariant. -/
theorem queue_wf_tail_detached (m : memory) (l : List Nat) (t : Nat)
    (h1 : linked m.heap m.queue.head l t) (h2 : (m.heap t).next = 0)
    (h3 : (m.heap m.queue.tail).next = 0) (h4 : t ≠ m.queue.tail) : ¬ queue_wf m := by
  intro ⟨_, _, l1, l2, last, w1, w2, w3⟩
  have e1 : t = last := linked_end_unique m.heap l _ l1 t last h1 w1 h2 w3
  have e2 : m.queue.tail = last :=
    linked_end_unique m.heap [] _ l2 m.queue.tail last rfl w2 h3 w3
  exact h4 (e1.trans e2.symm)

/-- C11, evaluated on the code: two calls of `lf_enqueue` that overlap leave a
queue that breaks the structural invariant. On the queue that `lf_queue_init`
leaves (it satisfies the invariant), thread 0 calls `lf_enqueue(queue, 1)`, links
its node 2 after node 1 (line 313) and is preempted before line 320. Thread 1
calls `lf_enqueue(queue, 2)` with the bytes `0x100` in the local `ret` of its
first `compare_and_swap_ptr`: the call fails, returns 256, `!succ` is false, the
loop ends with the new node 3 linked nowhere (the thread stands before line 320
with `q = 3`, `p = 1`), and line 320 sets `tail` to node 3. When both calls have
returned, `head` is node 1, the chain from `head` is 1, 2 and ends in node 2,
`tail` is node 3 with `next = NULL`, and node 2 is not reached from `tail`. -/
theorem lf_enqueue_overlap_breaks_structure :
    queue_wf (lf_start memory_start).mem ∧
    ((lf_run (lf_start memory_start) (lf_overlap.take 6)).th 1).pc = lf_pc.enq_swing 3 1 ∧
    ((lf_run (lf_start memory_start) lf_overlap).th 0).pc = lf_pc.idle ∧
    ((lf_run (lf_start memory_start) lf_overlap).th 1).pc = lf_pc.idle ∧
    (lf_run (lf_start memory_start) lf_overlap).mem.queue.head = 1 ∧
    (lf_run (lf_start memory_start) lf_overlap).mem.queue.tail = 3 ∧
    chain (lf_run (lf_start memory_start) lf_overlap).mem.heap 8 1 = [1, 2] ∧
    chain (lf_run (lf_start memory_start) lf_overlap).mem.heap 8 3 = [3] ∧
    ¬ queue_wf (lf_run (lf_start memory_start) lf_overlap).mem := by
  refine ⟨?_, by decide, by decide, by decide, by decide, by decide, by decide, by decide, ?_⟩
  · exact ⟨by decide, by decide, [], [], 1, rfl, rfl, by decide⟩
  · exact queue_wf_tail_detached _ [2] 2 ⟨by decide, by decide, rfl⟩ (by decide) (by decide)
      (by decide)

/-! ## Lock-free queue: several threads, clean bytes in `ret` -/

theorem adjacent_mem_left {L : List Nat} {p x : Nat} (h : adjacent L p x) : p ∈ L := by
  obtain ⟨pre, post, e⟩ := h
  rw [e]
  simp

theorem adjacent_mem_right {L : List Nat} {p x : Nat} (h : adjacent L p x) : x ∈ L := by
  obtain ⟨pre, post, e⟩ := h
  rw [e]
  simp

theorem adjacent_append {L : List Nat} {p x : Nat} (q : Nat) (h : adjacent L p x) :
    adjacent (L ++ [q]) p x := by
  obtain ⟨pre, post, e⟩ := h
  refine ⟨pre, post ++ [q], ?_⟩
  rw [e]
  simp

/-- Two nodes adjacent in the chain extended by `q` were adjacent before, or they
are the old last node and `q`. -/
theorem adjacent_snoc {L : List Nat} {p x q : Nat} (h : adjacent (L ++ [q]) p x) :
    adjacent L p x ∨ (x = q ∧ ∃ pre, L = pre ++ [p]) := by
  obtain ⟨pre, post, e⟩ := h
  rcases List.eq_nil_or_concat post with hp | ⟨P, b, hp⟩
  · right
    subst hp
    have e2 : L ++ [q] = (pre ++ [p]) ++ [x] := by rw [e]; simp
    obtain ⟨a1, a2⟩ := List.append_inj' e2 rfl
    exact ⟨(List.cons.inj a2).1.symm, pre, a1⟩
  · left
    rw [List.concat_eq_append] at hp
    subst hp
    have e2 : L ++ [q] = (pre ++ p :: x :: P) ++ [b] := by rw [e]; simp
    exact ⟨pre, P, (List.append_inj' e2 rfl).1⟩

/-- A node of the chain is the last one, with `next = NULL`, or has the node
`next` points to after it. -/
theorem lf_path_cases {heap : Nat → node} {L : List Nat} (hp : lf_path heap L) {x : Nat}
    (hx : x ∈ L) :
    ((heap x).next = 0 ∧ ∃ pre, L = pre ++ [x]) ∨ adjacent L x (heap x).next := by
  obtain ⟨s, t, e⟩ := List.append_of_mem hx
  cases t with
  | nil => exact Or.inl ⟨hp.2 s x e, s, e⟩
  | cons y t1 =>
    right
    have ha : adjacent L x y := ⟨s, t1, e⟩
    rw [hp.1 x y ha]
    exact ha

/-- In a chain without repetition the position of a node is unique. -/
theorem nodup_split_unique {L pre post pre1 post1 : List Nat} {x : Nat} (hn : L.Nodup)
    (h1 : L = pre ++ x :: post) (h2 : L = pre1 ++ x :: post1) : pre = pre1 ∧ post = post1 := by
  rw [h1] at hn h2
  have hm := List.nodup_middle.1 hn
  have hx : x ∉ pre ++ post := (List.nodup_cons.1 hm).1
  rw [List.mem_append, not_or] at hx
  have := (List.append_cons_inj_of_not_mem hx.1 hx.2).1 h2
  exact ⟨this.1, this.2.2⟩


/-- With clean bytes in `ret` and a cell and an expected value that fit a pointer,
`compare_and_swap_ptr` returns 1 and stores the new value when the cell holds
the expected value, and returns 0 and leaves the cell alone when it does not. -/
theorem compare_and_swap_ptr_clean (ret0 c e n : Nat) (hr : wrap64 ret0 < 256)
    (hc : c < 2 ^ 64) (he : e < 2 ^ 64) :
    compare_and_swap_ptr ret0 c e n
      = if e = c then { ret := 1, cell := wrap64 n } else { ret := 0, cell := c } := by
  by_cases h : e = c
  · rw [if_pos h, compare_and_swap_ptr_hit_clean ret0 c e n hr (by rw [h])]
  · rw [if_neg h, compare_and_swap_ptr_miss_clean ret0 c e n hr
      (by rw [wrap64_of_lt hc, wrap64_of_lt he]; exact h)]

theorem ptr_to_int_zero : ptr_to_int 0 = 0 := by decide

theorem ptr_to_int_one : ptr_to_int 1 ≠ 0 := by decide

/-- Writing a node that is not in the chain leaves the chain as it is. -/
theorem lf_path_update {heap : Nat → node} {L : List Nat} (hp : lf_path heap L) (q : Nat)
    (v : node) (hq : q ∉ L) : lf_path (Function.update heap q v) L := by
  refine ⟨fun p x ha => ?_, fun pre p e => ?_⟩
  · have hne : p ≠ q := fun e => hq (e ▸ adjacent_mem_left ha)
    rw [Function.update_noteq hne]
    exact hp.1 p x ha
  · have hne : p ≠ q := fun e1 => hq (by rw [e, ← e1]; simp)
    rw [Function.update_noteq hne]
    exact hp.2 pre p e

/-- Linking the fresh node `q` after the last node `p` extends the chain by `q`. -/
theorem lf_path_snoc {heap : Nat → node} {L pre : List Nat} {p q : Nat} (hp : lf_path heap L)
    (hn : L.Nodup) (hl : L = pre ++ [p]) (hq : q ∉ L) (hz : (heap q).next = 0) (v : node)
    (hv : v.next = q) : lf_path (Function.update heap p v) (L ++ [q]) := by
  have hpL : p ∈ L := by rw [hl]; simp
  have hqp : q ≠ p := fun e => hq (e ▸ hpL)
  refine ⟨fun a x ha => ?_, fun pre1 a e => ?_⟩
  · rcases adjacent_snoc ha with h1 | ⟨h1, pre2, h2⟩
    · have hne : a ≠ p := by
        intro e
        obtain ⟨s, t, e1⟩ := h1
        rw [e] at e1
        have := (nodup_split_unique hn hl e1).2
        cases this
      rw [Function.update_noteq hne]
      exact hp.1 a x h1
    · have e : a = p := by
        rw [hl] at h2
        exact ((List.cons.inj (List.append_inj' h2 rfl).2).1).symm
      rw [e, Function.update_same, hv, h1]
  · have e1 : a = q := ((List.cons.inj (List.append_inj' e rfl).2).1).symm
    rw [e1, Function.update_noteq hqp]
    exact hz

/-- From every node of the chain, following `next` leads to a node with
`next = NULL`. -/
theorem lf_path_linked {heap : Nat → node} {L : List Nat} (hp : lf_path heap L)
    (hb : ∀ x, x ∈ L → x ≠ 0) (t : List Nat) :
    ∀ (s : List Nat) (x : Nat), L = s ++ x :: t →
      ∃ l, linked heap x l ((x :: t).getLast (List.cons_ne_nil _ _)) ∧
        (heap ((x :: t).getLast (List.cons_ne_nil _ _))).next = 0 := by
  induction t with
  | nil =>
    intro s x e
    exact ⟨[], rfl, hp.2 s x e⟩
  | cons y t1 ih =>
    intro s x e
    have e1 : L = (s ++ [x]) ++ y :: t1 := by rw [e]; simp
    obtain ⟨l, h1, h2⟩ := ih (s ++ [x]) y e1
    have hy : y ≠ 0 := hb y (by rw [e]; simp)
    refine ⟨y :: l, ⟨hp.1 x y ⟨s, t1, e⟩, hy, ?_⟩, ?_⟩
    · rw [List.getLast_cons (List.cons_ne_nil _ _)]
      exact h1
    · rw [List.getLast_cons (List.cons_ne_nil _ _)]
      exact h2

/-- The invariant of the shared queue gives the structural invariant. -/
theorem lf_inv_wf {s : lf_sys} {L pre post : List Nat} (inv : lf_inv s L pre post) :
    queue_wf s.mem := by
  have hb : ∀ x, x ∈ L → x ≠ 0 := fun x hx => (inv.bound x hx).1
  have ht : s.mem.queue.tail ∈ L := by rw [inv.tail]; simp
  obtain ⟨s1, t1, e1⟩ := List.append_of_mem inv.head
  obtain ⟨l1, a1, a2⟩ := lf_path_linked inv.path hb t1 s1 _ e1
  obtain ⟨l2, b1, b2⟩ := lf_path_linked inv.path hb post pre _ inv.tail
  have e : (s.mem.queue.head :: t1).getLast (List.cons_ne_nil _ _)
      = (s.mem.queue.tail :: post).getLast (List.cons_ne_nil _ _) := by
    have x1 : L.getLast? = some ((s.mem.queue.head :: t1).getLast (List.cons_ne_nil _ _)) := by
      rw [e1, List.getLast?_append_cons, List.getLast?_eq_getLast _ (List.cons_ne_nil _ _)]
    have x2 : L.getLast? = some ((s.mem.queue.tail :: post).getLast (List.cons_ne_nil _ _)) := by
      rw [inv.tail, List.getLast?_append_cons, List.getLast?_eq_getLast _ (List.cons_ne_nil _ _)]
    rw [x1] at x2
    exact Option.some.inj x2
  rw [← e] at b1
  exact ⟨hb _ inv.head, hb _ ht, l1, l2, _, a1, b1, a2⟩


theorem lf_fresh_alloc {heap : Nat → node} {brk : Nat} {L : List Nat} {q : Nat} (v : node)
    (h : lf_fresh heap brk L q) : lf_fresh (Function.update heap brk v) (brk + 1) L q := by
  obtain ⟨h1, h2, h3, h4⟩ := h
  refine ⟨h1, by omega, h3, ?_⟩
  rw [Function.update_noteq (by omega)]
  exact h4

theorem lf_fresh_link {heap : Nat → node} {brk : Nat} {L : List Nat} {q q0 p : Nat} (v : node)
    (h : lf_fresh heap brk L q) (hq : q ≠ q0) (hp : p ∈ L) :
    lf_fresh (Function.update heap p v) brk (L ++ [q0]) q := by
  obtain ⟨h1, h2, h3, h4⟩ := h
  refine ⟨h1, h2, ?_, ?_⟩
  · rw [List.mem_append, List.mem_singleton, not_or]
    exact ⟨h3, hq⟩
  · have hne : q ≠ p := fun e => h3 (by rw [e]; exact hp)
    rw [Function.update_noteq hne]
    exact h4

/-- The locals of a thread still fit when `tail` has moved on. -/
theorem lf_thread_ok_pre {heap : Nat → node} {brk : Nat} {L pre pre1 : List Nat}
    (hsub : ∀ x, x ∈ pre → x ∈ pre1) (pc : lf_pc) (h : lf_thread_ok heap brk L pre pc) :
    lf_thread_ok heap brk L pre1 pc := by
  cases pc with
  | enq_swing q p => exact h.imp id (hsub p)
  | idle => exact h
  | enq_load q => exact h
  | enq_link q p => exact h
  | enq_read q p => exact h
  | enq_help q p n => exact h
  | deq_load => exact h
  | deq_test p => exact h
  | deq_read p => exact h
  | deq_cas p n => exact h
  | deq_val p => exact h

/-- The locals of a thread still fit when another thread has called `malloc` and
initialised its new node. -/
theorem lf_thread_ok_alloc {heap : Nat → node} {brk : Nat} {L pre : List Nat} (v : node)
    (pc : lf_pc) (h : lf_thread_ok heap brk L pre pc) :
    lf_thread_ok (Function.update heap brk v) (brk + 1) L pre pc := by
  cases pc with
  | enq_swing q p => exact h
  | idle => exact h
  | enq_load q => exact lf_fresh_alloc v h
  | enq_link q p => exact ⟨lf_fresh_alloc v h.1, h.2⟩
  | enq_read q p => exact ⟨lf_fresh_alloc v h.1, h.2⟩
  | enq_help q p n => exact ⟨lf_fresh_alloc v h.1, h.2⟩
  | deq_load => exact h
  | deq_test p => exact h
  | deq_read p => exact h
  | deq_cas p n => exact h
  | deq_val p => exact h

/-- The locals of a thread still fit when another thread has linked its node `q0`
after the last node `p0`. -/
theorem lf_thread_ok_link {heap : Nat → node} {brk : Nat} {L pre : List Nat} {p0 q0 : Nat}
    (v : node) (hp : p0 ∈ L) (pc : lf_pc) (hq : lf_pending pc ≠ some q0)
    (h : lf_thread_ok heap brk L pre pc) :
    lf_thread_ok (Function.update heap p0 v) brk (L ++ [q0]) pre pc := by
  have hm : ∀ x, x ∈ L → x ∈ L ++ [q0] := fun x hx => List.mem_append_left _ hx
  cases pc with
  | enq_swing q p => exact h.imp (adjacent_append q0) id
  | idle => exact h
  | enq_load q => exact lf_fresh_link v h (fun e => hq (by rw [e]; rfl)) hp
  | enq_link q p => exact ⟨lf_fresh_link v h.1 (fun e => hq (by rw [e]; rfl)) hp, hm p h.2⟩
  | enq_read q p =>
    obtain ⟨h1, x, h2⟩ := h
    exact ⟨lf_fresh_link v h1 (fun e => hq (by rw [e]; rfl)) hp, x, adjacent_append q0 h2⟩
  | enq_help q p n =>
    exact ⟨lf_fresh_link v h.1 (fun e => hq (by rw [e]; rfl)) hp, adjacent_append q0 h.2⟩
  | deq_load => exact h
  | deq_test p => exact hm p h
  | deq_read p =>
    obtain ⟨x, h2⟩ := h
    exact ⟨x, adjacent_append q0 h2⟩
  | deq_cas p n => exact adjacent_append q0 h
  | deq_val p => exact h

/-- No two threads hold the same new node after thread `t` has taken a step, when
the node it holds, if any, is held by no other thread. -/
theorem lf_pending_update (th : Nat → lf_thread) (t : Nat) (new : lf_thread)
    (hold : ∀ u v q, u ≠ v → lf_pending (th u).pc = some q → lf_pending (th v).pc ≠ some q)
    (hnew : ∀ q, lf_pending new.pc = some q → ∀ u, u ≠ t → lf_pending (th u).pc ≠ some q) :
    ∀ u v q, u ≠ v → lf_pending ((Function.update th t new) u).pc = some q →
      lf_pending ((Function.update th t new) v).pc ≠ some q := by
  intro u v q huv h1
  by_cases hu : u = t
  · have hv : v ≠ t := fun e => huv (hu.trans e.symm)
    rw [hu, Function.update_same] at h1
    rw [Function.update_noteq hv]
    exact hnew q h1 v hv
  · rw [Function.update_noteq hu] at h1
    by_cases hv : v = t
    · rw [hv, Function.update_same]
      intro h2
      exact hnew q h2 u hu h1
    · rw [Function.update_noteq hv]
      exact hold u v q huv h1

theorem lf_pending_keep (th : Nat → lf_thread) (t : Nat) (new : lf_thread)
    (hold : ∀ u v q, u ≠ v → lf_pending (th u).pc = some q → lf_pending (th v).pc ≠ some q)
    (hp : lf_pending new.pc = none ∨ lf_pending new.pc = lf_pending (th t).pc) :
    ∀ q, lf_pending new.pc = some q → ∀ u, u ≠ t → lf_pending (th u).pc ≠ some q := by
  intro q h1 u hu
  rcases hp with hp | hp
  · rw [hp] at h1
    cases h1
  · rw [hp] at h1
    exact hold t u q (fun e => hu e.symm) h1

/-- A step that changes only the position and the locals of thread `t`. -/
theorem lf_inv_local {s : lf_sys} {L pre post : List Nat} (inv : lf_inv s L pre post) (t : Nat)
    (new : lf_thread) (hok : lf_thread_ok s.mem.heap s.mem.brk L pre new.pc)
    (hp : lf_pending new.pc = none ∨ lf_pending new.pc = lf_pending (s.th t).pc) :
    lf_inv { mem := s.mem, th := Function.update s.th t new } L pre post := by
  refine ⟨inv.path, inv.nodup, inv.bound, inv.head, inv.tail, fun u => ?_, ?_⟩
  · by_cases hu : u = t
    · show lf_thread_ok s.mem.heap s.mem.brk L pre ((Function.update s.th t new) u).pc
      rw [hu, Function.update_same]
      exact hok
    · show lf_thread_ok s.mem.heap s.mem.brk L pre ((Function.update s.th t new) u).pc
      rw [Function.update_noteq hu]
      exact inv.threads u
  · exact lf_pending_update s.th t new inv.pending (lf_pending_keep s.th t new inv.pending hp)

/-- A step that moves `tail` to the node after it. -/
theorem lf_inv_tail {s : lf_sys} {L pre post : List Nat} (inv : lf_inv s L pre post) (t : Nat)
    (new : lf_thread) (n : Nat) (ha : adjacent L s.mem.queue.tail n)
    (hok : lf_thread_ok s.mem.heap s.mem.brk L (pre ++ [s.mem.queue.tail]) new.pc)
    (hp : lf_pending new.pc = none ∨ lf_pending new.pc = lf_pending (s.th t).pc) :
    ∃ post1, lf_inv { mem := { s.mem with queue := { s.mem.queue with tail := n } },
                      th := Function.update s.th t new } L (pre ++ [s.mem.queue.tail]) post1 := by
  obtain ⟨pre1, post1, e⟩ := ha
  obtain ⟨e1, e2⟩ := nodup_split_unique inv.nodup inv.tail e
  refine ⟨post1, inv.path, inv.nodup, inv.bound, inv.head, ?_, fun u => ?_, ?_⟩
  · show L = (pre ++ [s.mem.queue.tail]) ++ n :: post1
    rw [e, e1]
    simp
  · show lf_thread_ok s.mem.heap s.mem.brk L (pre ++ [s.mem.queue.tail])
      ((Function.update s.th t new) u).pc
    by_cases hu : u = t
    · rw [hu, Function.update_same]
      exact hok
    · rw [Function.update_noteq hu]
      exact lf_thread_ok_pre (fun x hx => List.mem_append_left _ hx) _ (inv.threads u)
  · exact lf_pending_update s.th t new inv.pending (lf_pending_keep s.th t new inv.pending hp)

/-- A step that moves `head` to a node of the chain. -/
theorem lf_inv_head {s : lf_sys} {L pre post : List Nat} (inv : lf_inv s L pre post) (t : Nat)
    (new : lf_thread) (n : Nat) (hn : n ∈ L)
    (hok : lf_thread_ok s.mem.heap s.mem.brk L pre new.pc)
    (hp : lf_pending new.pc = none ∨ lf_pending new.pc = lf_pending (s.th t).pc) :
    lf_inv { mem := { s.mem with queue := { s.mem.queue with head := n } },
             th := Function.update s.th t new } L pre post := by
  refine ⟨inv.path, inv.nodup, inv.bound, hn, inv.tail, fun u => ?_, ?_⟩
  · show lf_thread_ok s.mem.heap s.mem.brk L pre ((Function.update s.th t new) u).pc
    by_cases hu : u = t
    · rw [hu, Function.update_same]
      exact hok
    · rw [Function.update_noteq hu]
      exact inv.threads u
  · exact lf_pending_update s.th t new inv.pending (lf_pending_keep s.th t new inv.pending hp)


theorem lf_pending_lt {heap : Nat → node} {brk : Nat} {L pre : List Nat} {pc : lf_pc} {q : Nat}
    (h : lf_thread_ok heap brk L pre pc) (hq : lf_pending pc = some q) : q < brk := by
  cases pc with
  | enq_swing q1 p => cases hq
  | idle => cases hq
  | enq_load q1 => cases hq; exact h.2.1
  | enq_link q1 p => cases hq; exact h.1.2.1
  | enq_read q1 p => cases hq; exact h.1.2.1
  | enq_help q1 p n => cases hq; exact h.1.2.1
  | deq_load => cases hq
  | deq_test p => cases hq
  | deq_read p => cases hq
  | deq_cas p n => cases hq
  | deq_val p => cases hq

theorem lf_sys_step_idle (s : lf_sys) (l : lf_label) (h : (s.th l.thread).pc = lf_pc.idle) :
    lf_sys_step s l
      = if l.enq then
          { mem := { heap := Function.update s.mem.heap s.mem.brk { next := 0, value := l.val }
                     brk := s.mem.brk + 1
                     queue := s.mem.queue }
            th := Function.update s.th l.thread
              { s.th l.thread with pc := lf_pc.enq_load s.mem.brk } }
        else
          { mem := s.mem
            th := Function.update s.th l.thread { s.th l.thread with pc := lf_pc.deq_load } } := by
  unfold lf_sys_step lf_thread_step
  rw [h]
  by_cases he : l.enq = true
  · simp only [he, if_true]
    rfl
  · simp only [he, if_false]
    rfl

theorem lf_inv_step_idle {s : lf_sys} {L pre post : List Nat} (inv : lf_inv s L pre post)
    (l : lf_label) (h : (s.th l.thread).pc = lf_pc.idle) :
    ∃ L1 pre1 post1, lf_inv (lf_sys_step s l) L1 pre1 post1 := by
  rw [lf_sys_step_idle s l h]
  by_cases he : l.enq = true
  · rw [if_pos he]
    have hlt : ∀ x, x ∈ L → x < s.mem.brk := fun x hx => (inv.bound x hx).2
    have hnot : s.mem.brk ∉ L := fun hx => Nat.lt_irrefl _ (hlt _ hx)
    have hpos : s.mem.brk ≠ 0 := by
      have := hlt _ inv.head
      omega
    refine ⟨L, pre, post, lf_path_update inv.path _ _ hnot, inv.nodup, ?_, inv.head, inv.tail,
      fun u => ?_, ?_⟩
    · intro x hx
      exact ⟨(inv.bound x hx).1, Nat.lt_succ_of_lt (hlt x hx)⟩
    · show lf_thread_ok (Function.update s.mem.heap s.mem.brk _) (s.mem.brk + 1) L pre
        ((Function.update s.th l.thread _) u).pc
      by_cases hu : u = l.thread
      · rw [hu, Function.update_same]
        refine ⟨hpos, Nat.lt_succ_self _, hnot, ?_⟩
        rw [Function.update_same]
      · rw [Function.update_noteq hu]
        exact lf_thread_ok_alloc _ _ (inv.threads u)
    · apply lf_pending_update s.th l.thread _ inv.pending
      intro q hq u _ hq1
      have e : s.mem.brk = q := Option.some.inj hq
      have := lf_pending_lt (inv.threads u) hq1
      omega
  · rw [if_neg he]
    exact ⟨L, pre, post, lf_inv_local inv l.thread _ trivial (Or.inl rfl)⟩


theorem lf_sys_step_enq_load (s : lf_sys) (l : lf_label) (q : Nat)
    (h : (s.th l.thread).pc = lf_pc.enq_load q) :
    lf_sys_step s l
      = { mem := s.mem
          th := Function.update s.th l.thread
            { s.th l.thread with pc := lf_pc.enq_link q s.mem.queue.tail } } := by
  unfold lf_sys_step lf_thread_step
  rw [h]

theorem lf_sys_step_enq_read (s : lf_sys) (l : lf_label) (q p : Nat)
    (h : (s.th l.thread).pc = lf_pc.enq_read q p) :
    lf_sys_step s l
      = { mem := s.mem
          th := Function.update s.th l.thread
            { s.th l.thread with pc := lf_pc.enq_help q p (s.mem.heap p).next } } := by
  unfold lf_sys_step lf_thread_step
  rw [h]

theorem lf_sys_step_deq_load (s : lf_sys) (l : lf_label)
    (h : (s.th l.thread).pc = lf_pc.deq_load) :
    lf_sys_step s l
      = { mem := s.mem
          th := Function.update s.th l.thread
            { s.th l.thread with pc := lf_pc.deq_test s.mem.queue.head } } := by
  unfold lf_sys_step lf_thread_step
  rw [h]

theorem lf_sys_step_deq_test (s : lf_sys) (l : lf_label) (p : Nat)
    (h : (s.th l.thread).pc = lf_pc.deq_test p) :
    lf_sys_step s l
      = { mem := s.mem
          th := Function.update s.th l.thread
            (if (s.mem.heap p).next = 0 then { s.th l.thread with pc := lf_pc.idle, ret := 0 }
             else { s.th l.thread with pc := lf_pc.deq_read p }) } := by
  unfold lf_sys_step lf_thread_step
  rw [h]
  by_cases hz : (s.mem.heap p).next = 0
  · simp only [hz, if_true]
  · simp only [hz, if_false]

theorem lf_sys_step_deq_read (s : lf_sys) (l : lf_label) (p : Nat)
    (h : (s.th l.thread).pc = lf_pc.deq_read p) :
    lf_sys_step s l
      = { mem := s.mem
          th := Function.update s.th l.thread
            { s.th l.thread with pc := lf_pc.deq_cas p (s.mem.heap p).next } } := by
  unfold lf_sys_step lf_thread_step
  rw [h]

theorem lf_sys_step_deq_val (s : lf_sys) (l : lf_label) (p : Nat)
    (h : (s.th l.thread).pc = lf_pc.deq_val p) :
    lf_sys_step s l
      = { mem := s.mem
          th := Function.update s.th l.thread
            { pc := lf_pc.idle, val := (s.mem.heap (s.mem.heap p).next).value, ret := 1 } } := by
  unfold lf_sys_step lf_thread_step
  rw [h]

theorem lf_inv_step_enq_load {s : lf_sys} {L pre post : List Nat} (inv : lf_inv s L pre post)
    (l : lf_label) (q : Nat) (h : (s.th l.thread).pc = lf_pc.enq_load q) :
    lf_inv (lf_sys_step s l) L pre post := by
  have ht : lf_fresh s.mem.heap s.mem.brk L q := by
    have := inv.threads l.thread
    rw [h] at this
    exact this
  have hm : s.mem.queue.tail ∈ L := by rw [inv.tail]; simp
  rw [lf_sys_step_enq_load s l q h]
  exact lf_inv_local inv l.thread _ ⟨ht, hm⟩ (Or.inr (by rw [h]; rfl))

theorem lf_inv_step_enq_read {s : lf_sys} {L pre post : List Nat} (inv : lf_inv s L pre post)
    (l : lf_label) (q p : Nat) (h : (s.th l.thread).pc = lf_pc.enq_read q p) :
    lf_inv (lf_sys_step s l) L pre post := by
  have ht : lf_fresh s.mem.heap s.mem.brk L q ∧ ∃ x, adjacent L p x := by
    have := inv.threads l.thread
    rw [h] at this
    exact this
  obtain ⟨h1, x, h2⟩ := ht
  rw [lf_sys_step_enq_read s l q p h, inv.path.1 p x h2]
  exact lf_inv_local inv l.thread _ ⟨h1, h2⟩ (Or.inr (by rw [h]; rfl))

theorem lf_inv_step_deq_load {s : lf_sys} {L pre post : List Nat} (inv : lf_inv s L pre post)
    (l : lf_label) (h : (s.th l.thread).pc = lf_pc.deq_load) :
    lf_inv (lf_sys_step s l) L pre post := by
  rw [lf_sys_step_deq_load s l h]
  exact lf_inv_local inv l.thread _ inv.head (Or.inl rfl)

theorem lf_inv_step_deq_test {s : lf_sys} {L pre post : List Nat} (inv : lf_inv s L pre post)
    (l : lf_label) (p : Nat) (h : (s.th l.thread).pc = lf_pc.deq_test p) :
    lf_inv (lf_sys_step s l) L pre post := by
  have ht : p ∈ L := by
    have := inv.threads l.thread
    rw [h] at this
    exact this
  rw [lf_sys_step_deq_test s l p h]
  by_cases hz : (s.mem.heap p).next = 0
  · rw [if_pos hz]
    exact lf_inv_local inv l.thread _ trivial (Or.inl rfl)
  · rw [if_neg hz]
    rcases lf_path_cases inv.path ht with ⟨h1, _⟩ | h1
    · exact absurd h1 hz
    · exact lf_inv_local inv l.thread _ ⟨_, h1⟩ (Or.inl rfl)

theorem lf_inv_step_deq_read {s : lf_sys} {L pre post : List Nat} (inv : lf_inv s L pre post)
    (l : lf_label) (p : Nat) (h : (s.th l.thread).pc = lf_pc.deq_read p) :
    lf_inv (lf_sys_step s l) L pre post := by
  have ht : ∃ x, adjacent L p x := by
    have := inv.threads l.thread
    rw [h] at this
    exact this
  obtain ⟨x, h2⟩ := ht
  rw [lf_sys_step_deq_read s l p h, inv.path.1 p x h2]
  exact lf_inv_local inv l.thread _ h2 (Or.inl rfl)

theorem lf_inv_step_deq_val {s : lf_sys} {L pre post : List Nat} (inv : lf_inv s L pre post)
    (l : lf_label) (p : Nat) (h : (s.th l.thread).pc = lf_pc.deq_val p) :
    lf_inv (lf_sys_step s l) L pre post := by
  rw [lf_sys_step_deq_val s l p h]
  exact lf_inv_local inv l.thread _ trivial (Or.inl rfl)


theorem lf_sys_step_enq_link (s : lf_sys) (l : lf_label) (q p : Nat)
    (h : (s.th l.thread).pc = lf_pc.enq_link q p) (hr : wrap64 l.ret0 < 256)
    (hc : (s.mem.heap p).next < 2 ^ 64) (hq : q < 2 ^ 64) :
    lf_sys_step s l
      = if (s.mem.heap p).next = 0 then
          { mem := { s.mem with
                     heap := Function.update s.mem.heap p { s.mem.heap p with next := q } }
            th := Function.update s.th l.thread { s.th l.thread with pc := lf_pc.enq_swing q p } }
        else
          { mem := s.mem
            th := Function.update s.th l.thread
              { s.th l.thread with pc := lf_pc.enq_read q p } } := by
  unfold lf_sys_step lf_thread_step
  rw [h]
  simp only [compare_and_swap_ptr_clean l.ret0 _ 0 q hr hc (by norm_num), wrap64_of_lt hq]
  by_cases hz : (s.mem.heap p).next = 0
  · rw [if_pos hz, if_pos hz.symm, if_neg ptr_to_int_one]
  · rw [if_neg hz, if_neg (fun e => hz e.symm), if_pos ptr_to_int_zero]
    have e : Function.update s.mem.heap p
        { next := (s.mem.heap p).next, value := (s.mem.heap p).value } = s.mem.heap :=
      Function.update_eq_self p s.mem.heap
    rw [e]

theorem lf_sys_step_enq_help (s : lf_sys) (l : lf_label) (q p n : Nat)
    (h : (s.th l.thread).pc = lf_pc.enq_help q p n) (hr : wrap64 l.ret0 < 256)
    (hc : s.mem.queue.tail < 2 ^ 64) (hp : p < 2 ^ 64) (hn : n < 2 ^ 64) :
    lf_sys_step s l
      = if p = s.mem.queue.tail then
          { mem := { s.mem with queue := { s.mem.queue with tail := n } }
            th := Function.update s.th l.thread { s.th l.thread with pc := lf_pc.enq_swing q p } }
        else
          { mem := s.mem
            th := Function.update s.th l.thread
              { s.th l.thread with pc := lf_pc.enq_load q } } := by
  unfold lf_sys_step lf_thread_step
  rw [h]
  simp only [compare_and_swap_ptr_clean l.ret0 _ p n hr hc hp, wrap64_of_lt hn]
  by_cases hz : p = s.mem.queue.tail
  · rw [if_pos hz, if_pos hz, if_neg ptr_to_int_one]
  · rw [if_neg hz, if_neg hz, if_pos ptr_to_int_zero]

theorem lf_sys_step_enq_swing (s : lf_sys) (l : lf_label) (q p : Nat)
    (h : (s.th l.thread).pc = lf_pc.enq_swing q p) (hr : wrap64 l.ret0 < 256)
    (hc : s.mem.queue.tail < 2 ^ 64) (hp : p < 2 ^ 64) :
    lf_sys_step s l
      = if p = s.mem.queue.tail then
          { mem := { s.mem with queue := { s.mem.queue with tail := wrap64 q } }
            th := Function.update s.th l.thread { s.th l.thread with pc := lf_pc.idle } }
        else
          { mem := s.mem
            th := Function.update s.th l.thread { s.th l.thread with pc := lf_pc.idle } } := by
  unfold lf_sys_step lf_thread_step
  rw [h]
  simp only [compare_and_swap_ptr_clean l.ret0 _ p q hr hc hp]
  by_cases hz : p = s.mem.queue.tail
  · rw [if_pos hz, if_pos hz]
  · rw [if_neg hz, if_neg hz]

theorem lf_sys_step_deq_cas (s : lf_sys) (l : lf_label) (p n : Nat)
    (h : (s.th l.thread).pc = lf_pc.deq_cas p n) (hr : wrap64 l.ret0 < 256)
    (hc : s.mem.queue.head < 2 ^ 64) (hp : p < 2 ^ 64) (hn : n < 2 ^ 64) :
    lf_sys_step s l
      = if p = s.mem.queue.head then
          { mem := { s.mem with queue := { s.mem.queue with head := n } }
            th := Function.update s.th l.thread { s.th l.thread with pc := lf_pc.deq_load } }
        else
          { mem := s.mem
            th := Function.update s.th l.thread
              { s.th l.thread with pc := lf_pc.deq_val p } } := by
  unfold lf_sys_step lf_thread_step
  rw [h]
  simp only [compare_and_swap_ptr_clean l.ret0 _ p n hr hc hp, wrap64_of_lt hn]
  by_cases hz : p = s.mem.queue.head
  · rw [if_pos hz, if_pos hz, if_pos (show (1 : Nat) ≠ 0 by decide)]
  · rw [if_neg hz, if_neg hz, if_neg (show ¬ (0 : Nat) ≠ 0 by decide)]


theorem lf_inv_lt {s : lf_sys} {L pre post : List Nat} (inv : lf_inv s L pre post)
    (hb : s.mem.brk ≤ 2 ^ 64) {x : Nat} (hx : x ∈ L) : x < 2 ^ 64 :=
  Nat.lt_of_lt_of_le (inv.bound x hx).2 hb

theorem lf_inv_tail_mem {s : lf_sys} {L pre post : List Nat} (inv : lf_inv s L pre post) :
    s.mem.queue.tail ∈ L := by
  rw [inv.tail]
  simp

/-- The step of line 313 with clean bytes in `ret`: the call succeeds exactly on
the last node of the chain, which then is followed by the new node. -/
theorem lf_inv_step_enq_link {s : lf_sys} {L pre post : List Nat} (inv : lf_inv s L pre post)
    (l : lf_label) (q p : Nat) (h : (s.th l.thread).pc = lf_pc.enq_link q p)
    (hr : wrap64 l.ret0 < 256) (hb : s.mem.brk ≤ 2 ^ 64) :
    ∃ L1 pre1 post1, lf_inv (lf_sys_step s l) L1 pre1 post1 := by
  have ht : lf_fresh s.mem.heap s.mem.brk L q ∧ p ∈ L := by
    have := inv.threads l.thread
    rw [h] at this
    exact this
  obtain ⟨hf, hpL⟩ := ht
  have hq : q < 2 ^ 64 := Nat.lt_of_lt_of_le hf.2.1 hb
  rcases lf_path_cases inv.path hpL with ⟨hz, pre0, hl⟩ | ha
  · rw [lf_sys_step_enq_link s l q p h hr (by rw [hz]; norm_num) hq, if_pos hz]
    refine ⟨L ++ [q], pre, post ++ [q],
      lf_path_snoc inv.path inv.nodup hl hf.2.2.1 hf.2.2.2 _ rfl, ?_, ?_,
      List.mem_append_left _ inv.head, ?_, fun u => ?_, ?_⟩
    · refine List.nodup_append.2 ⟨inv.nodup, List.nodup_singleton q, ?_⟩
      intro a ha1 ha2
      rw [List.mem_singleton] at ha2
      rw [ha2] at ha1
      exact hf.2.2.1 ha1
    · intro x hx
      rw [List.mem_append, List.mem_singleton] at hx
      rcases hx with hx | hx
      · exact inv.bound x hx
      · rw [hx]
        exact ⟨hf.1, hf.2.1⟩
    · show L ++ [q] = pre ++ s.mem.queue.tail :: (post ++ [q])
      have e : pre ++ s.mem.queue.tail :: (post ++ [q])
          = (pre ++ s.mem.queue.tail :: post) ++ [q] := by simp
      rw [e, ← inv.tail]
    · show lf_thread_ok (Function.update s.mem.heap p _) s.mem.brk (L ++ [q]) pre
        ((Function.update s.th l.thread _) u).pc
      by_cases hu : u = l.thread
      · rw [hu, Function.update_same]
        exact Or.inl ⟨pre0, [], by rw [hl]; simp⟩
      · rw [Function.update_noteq hu]
        exact lf_thread_ok_link _ hpL _
          (inv.pending l.thread u q (Ne.symm hu) (by rw [h]; rfl)) (inv.threads u)
    · exact lf_pending_update s.th l.thread _ inv.pending
        (lf_pending_keep s.th l.thread _ inv.pending (Or.inl rfl))
  · have hc : (s.mem.heap p).next < 2 ^ 64 := lf_inv_lt inv hb (adjacent_mem_right ha)
    have hne : (s.mem.heap p).next ≠ 0 := (inv.bound _ (adjacent_mem_right ha)).1
    rw [lf_sys_step_enq_link s l q p h hr hc hq, if_neg hne]
    exact ⟨L, pre, post, lf_inv_local inv l.thread _ ⟨hf, _, ha⟩ (Or.inr (by rw [h]; rfl))⟩

/-- The step of line 317 with clean bytes in `ret`: the call moves `tail` from `p`
to the node after `p`, or finds `tail` elsewhere and the loop goes round again. -/
theorem lf_inv_step_enq_help {s : lf_sys} {L pre post : List Nat} (inv : lf_inv s L pre post)
    (l : lf_label) (q p n : Nat) (h : (s.th l.thread).pc = lf_pc.enq_help q p n)
    (hr : wrap64 l.ret0 < 256) (hb : s.mem.brk ≤ 2 ^ 64) :
    ∃ L1 pre1 post1, lf_inv (lf_sys_step s l) L1 pre1 post1 := by
  have ht : lf_fresh s.mem.heap s.mem.brk L q ∧ adjacent L p n := by
    have := inv.threads l.thread
    rw [h] at this
    exact this
  obtain ⟨hf, ha⟩ := ht
  rw [lf_sys_step_enq_help s l q p n h hr (lf_inv_lt inv hb (lf_inv_tail_mem inv))
    (lf_inv_lt inv hb (adjacent_mem_left ha)) (lf_inv_lt inv hb (adjacent_mem_right ha))]
  by_cases hz : p = s.mem.queue.tail
  · rw [if_pos hz]
    rw [hz] at ha
    obtain ⟨post1, hinv⟩ := lf_inv_tail inv l.thread
      { s.th l.thread with pc := lf_pc.enq_swing q p } n ha
      (Or.inr (by rw [hz]; simp)) (Or.inl rfl)
    exact ⟨L, _, post1, hinv⟩
  · rw [if_neg hz]
    exact ⟨L, pre, post, lf_inv_local inv l.thread _ hf (Or.inr (by rw [h]; rfl))⟩

/-- The step of line 320 with clean bytes in `ret`: a thread that has linked its
node moves `tail` to it or finds `tail` elsewhere; a thread that has not linked
its node finds `tail` elsewhere. -/
theorem lf_inv_step_enq_swing {s : lf_sys} {L pre post : List Nat} (inv : lf_inv s L pre post)
    (l : lf_label) (q p : Nat) (h : (s.th l.thread).pc = lf_pc.enq_swing q p)
    (hr : wrap64 l.ret0 < 256) (hb : s.mem.brk ≤ 2 ^ 64) :
    ∃ L1 pre1 post1, lf_inv (lf_sys_step s l) L1 pre1 post1 := by
  have ht : adjacent L p q ∨ p ∈ pre := by
    have := inv.threads l.thread
    rw [h] at this
    exact this
  have hpL : p ∈ L := by
    rcases ht with ha | hp
    · exact adjacent_mem_left ha
    · rw [inv.tail]
      exact List.mem_append_left _ hp
  rw [lf_sys_step_enq_swing s l q p h hr (lf_inv_lt inv hb (lf_inv_tail_mem inv))
    (lf_inv_lt inv hb hpL)]
  by_cases hz : p = s.mem.queue.tail
  · rw [if_pos hz]
    rcases ht with ha | hp
    · rw [wrap64_of_lt (lf_inv_lt inv hb (adjacent_mem_right ha))]
      rw [hz] at ha
      obtain ⟨post1, hinv⟩ := lf_inv_tail inv l.thread
        { s.th l.thread with pc := lf_pc.idle } q ha trivial (Or.inl rfl)
      exact ⟨L, _, post1, hinv⟩
    · exfalso
      have hn := inv.nodup
      rw [inv.tail] at hn
      have hx := (List.nodup_cons.1 (List.nodup_middle.1 hn)).1
      rw [List.mem_append, not_or] at hx
      rw [hz] at hp
      exact hx.1 hp
  · rw [if_neg hz]
    exact ⟨L, pre, post, lf_inv_local inv l.thread _ trivial (Or.inl rfl)⟩

/-- The step of line 331 with clean bytes in `ret`: the call moves `head` from `p`
to the node after `p`, or finds `head` elsewhere. -/
theorem lf_inv_step_deq_cas {s : lf_sys} {L pre post : List Nat} (inv : lf_inv s L pre post)
    (l : lf_label) (p n : Nat) (h : (s.th l.thread).pc = lf_pc.deq_cas p n)
    (hr : wrap64 l.ret0 < 256) (hb : s.mem.brk ≤ 2 ^ 64) :
    ∃ L1 pre1 post1, lf_inv (lf_sys_step s l) L1 pre1 post1 := by
  have ha : adjacent L p n := by
    have := inv.threads l.thread
    rw [h] at this
    exact this
  rw [lf_sys_step_deq_cas s l p n h hr (lf_inv_lt inv hb inv.head)
    (lf_inv_lt inv hb (adjacent_mem_left ha)) (lf_inv_lt inv hb (adjacent_mem_right ha))]
  by_cases hz : p = s.mem.queue.head
  · rw [if_pos hz]
    exact ⟨L, pre, post,
      lf_inv_head inv l.thread _ n (adjacent_mem_right ha) trivial (Or.inl rfl)⟩
  · rw [if_neg hz]
    exact ⟨L, pre, post, lf_inv_local inv l.thread _ trivial (Or.inl rfl)⟩

/-- Every step whose `compare_and_swap_ptr` finds clean bytes in `ret` keeps the
invariant of the shared queue. -/
theorem lf_inv_step {s : lf_sys} {L pre post : List Nat} (inv : lf_inv s L pre post)
    (l : lf_label) (hr : wrap64 l.ret0 < 256) (hb : s.mem.brk ≤ 2 ^ 64) :
    ∃ L1 pre1 post1, lf_inv (lf_sys_step s l) L1 pre1 post1 := by
  cases h : (s.th l.thread).pc with
  | idle => exact lf_inv_step_idle inv l h
  | enq_load q => exact ⟨L, pre, post, lf_inv_step_enq_load inv l q h⟩
  | enq_link q p => exact lf_inv_step_enq_link inv l q p h hr hb
  | enq_read q p => exact ⟨L, pre, post, lf_inv_step_enq_read inv l q p h⟩
  | enq_help q p n => exact lf_inv_step_enq_help inv l q p n h hr hb
  | enq_swing q p => exact lf_inv_step_enq_swing inv l q p h hr hb
  | deq_load => exact ⟨L, pre, post, lf_inv_step_deq_load inv l h⟩
  | deq_test p => exact ⟨L, pre, post, lf_inv_step_deq_test inv l p h⟩
  | deq_read p => exact ⟨L, pre, post, lf_inv_step_deq_read inv l p h⟩
  | deq_cas p n => exact lf_inv_step_deq_cas inv l p n h hr hb
  | deq_val p => exact ⟨L, pre, post, lf_inv_step_deq_val inv l p h⟩


/-- Only the first step of `lf_enqueue` calls `malloc`. -/
theorem lf_sys_step_brk (s : lf_sys) (l : lf_label) :
    (lf_sys_step s l).mem.brk ≤ s.mem.brk + 1 := by
  unfold lf_sys_step lf_thread_step
  split
  · split
    · exact Nat.le_refl _
    · exact Nat.le_succ _
  · exact Nat.le_succ _
  · exact Nat.le_succ _
  · exact Nat.le_succ _
  · exact Nat.le_succ _
  · exact Nat.le_succ _
  · exact Nat.le_succ _
  · split
    · exact Nat.le_succ _
    · exact Nat.le_succ _
  · exact Nat.le_succ _
  · exact Nat.le_succ _
  · exact Nat.le_succ _

/-- The queue that `lf_queue_init` leaves satisfies the invariant of the shared
queue: the chain is its one node. -/
theorem lf_inv_start (m0 : memory) (h1 : 1 ≤ m0.brk) : lf_inv (lf_start m0) [m0.brk] [] [] := by
  refine ⟨⟨fun p x ha => ?_, fun pre p e => ?_⟩, List.nodup_singleton _, fun x hx => ?_, ?_, rfl,
    fun t => trivial, fun t u q _ hq => by cases hq⟩
  · obtain ⟨pre, post, e⟩ := ha
    have := congrArg List.length e
    simp at this
    omega
  · have e1 : [m0.brk] = pre ++ [p] := e
    have e2 : ([] : List Nat) ++ [m0.brk] = pre ++ [p] := e1
    have e3 : p = m0.brk := ((List.cons.inj (List.append_inj' e2 rfl).2).1).symm
    rw [e3]
    show (Function.update m0.heap m0.brk _ m0.brk).next = 0
    rw [Function.update_same]
  · rw [List.mem_singleton] at hx
    rw [hx]
    exact ⟨by omega, Nat.lt_succ_self _⟩
  · show m0.brk ∈ [m0.brk]
    simp

theorem lf_inv_run (sched : List lf_label) :
    ∀ (s : lf_sys) (L pre post : List Nat), lf_inv s L pre post →
      (∀ l, l ∈ sched → wrap64 l.ret0 < 256) → s.mem.brk + sched.length ≤ 2 ^ 64 →
      ∃ L1 pre1 post1, lf_inv (lf_run s sched) L1 pre1 post1 := by
  induction sched with
  | nil =>
    intro s L pre post inv _ _
    exact ⟨L, pre, post, inv⟩
  | cons l rest ih =>
    intro s L pre post inv hs hb
    rw [List.length_cons] at hb
    obtain ⟨L1, pre1, post1, inv1⟩ :=
      lf_inv_step inv l (hs l (List.mem_cons_self _ _)) (by omega)
    have hb1 := lf_sys_step_brk s l
    exact ih (lf_sys_step s l) L1 pre1 post1 inv1
      (fun x hx => hs x (List.mem_cons_of_mem _ hx)) (by omega)

/-- The structural invariant of the queue under calls by several threads that
overlap in any way, when the bytes of `ret` that `setz` does not write are zero
at every `compare_and_swap_ptr` call: after any schedule of steps of `lf_enqueue`
and `lf_dequeue` calls from the queue that `lf_queue_init` leaves, also in the
middle of calls, `head` and `tail` are not `NULL`, the chain of `next` pointers
from `head` ends in a node with `next = NULL`, and that node is reached from
`tail`. `malloc` is taken to hand out addresses that fit a pointer. -/
theorem lf_queue_structure_clean (m0 : memory) (sched : List lf_label) (h1 : 1 ≤ m0.brk)
    (h2 : m0.brk + sched.length < 2 ^ 64) (hs : ∀ l, l ∈ sched → wrap64 l.ret0 < 256) :
    queue_wf (lf_run (lf_start m0) sched).mem := by
  obtain ⟨L, pre, post, inv⟩ := lf_inv_run sched (lf_start m0) [m0.brk] [] []
    (lf_inv_start m0 h1) hs (by show m0.brk + 1 + sched.length ≤ 2 ^ 64; omega)
  exact lf_inv_wf inv

/-- The structural invariant under clean bytes at a concrete schedule, the two
overlapping calls of `lf_overlap_clean`. After its first three steps thread 0 has
linked node 2 and `tail` lags on node 1; at the end thread 1 has helped `tail` on
to node 2 and has returned with its own node linked nowhere, thread 0 has
returned, and `tail` is node 2, the last node. -/
theorem lf_queue_structure_clean_witness :
    ((lf_run (lf_start memory_start) (lf_overlap_clean.take 3)).mem.queue.tail = 1 ∧
      chain (lf_run (lf_start memory_start) (lf_overlap_clean.take 3)).mem.heap 8 1 = [1, 2] ∧
      queue_wf (lf_run (lf_start memory_start) (lf_overlap_clean.take 3)).mem) ∧
    (lf_run (lf_start memory_start) lf_overlap_clean).mem.queue.tail = 2 ∧
    chain (lf_run (lf_start memory_start) lf_overlap_clean).mem.heap 8 1 = [1, 2] ∧
    ((lf_run (lf_start memory_start) lf_overlap_clean).th 0).pc = lf_pc.idle ∧
    ((lf_run (lf_start memory_start) lf_overlap_clean).th 1).pc = lf_pc.idle ∧
    queue_wf (lf_run (lf_start memory_start) lf_overlap_clean).mem :=
  ⟨⟨by decide, by decide,
    lf_queue_structure_clean memory_start (lf_overlap_clean.take 3) (by decide) (by decide)
      (by decide)⟩,
   by decide, by decide, by decide, by decide,
   lf_queue_structure_clean memory_start lf_overlap_clean (by decide) (by decide) (by decide)⟩

end SyncPrimitives
